import Mathlib

/-!
# The `ctypes` binary codec of plumber (`src/servlets/javascript/lib/ctypes.js`)

A shallow embedding of the schema compiler (`_getModel`), the parse and dump
engines (`Model.parse`, `Model.dump`) and the facade returned by `modelOf`,
followed by theorems about them.  The cursor of `BlobReader`
(`src/servlets/javascript/lib/pservlet/blob.js`), which supplies the read
callback of the demos, is embedded as well.

Conventions of the embedding.

* An `ArrayBuffer` is a list of bytes; the `DataView` that `modelOf` creates
  spans the whole buffer, so a view is that list.  Writes return the new list.
* Byte offsets, array counts and string widths are natural numbers.
* A JavaScript Number is modelled by an integer (exact for every safe
  integer, which covers all 8/16/32-bit primitives).
* A JavaScript string is its list of UTF-16 code units.
* A JavaScript object is the list of its own enumerable properties in the
  order in which `for (name in obj)` visits them; `setProp` is the
  assignment `obj[name] = v`, `objectLiteral` the evaluation of a literal.
  Properties inherited from prototypes are not modelled: a read of a name
  that `Object.prototype` defines and the object does not, and an assignment
  to `__proto__`, are outside the embedding.
* What the engine computes and the embedding does not (the conversion of a
  string or an object to a Number, the IEEE-754 encoding of a Number) is a
  field of the parameter `Host`.
-/

namespace Ctypes

/-! ## Values of the host language -/

abbrev Byte := Fin 256

abbrev ArrayBuffer := List Byte

abbrev DataView := List Byte

abbrev CodeUnit := Fin 65536

inductive JSError where
  | TypeError
  | RangeError
  | ReferenceError
  deriving DecidableEq, Repr

inductive JSValue where
  | undefined
  | null
  | bool (b : Bool)
  | number (n : Int)
  | string (units : List CodeUnit)
  | array (items : List JSValue)
  | object (props : List (String × JSValue))

/-- The values that are no objects: `x instanceof Object` is false for them. -/
def JSValue.isPrimitive : JSValue → Bool
  | .array _ => false
  | .object _ => false
  | _ => true

/-- Engine primitives that the embedding takes as given. -/
structure Host where
  /-- The integer part of `ToNumber(v)` (0 for NaN and the infinities), for a
  string, an array or an object `v`. -/
  toInteger : JSValue → Int
  /-- The four bytes, least significant first, of the binary32 value that
  `setFloat32` stores for `v`. -/
  float32 : JSValue → Fin 4 → Byte
  /-- The eight bytes, least significant first, of the binary64 value that
  `setFloat64` stores for `v`. -/
  float64 : JSValue → Fin 8 → Byte

/-- The integer that an integer setter of `DataView` reduces modulo `2^w`:
`ToNumber(value)` truncated, with NaN (the Number of `undefined`) as 0. -/
def toIntegral (host : Host) : JSValue → Int
  | .number n => n
  | .undefined => 0
  | .null => 0
  | .bool b => if b then 1 else 0
  | v => host.toInteger v

/-- The result of a write: the new bytes, or the exception together with the
bytes as they are when it is raised. -/
abbrev Dump := Except (JSError × DataView) DataView

/-- A single `DataView` setter either writes or throws without writing. -/
def raiseAt (view : DataView) : Except JSError DataView → Dump
  | .ok view' => .ok view'
  | .error e => .error (e, view)

/-! ## Property lists -/

/-- The number written by `name` when `name` is a canonical decimal numeral
(digits only, no leading zero). -/
def canonicalNumeral? (name : String) : Option Nat :=
  match name.data with
  | [] => none
  | [c] => if c.isDigit then some (c.toNat - 48) else none
  | c :: cs =>
    if c.isDigit && c != '0' && cs.all Char.isDigit then
      some ((c :: cs).foldl (fun acc d => acc * 10 + (d.toNat - 48)) 0)
    else none

/-- An array index is a canonical numeral below `2^32 - 1`; such property names
are enumerated first, in ascending numeric order. -/
def arrayIndex? (name : String) : Option Nat :=
  (canonicalNumeral? name).filter (fun i => i < 4294967295)

/-- Insert a new array-index property at its place among the index keys. -/
def insertIndex {α : Type} (i : Nat) (name : String) (v : α) :
    List (String × α) → List (String × α)
  | [] => [(name, v)]
  | p :: rest =>
    match arrayIndex? p.1 with
    | some j => if j < i then p :: insertIndex i name v rest else (name, v) :: p :: rest
    | none => (name, v) :: p :: rest

/-- The assignment `obj[name] = v` on the property list of `obj`, for every
name but `__proto__`: an assignment to `__proto__` sets the prototype of `obj`
and creates no property, which a property list cannot express.  The statements
about the order of the fields of a schema are restricted to schemas without
that name (`Schema.protoFree`). -/
def setProp {α : Type} (props : List (String × α)) (name : String) (v : α) :
    List (String × α) :=
  if props.any (fun p => p.1 == name) then
    props.map (fun p => if p.1 == name then (name, v) else p)
  else
    match arrayIndex? name with
    | some i => insertIndex i name v props
    | none => props ++ [(name, v)]

/-- Evaluation of an object literal whose properties are written in the order
`decl`. -/
def objectLiteral {α : Type} (decl : List (String × α)) : List (String × α) :=
  decl.foldl (fun props p => setProp props p.1 p.2) []

/-- The read `obj[name]` of a property of `obj` itself.  A name that `obj`
does not have reads as `undefined` here; the engine looks such a name up in the
prototype of `obj` first (`constructor`, `toString` and the other names of
`objectPrototypeNames` for a plain object), and the statements about a missing
field are restricted to names outside that list. -/
def JSValue.getField : JSValue → String → Except JSError JSValue
  | .undefined, _ => .error .TypeError
  | .null, _ => .error .TypeError
  | .object props, name => .ok ((props.lookup name).getD .undefined)
  | .array items, name =>
    match canonicalNumeral? name with
    | some i => .ok (items.getD i .undefined)
    | none => if name = "length" then .ok (.number items.length) else .ok .undefined
  | .string units, name =>
    match canonicalNumeral? name with
    | some i => .ok (match units.get? i with | some c => .string [c] | none => .undefined)
    | none => if name = "length" then .ok (.number units.length) else .ok .undefined
  | _, _ => .ok .undefined

/-- The read `obj[i]` for a loop counter `i`. -/
def JSValue.getIndex : JSValue → Nat → Except JSError JSValue
  | .undefined, _ => .error .TypeError
  | .null, _ => .error .TypeError
  | .array items, i => .ok (items.getD i .undefined)
  | .string units, i => .ok (match units.get? i with | some c => .string [c] | none => .undefined)
  | .object props, i =>
    .ok (((props.find? (fun p => canonicalNumeral? p.1 == some i)).map (fun p => p.2)).getD
      .undefined)
  | _, _ => .ok .undefined

/-! ## `DataView` -/

def byte (n : Nat) : Byte := ⟨n % 256, Nat.mod_lt _ (by decide)⟩

/-- The number whose little-endian digits in base 256 are `raw`. -/
def bytesToNat : List Byte → Nat
  | [] => 0
  | b :: raw => b.val + 256 * bytesToNat raw

/-- The `w` low base-256 digits of `m`, least significant first. -/
def natToBytes : Nat → Nat → List Byte
  | 0, _ => []
  | w + 1, m => byte m :: natToBytes w (m / 256)

/-- Reading of a `w`-byte pattern as a two-complement number. -/
def toSigned (w : Nat) (m : Nat) : Int :=
  if 2 * m < 256 ^ w then (m : Int) else (m : Int) - (256 ^ w : Nat)

/-- Reduction modulo `2^(8w)` (`ToUint8`, `ToUint16`, `ToUint32`). -/
def toUnsigned (w : Nat) (n : Int) : Nat := (n % ((256 ^ w : Nat) : Int)).toNat

/-- The `n` bytes of `view` from position `o` on. -/
def slice (view : List Byte) (o n : Nat) : List Byte := (view.drop o).take n

/-- The bytes of `view` with those from position `o` on overwritten by `raw`. -/
def splice (view : List Byte) (o : Nat) (raw : List Byte) : List Byte :=
  view.take o ++ raw ++ view.drop (o + raw.length)

/-- The bounds check and the read common to the getters of `DataView`. -/
def DataView.getBytes (view : DataView) (byteOffset n : Nat) : Except JSError (List Byte) :=
  if byteOffset + n ≤ view.length then .ok (slice view byteOffset n)
  else .error .RangeError

/-- The bounds check and the write common to the setters of `DataView`. -/
def DataView.setBytes (view : DataView) (byteOffset : Nat) (raw : List Byte) :
    Except JSError DataView :=
  if byteOffset + raw.length ≤ view.length then .ok (splice view byteOffset raw)
  else .error .RangeError

def DataView.getUint (w : Nat) (view : DataView) (byteOffset : Nat) (littleEndian : Bool) :
    Except JSError Int :=
  match view.getBytes byteOffset w with
  | .ok raw => .ok (bytesToNat (if littleEndian then raw else raw.reverse) : Nat)
  | .error e => .error e

def DataView.getInt (w : Nat) (view : DataView) (byteOffset : Nat) (littleEndian : Bool) :
    Except JSError Int :=
  match view.getBytes byteOffset w with
  | .ok raw => .ok (toSigned w (bytesToNat (if littleEndian then raw else raw.reverse)))
  | .error e => .error e

def DataView.setInt (host : Host) (w : Nat) (view : DataView) (byteOffset : Nat)
    (value : JSValue) (littleEndian : Bool) : Except JSError DataView :=
  let raw := natToBytes w (toUnsigned w (toIntegral host value))
  view.setBytes byteOffset (if littleEndian then raw else raw.reverse)

def DataView.getInt8 (view : DataView) (byteOffset : Nat) : Except JSError Int :=
  DataView.getInt 1 view byteOffset true

def DataView.getUint8 (view : DataView) (byteOffset : Nat) : Except JSError Int :=
  DataView.getUint 1 view byteOffset true

def DataView.getInt16 (view : DataView) (byteOffset : Nat) (littleEndian : Bool) :
    Except JSError Int :=
  DataView.getInt 2 view byteOffset littleEndian

def DataView.getUint16 (view : DataView) (byteOffset : Nat) (littleEndian : Bool) :
    Except JSError Int :=
  DataView.getUint 2 view byteOffset littleEndian

def DataView.getInt32 (view : DataView) (byteOffset : Nat) (littleEndian : Bool) :
    Except JSError Int :=
  DataView.getInt 4 view byteOffset littleEndian

def DataView.getUint32 (view : DataView) (byteOffset : Nat) (littleEndian : Bool) :
    Except JSError Int :=
  DataView.getUint 4 view byteOffset littleEndian

def DataView.setInt8 (host : Host) (view : DataView) (byteOffset : Nat) (value : JSValue) :
    Except JSError DataView :=
  DataView.setInt host 1 view byteOffset value true

def DataView.setUint8 (host : Host) (view : DataView) (byteOffset : Nat) (value : JSValue) :
    Except JSError DataView :=
  DataView.setInt host 1 view byteOffset value true

def DataView.setInt16 (host : Host) (view : DataView) (byteOffset : Nat) (value : JSValue)
    (littleEndian : Bool) : Except JSError DataView :=
  DataView.setInt host 2 view byteOffset value littleEndian

def DataView.setUint16 (host : Host) (view : DataView) (byteOffset : Nat) (value : JSValue)
    (littleEndian : Bool) : Except JSError DataView :=
  DataView.setInt host 2 view byteOffset value littleEndian

def DataView.setInt32 (host : Host) (view : DataView) (byteOffset : Nat) (value : JSValue)
    (littleEndian : Bool) : Except JSError DataView :=
  DataView.setInt host 4 view byteOffset value littleEndian

def DataView.setUint32 (host : Host) (view : DataView) (byteOffset : Nat) (value : JSValue)
    (littleEndian : Bool) : Except JSError DataView :=
  DataView.setInt host 4 view byteOffset value littleEndian

def DataView.setFloat32 (host : Host) (view : DataView) (byteOffset : Nat) (value : JSValue)
    (littleEndian : Bool) : Except JSError DataView :=
  let raw := List.ofFn (host.float32 value)
  view.setBytes byteOffset (if littleEndian then raw else raw.reverse)

def DataView.setFloat64 (host : Host) (view : DataView) (byteOffset : Nat) (value : JSValue)
    (littleEndian : Bool) : Except JSError DataView :=
  let raw := List.ofFn (host.float64 value)
  view.setBytes byteOffset (if littleEndian then raw else raw.reverse)

/-- `ToUint16`, applied by `String.fromCharCode` to each argument. -/
def ToUint16 (n : Int) : CodeUnit := ⟨(n % 65536).toNat, by omega⟩

/-- `String.fromCharCode.apply(null, codes)`. -/
def fromCharCode (codes : List Int) : JSValue := .string (codes.map ToUint16)

/-- `value.charCodeAt(i)`; past the end the result is NaN, which a setter
stores as 0. -/
def charCodeAt (units : List CodeUnit) (i : Nat) : JSValue :=
  match units.get? i with
  | some c => .number c.val
  | none => .undefined

/-! ## Loops -/

/-- `for (i = start; ...; i++) ret.push(body(i))`, run `count` times. -/
def collectRange {α : Type} (body : Nat → Except JSError α) :
    Nat → Nat → Except JSError (List α)
  | 0, _ => .ok []
  | count + 1, i =>
    match body i with
    | .error e => .error e
    | .ok x =>
      match collectRange body count (i + 1) with
      | .error e => .error e
      | .ok xs => .ok (x :: xs)

/-- `for (i = start; ...; i++) body(i)`, run `count` times on the view. -/
def forRange (body : Nat → DataView → Dump) : Nat → Nat → DataView → Dump
  | 0, _, view => .ok view
  | count + 1, i, view =>
    match body i view with
    | .error e => .error e
    | .ok view' => forRange body count (i + 1) view'

/-! ## The accessors of the registry (lines 300-315) -/

def _get_int8 (view : DataView) (offest : Nat) : Except JSError JSValue :=
  (DataView.getInt8 view offest).map JSValue.number

def _set_int8 (host : Host) (value : JSValue) (view : DataView) (offest : Nat) :
    Except JSError DataView :=
  DataView.setInt8 host view offest value

def _get_int16 (view : DataView) (offest : Nat) : Except JSError JSValue :=
  (DataView.getInt16 view offest true).map JSValue.number

def _set_int16 (host : Host) (value : JSValue) (view : DataView) (offest : Nat) :
    Except JSError DataView :=
  DataView.setInt16 host view offest value true

def _get_int32 (view : DataView) (offest : Nat) : Except JSError JSValue :=
  (DataView.getInt32 view offest true).map JSValue.number

def _set_int32 (host : Host) (value : JSValue) (view : DataView) (offest : Nat) :
    Except JSError DataView :=
  DataView.setInt32 host view offest value true

def _get_uint8 (view : DataView) (offest : Nat) : Except JSError JSValue :=
  (DataView.getUint8 view offest).map JSValue.number

def _set_uint8 (host : Host) (value : JSValue) (view : DataView) (offest : Nat) :
    Except JSError DataView :=
  DataView.setUint8 host view offest value

def _get_uint16 (view : DataView) (offest : Nat) : Except JSError JSValue :=
  (DataView.getUint16 view offest true).map JSValue.number

def _set_uint16 (host : Host) (value : JSValue) (view : DataView) (offest : Nat) :
    Except JSError DataView :=
  DataView.setUint16 host view offest value true

def _get_uint32 (view : DataView) (offest : Nat) : Except JSError JSValue :=
  (DataView.getUint32 view offest true).map JSValue.number

def _set_uint32 (host : Host) (value : JSValue) (view : DataView) (offest : Nat) :
    Except JSError DataView :=
  DataView.setUint32 host view offest value true

/-- The body is `view.getFloat32(offset, value, true)`: the identifier `value`
is bound neither in the function nor in the enclosing scopes, so evaluating the
arguments throws before `getFloat32` is called. -/
def _get_float (_view : DataView) (_offset : Nat) : Except JSError JSValue :=
  .error .ReferenceError

def _set_float (host : Host) (value : JSValue) (view : DataView) (offset : Nat) :
    Except JSError DataView :=
  DataView.setFloat32 host view offset value true

/-- The body is `view.getFloat64(offset, value, true)`, with the same unbound
identifier as `_get_float`. -/
def _get_double (_view : DataView) (_offset : Nat) : Except JSError JSValue :=
  .error .ReferenceError

def _set_double (host : Host) (value : JSValue) (view : DataView) (offset : Nat) :
    Except JSError DataView :=
  DataView.setFloat64 host view offset value true

/-! ## Primitives: `Num` and `FixedLengthString` -/

/-- The instances of `Num` that exist: the class is private to the module and
is instantiated by the eight registry entries only. -/
inductive Num where
  | int8_t
  | uint8_t
  | int16_t
  | uint16_t
  | int32_t
  | uint32_t
  | float_t
  | double_t
  deriving DecidableEq, Repr

/-- First constructor argument of each registry entry. -/
def Num.__readView : Num → DataView → Nat → Except JSError JSValue
  | .int8_t => _get_int8
  | .uint8_t => _get_uint8
  | .int16_t => _get_int16
  | .uint16_t => _get_uint16
  | .int32_t => _get_int32
  | .uint32_t => _get_uint32
  | .float_t => _get_float
  | .double_t => _get_double

/-- Second constructor argument of each registry entry. -/
def Num.__writeView (host : Host) : Num → JSValue → DataView → Nat → Except JSError DataView
  | .int8_t => _set_int8 host
  | .uint8_t => _set_uint8 host
  | .int16_t => _set_int16 host
  | .uint16_t => _set_uint16 host
  | .int32_t => _set_int32 host
  | .uint32_t => _set_uint32 host
  | .float_t => _set_float host
  | .double_t => _set_double host

/-- Third constructor argument of each registry entry. -/
def Num._size : Num → Nat
  | .int8_t => 1
  | .uint8_t => 1
  | .int16_t => 2
  | .uint16_t => 2
  | .int32_t => 4
  | .uint32_t => 4
  | .float_t => 4
  | .double_t => 8

def Num.getSize (self : Num) : Nat := self._size

def Num.parse (self : Num) (view : DataView) (offset : Nat) : Except JSError JSValue :=
  self.__readView view offset

def Num.dump (host : Host) (self : Num) (value : JSValue) (view : DataView) (offset : Nat) :
    Dump :=
  raiseAt view (self.__writeView host value view offset)

/-- A primitive: an instance of a subclass of `Value`. -/
inductive Value where
  | Num (self : Num)
  | FixedLengthString (_size : Nat) (_wide : Bool)

/-- The constructor `FixedLengthString(size, wide)`; an argument that is not
passed is `undefined`, and `!!undefined` is `false`. -/
def FixedLengthString.new (size : Nat) (wide : Option Bool) : Value :=
  .FixedLengthString size (wide.getD false)

def FixedLengthString.getSize (_size : Nat) (_wide : Bool) : Nat :=
  _size * (if _wide then 2 else 1)

def FixedLengthString.parse (_size : Nat) (_wide : Bool) (view : DataView) (offset : Nat) :
    Except JSError JSValue :=
  match collectRange
      (fun i => if _wide then DataView.getInt16 view (offset + i * 2) false
        else DataView.getInt8 view (offset + i)) _size 0 with
  | .ok readResult => .ok (fromCharCode readResult)
  | .error e => .error e

def FixedLengthString.dump (host : Host) (_size : Nat) (_wide : Bool) (value : JSValue)
    (view : DataView) (offset : Nat) : Dump :=
  match value with
  | .string units =>
    match forRange
        (fun i view => raiseAt view
          (if _wide then DataView.setInt16 host view (offset + i * 2) (charCodeAt units i) false
           else DataView.setInt8 host view (offset + i) (charCodeAt units i)))
        (min units.length _size) 0 view with
    | .error e => .error e
    | .ok view' =>
      forRange
        (fun i view => raiseAt view
          (if _wide then DataView.setInt16 host view (offset + i * 2) (.number 0) false
           else DataView.setInt8 host view (offset + i) (.number 0)))
        (_size - units.length) units.length view'
  | _ => .error (.TypeError, view)

def Value.getSize : Value → Nat
  | .Num self => self.getSize
  | .FixedLengthString size wide => FixedLengthString.getSize size wide

def Value.parse : Value → DataView → Nat → Except JSError JSValue
  | .Num self => self.parse
  | .FixedLengthString size wide => FixedLengthString.parse size wide

def Value.dump (host : Host) : Value → JSValue → DataView → Nat → Dump
  | .Num self => self.dump host
  | .FixedLengthString size wide => FixedLengthString.dump host size wide

/-! ## Models -/

inductive Model where
  | ConstModel (_value : JSValue)
  | ValueModel (_value : Value)
  | ArrayModel (_base : Model) (_size : Nat)
  | ObjectModel (_children : List (String × Model))

mutual
/-- `getSize()`; for an `ObjectModel` the sum that its constructor stores. -/
def Model.getSize : Model → Nat
  | .ConstModel _ => 0
  | .ValueModel value => value.getSize
  | .ArrayModel base size => base.getSize * size
  | .ObjectModel children => Model.childrenSize children
/-- The loop `for (childName in children) this._size += children[childName].getSize()`. -/
def Model.childrenSize : List (String × Model) → Nat
  | [] => 0
  | child :: rest => child.2.getSize + Model.childrenSize rest
end

mutual
def Model.parse : Model → DataView → Nat → Except JSError JSValue
  | .ConstModel value, _, _ => .ok value
  | .ValueModel value, view, offset => value.parse view offset
  | .ArrayModel base size, view, offset =>
    match collectRange (fun i => Model.parse base view (offset + i * base.getSize)) size 0 with
    | .ok ret => .ok (.array ret)
    | .error e => .error e
  | .ObjectModel children, view, offset =>
    match Model.parseChildren children view offset [] with
    | .ok ret => .ok (.object ret)
    | .error e => .error e
/-- The loop of `ObjectModel.parse`, from the current `offset` and `ret`. -/
def Model.parseChildren :
    List (String × Model) → DataView → Nat → List (String × JSValue) →
      Except JSError (List (String × JSValue))
  | [], _, _, ret => .ok ret
  | child :: rest, view, offset, ret =>
    match child.2.parse view offset with
    | .error e => .error e
    | .ok x => Model.parseChildren rest view (offset + child.2.getSize) (setProp ret child.1 x)
end

mutual
def Model.dump (host : Host) : Model → JSValue → DataView → Nat → Dump
  | .ConstModel _, _, view, _ => .ok view
  | .ValueModel value, obj, view, offset => value.dump host obj view offset
  | .ArrayModel base size, obj, view, offset =>
    forRange
      (fun i view =>
        match obj.getIndex i with
        | .error e => .error (e, view)
        | .ok x => Model.dump host base x view (offset + i * base.getSize))
      size 0 view
  | .ObjectModel children, obj, view, offset => Model.dumpChildren host children obj view offset
/-- The loop of `ObjectModel.dump`, from the current `offset`. -/
def Model.dumpChildren (host : Host) :
    List (String × Model) → JSValue → DataView → Nat → Dump
  | [], _, view, _ => .ok view
  | child :: rest, obj, view, offset =>
    match obj.getField child.1 with
    | .error e => .error (e, view)
    | .ok x =>
      match Model.dump host child.2 x view offset with
      | .error e => .error e
      | .ok view' => Model.dumpChildren host rest obj view' (offset + child.2.getSize)
end

/-! ## Schemas and `_getModel` -/

/-- A schema node, by the branch of `_getModel` that takes it.  A `literal` is
a value that is no object; an object or an array is a node `object`. -/
inductive Schema where
  | value (v : Value)
  | valueArray (_baseType : Schema) (_size : Nat)
  | model (m : Model)
  | object (props : List (String × Schema))
  | literal (v : JSValue)

mutual
def _getModel : Schema → Model
  | .value v => .ValueModel v
  | .valueArray baseType size => .ArrayModel (_getModel baseType) size
  | .model m => m
  | .object props => .ObjectModel (_getModelProps props [])
  | .literal v => .ConstModel v
/-- The loop `for (name in model) modelObject[name] = _getModel(model[name])`. -/
def _getModelProps : List (String × Schema) → List (String × Model) → List (String × Model)
  | [], modelObject => modelObject
  | p :: rest, modelObject => _getModelProps rest (setProp modelObject p.1 (_getModel p.2))
end

/-! ## The registry and the facade (lines 316-384) -/

def int8_t : Value := .Num .int8_t

def uint8_t : Value := .Num .uint8_t

def int16_t : Value := .Num .int16_t

def uint16_t : Value := .Num .uint16_t

def int32_t : Value := .Num .int32_t

def uint32_t : Value := .Num .uint32_t

def float_t : Value := .Num .float_t

def double_t : Value := .Num .double_t

/-- The entry `fixed_length_string_t: function(size) ...` declares one
parameter and calls `new FixedLengthString(size)`.  A second argument of a
call, here `flag`, is bound to no parameter and is not passed on. -/
def fixed_length_string_t (size : Nat) (_flag : Option Bool) : Value :=
  FixedLengthString.new size none

def arrayOf (type : Schema) (size : Nat) : Schema := .valueArray type size

/-- The object returned by `modelOf`; its methods close over `model`. -/
structure Facade where
  model : Model

def modelOf (type : Schema) : Facade := ⟨_getModel type⟩

def Facade.size (self : Facade) : Nat := self.model.getSize

def Facade.parse (self : Facade) (read_callback : Nat → ArrayBuffer) : Except JSError JSValue :=
  let size := self.model.getSize
  let buffer := read_callback size
  let view : DataView := buffer
  self.model.parse view 0

def Facade.dump (host : Host) (self : Facade) (obj : JSValue) : Except JSError ArrayBuffer :=
  let size := self.model.getSize
  let arrayBuffer : ArrayBuffer := List.replicate size 0
  let view : DataView := arrayBuffer
  match self.model.dump host obj view 0 with
  | .ok view' => .ok view'
  | .error (e, _) => .error e

/-! ## Vocabulary of the statements -/

/-- The values that an integer primitive represents: the two-complement range
of its width when signed, `0 .. 2^w - 1` when unsigned. -/
def Num.inRange : Num → Int → Bool
  | .int8_t, v => decide (-128 ≤ v ∧ v ≤ 127)
  | .uint8_t, v => decide (0 ≤ v ∧ v ≤ 255)
  | .int16_t, v => decide (-32768 ≤ v ∧ v ≤ 32767)
  | .uint16_t, v => decide (0 ≤ v ∧ v ≤ 65535)
  | .int32_t, v => decide (-2147483648 ≤ v ∧ v ≤ 2147483647)
  | .uint32_t, v => decide (0 ≤ v ∧ v ≤ 4294967295)
  | .float_t, _ => false
  | .double_t, _ => false

/-- Whether an integer primitive reads its bytes as a two-complement number. -/
def Num.signed : Num → Bool
  | .int8_t => true
  | .int16_t => true
  | .int32_t => true
  | _ => false

/-- A host on which the examples are evaluated: a string, an array or an object
converts to NaN.  No example stores a float, and the float fields are filled
with zero bytes. -/
def sampleHost : Host := ⟨fun _ => 0, fun _ _ => 0, fun _ _ => 0⟩

/-- The concatenation of `enc i, enc (i + 1), ...`, `count` blocks in all, when
every one of them exists. -/
def encodeRange (enc : Nat → Option (List Byte)) : Nat → Nat → Option (List Byte)
  | 0, _ => some []
  | count + 1, i =>
    match enc i with
    | none => none
    | some a =>
      match encodeRange enc count (i + 1) with
      | none => none
      | some b => some (a ++ b)

/-- What a write of the bytes `enc` at `offset` amounts to: the spliced view
when the bytes exist, an exception otherwise. -/
def Writes (r : Dump) (view : DataView) (offset : Nat) (enc : Option (List Byte)) (size : Nat) :
    Prop :=
  match enc with
  | some raw => r = .ok (splice view offset raw) ∧ raw.length = size
  | none => ∃ e, r = .error e

/-- The code unit that `charCodeAt(i)` contributes to a write: 0 past the end. -/
def codeAt (units : List CodeUnit) (i : Nat) : Nat :=
  match units.get? i with
  | some c => c.val
  | none => 0

/-- The bytes of one code unit in a string field: one byte, or two with the
high byte first in a wide field. -/
def unitBytes (wide : Bool) (c : Nat) : List Byte :=
  if wide then [byte (c / 256), byte c] else [byte c]

/-- The concatenation of the blocks `f i, f (i + 1), ...`, `count` in all. -/
def concatRange (f : Nat → List Byte) : Nat → Nat → List Byte
  | 0, _ => []
  | count + 1, i => f i ++ concatRange f count (i + 1)

/-- The bytes that a string field of `size` code units holds after a dump of
`units`. -/
def stringBytes (size : Nat) (wide : Bool) (units : List CodeUnit) : List Byte :=
  concatRange (fun i => unitBytes wide (codeAt units i)) size 0

/-- The bytes that a `Num` writes for `value`. -/
def Num.bytes (host : Host) (self : Num) (value : JSValue) : List Byte :=
  match self with
  | .float_t => List.ofFn (host.float32 value)
  | .double_t => List.ofFn (host.float64 value)
  | _ => natToBytes self.getSize (toUnsigned self.getSize (toIntegral host value))

/-- The bytes that a primitive writes for `value`, when it accepts it. -/
def Value.encode (host : Host) : Value → JSValue → Option (List Byte)
  | .Num self, value => some (self.bytes host value)
  | .FixedLengthString size wide, .string units => some (stringBytes size wide units)
  | .FixedLengthString _ _, _ => none

mutual
/-- The bytes that `Model.dump` writes for `obj`, when the dump returns: the
blocks of the children, the elements or the primitive, one after the other. -/
def Model.encode (host : Host) : Model → JSValue → Option (List Byte)
  | .ConstModel _, _ => some []
  | .ValueModel value, obj => value.encode host obj
  | .ArrayModel base size, obj =>
    encodeRange
      (fun i =>
        match obj.getIndex i with
        | .error _ => none
        | .ok x => Model.encode host base x)
      size 0
  | .ObjectModel children, obj => Model.encodeChildren host children obj
/-- The blocks of the children of a record, in the order of the children. -/
def Model.encodeChildren (host : Host) : List (String × Model) → JSValue → Option (List Byte)
  | [], _ => some []
  | child :: rest, obj =>
    match obj.getField child.1 with
    | .error _ => none
    | .ok x =>
      match Model.encode host child.2 x with
      | none => none
      | some a =>
        match Model.encodeChildren host rest obj with
        | none => none
        | some b => some (a ++ b)
end

/-- The schema of the doc comment of `modelOf` (lines 331-345):
`{a: int32_t(), b: int8_t(), c: arrayOf(int32_t(), 3)}`. -/
def docStruct : Schema :=
  .object (objectLiteral
    [("a", .value int32_t), ("b", .value int8_t), ("c", arrayOf (.value int32_t) 3)])

/-- The integer primitives of the registry. -/
def Num.isInteger : Num → Bool
  | .float_t => false
  | .double_t => false
  | _ => true

mutual
/-- Schemas built from integer primitives, fixed-length strings of the
registry (one byte per character), arrays, nested records and literal
constants. -/
def Schema.plain : Schema → Bool
  | .value (.Num self) => self.isInteger
  | .value (.FixedLengthString _ wide) => !wide
  | .valueArray baseType _ => baseType.plain
  | .model _ => false
  | .object props => Schema.plainProps props
  | .literal v => v.isPrimitive
/-- Every property of a record schema is plain. -/
def Schema.plainProps : List (String × Schema) → Bool
  | [] => true
  | p :: rest => p.2.plain && Schema.plainProps rest
end

mutual
/-- The models that `_getModel` compiles from plain schemas: the primitives are
integers or one-byte strings, and the names of a record are distinct. -/
def Model.plain : Model → Bool
  | .ConstModel _ => true
  | .ValueModel (.Num self) => self.isInteger
  | .ValueModel (.FixedLengthString _ wide) => !wide
  | .ArrayModel base _ => base.plain
  | .ObjectModel children =>
    decide ((children.map Prod.fst).Nodup) && Model.plainChildren children
/-- Every child of a record is plain. -/
def Model.plainChildren : List (String × Model) → Bool
  | [] => true
  | child :: rest => child.2.plain && Model.plainChildren rest
end

/-- A schema with every kind of plain node, on which examples are evaluated. -/
def sampleSchema : Schema :=
  .object (objectLiteral
    [("magic", .literal (.string [0x50, 0x4B])),
     ("pk", .value (fixed_length_string_t 2 none)),
     ("type", .value uint16_t),
     ("body", .object (objectLiteral [("x", .value int8_t)])),
     ("tail", arrayOf (.value int16_t) 2)])

/-- A buffer of the size of `sampleSchema`, with bytes above 127. -/
def sampleBuffer : ArrayBuffer := [0x50, 0xCB, 0x03, 0x04, 0xFF, 0x01, 0x80, 0xFE, 0xFF]

/-- The model `zip_file_signature` of `src/misc/jsdemo/readzip.js` (lines 8-11). -/
def zip_file_signature : Facade :=
  modelOf (.object (objectLiteral
    [("pk", .value (fixed_length_string_t 2 none)), ("type", .value uint16_t)]))

/-- Whether a property named `a` is enumerated before a property named `b`
that was created after it: array indices come first, in ascending numeric
order, and the other names follow in the order of their creation. -/
def enumBefore (a b : String) : Bool :=
  match arrayIndex? a, arrayIndex? b with
  | some i, some j => decide (i < j)
  | some _, none => true
  | none, some _ => false
  | none, none => true

/-- The names are distinct and stand in the order in which `for (name in obj)`
visits them. -/
def KeysOrdered (keys : List String) : Prop :=
  keys.Nodup ∧ keys.Pairwise (fun a b => enumBefore a b = true)

instance (keys : List String) : Decidable (KeysOrdered keys) := by
  unfold KeysOrdered
  infer_instance

/-- A list of named items that an object enumerates in the order of the list:
written as a literal in this order, it is enumerated in this order. -/
def IsPropertyList {α : Type} (props : List (String × α)) : Prop :=
  KeysOrdered (props.map Prod.fst)

instance {α : Type} (props : List (String × α)) : Decidable (IsPropertyList props) := by
  unfold IsPropertyList
  infer_instance

/-- The names of the fields of a Record model, in the order of its children. -/
def Model.fieldNames : Model → List String
  | .ObjectModel children => children.map Prod.fst
  | _ => []

/-- The models whose `dump` reads a property or checks the type of the value
before anything else: a fixed-length string, a record with at least one field
and an array of positive count. -/
def Model.needsValue : Model → Bool
  | .ValueModel (.FixedLengthString _ _) => true
  | .ObjectModel (_ :: _) => true
  | .ArrayModel _ (_ + 1) => true
  | _ => false

/-- The buffer in which a write ends, whether it returns or throws. -/
def finalView : Dump → DataView
  | .ok view => view
  | .error (_, view) => view

/-- The buffer `view'` has the length of `view` and the bytes of `view` at
every position outside `[offset, offset + size)`. -/
def SameOutside (view view' : DataView) (offset size : Nat) : Prop :=
  view'.length = view.length ∧
    ∀ j, (j < offset ∨ offset + size ≤ j) → view'[j]? = view[j]?

/-- `parse` of the facade (lines 359-364) for a read callback that has a state
of its own, such as the cursor of a blob reader: the callback is applied to
`size` in the state `s`, and the state it leaves is returned with the result
of `model.parse(view, 0)`. -/
def Facade.parseWith {σ : Type} (self : Facade) (read_callback : Nat → σ → ArrayBuffer × σ)
    (s : σ) : Except JSError JSValue × σ :=
  let size := self.model.getSize
  let r := read_callback size s
  let buffer := r.1
  let view : DataView := buffer
  (self.model.parse view 0, r.2)

/-- A read callback that also appends each argument it is called with to a
log. -/
def logCalls {σ : Type} (read_callback : Nat → σ → ArrayBuffer × σ) :
    Nat → List Nat × σ → ArrayBuffer × (List Nat × σ) :=
  fun n s => ((read_callback n s.2).1, (s.1 ++ [n], (read_callback n s.2).2))

/-- The `n` bytes of `view` from `o` on are the `n` bytes of `view'` from `o'`
on, and both windows lie inside their views. -/
def SameWindow (view view' : DataView) (o o' n : Nat) : Prop :=
  o + n ≤ view.length ∧ o' + n ≤ view'.length ∧ slice view o n = slice view' o' n

/-- A read function over the bytes `b` of an input: called with `n`, it returns
the `n` bytes at the cursor and moves the cursor past them. -/
def readSequential (b : ArrayBuffer) : Nat → Nat → ArrayBuffer × Nat :=
  fun n cursor => (slice b cursor n, cursor + n)

/-- The suffix schema `{filename: fixed_length_string_t(n)}` of the
variable-length scenario, after `src/misc/jsdemo/readzip.js` lines 56-57. -/
def suffixSchema (n : Nat) : Schema :=
  .object (objectLiteral [("filename", .value (fixed_length_string_t n none))])

/-- The single record `{header: H, suffix: {filename: fixed_length_string_t(n)}}`
with which the two-phase parse is compared. -/
def oneShotSchema (H : Schema) (n : Nat) : Schema :=
  .object (objectLiteral [("header", H), ("suffix", suffixSchema n)])

/-- A fixed header with a length field, for the variable-length scenario:
`{version: uint16_t(), name_length: uint16_t()}`. -/
def sampleHeader : Schema :=
  .object (objectLiteral [("version", .value uint16_t), ("name_length", .value uint16_t)])

/-- A record of `sampleHeader` with `name_length = 5`, followed by the five
bytes of `ab.js`. -/
def sampleRecord : ArrayBuffer := [0x14, 0x00, 0x05, 0x00, 0x61, 0x62, 0x2E, 0x6A, 0x73]

/-! ## The blob reader (`src/servlets/javascript/lib/pservlet/blob.js`) -/

/-- The builtins of the servlet runtime that a `BlobReader` calls, applied to
the handle of its blob. -/
structure BlobHost where
  /-- `__blob_size(handle)`: the number of bytes of the blob. -/
  __blob_size : Nat
  /-- `__blob_get(handle, offset, n, 0)`: an `ArrayBuffer`, or `undefined`. -/
  __blob_get : Int → Int → Option ArrayBuffer

/-- The fields of a `BlobReader` (the sentinel that keeps the handle alive is
not modelled). -/
structure BlobReader where
  _offset : Int
  _size : Int

/-- The constructor (lines 13-17). -/
def BlobReader.new (host : BlobHost) : BlobReader :=
  { _offset := 0, _size := host.__blob_size }

/-- `readBytes(n)` (lines 24-36); `none` is an argument that is not passed. The
result is the value returned and the reader after the call. -/
def BlobReader.readBytes (host : BlobHost) (self : BlobReader) (n : Option Int) :
    Option ArrayBuffer × BlobReader :=
  let n := match n with
    | none => 0
    | some n => n
  let n := if self._size ≤ self._offset + n then self._size - self._offset else n
  let ret := host.__blob_get self._offset n
  match ret with
  | some buffer => (some buffer, { self with _offset := self._offset + buffer.length })
  | none => (none, self)

/-- `skip(n)` (lines 62-67). -/
def BlobReader.skip (self : BlobReader) (n : Int) : BlobReader :=
  let offset := self._offset + n
  let offset := if offset > self._size then self._size else offset
  { self with _offset := offset }

/-- `reset()` (lines 73-75). -/
def BlobReader.reset (self : BlobReader) : BlobReader :=
  { self with _offset := 0 }

/-- `size()` (lines 81-83). -/
def BlobReader.size (host : BlobHost) (_self : BlobReader) : Int :=
  host.__blob_size

/-- `bytesAvaliable()` (lines 89-91). -/
def BlobReader.bytesAvaliable (host : BlobHost) (self : BlobReader) : Int :=
  self.size host - self._offset

/-- The host returns exactly the number of bytes requested, for a request that
lies inside the blob. -/
def BlobHost.Exact (host : BlobHost) : Prop :=
  ∀ offset n : Int, 0 ≤ offset → 0 ≤ n → offset + n ≤ host.__blob_size →
    ∃ buffer, host.__blob_get offset n = some buffer ∧ (buffer.length : Int) = n

/-- A call that moves the cursor of a reader. -/
inductive BlobCall where
  | readBytes (n : Int)
  | skip (n : Int)
  | reset

/-- The argument of a call (0 for `reset()`, which has none). -/
def BlobCall.arg : BlobCall → Int
  | .readBytes n => n
  | .skip n => n
  | .reset => 0

/-- The reader after one call. -/
def BlobReader.call (host : BlobHost) (self : BlobReader) : BlobCall → BlobReader
  | .readBytes n => (self.readBytes host (some n)).2
  | .skip n => self.skip n
  | .reset => self.reset

/-- The reader after a sequence of calls. -/
def BlobReader.calls (host : BlobHost) (self : BlobReader) (cs : List BlobCall) : BlobReader :=
  cs.foldl (BlobReader.call host) self

/-- The cursor lies inside the blob, and the size that the constructor stored
is the size of the blob. -/
def BlobReader.Inv (host : BlobHost) (self : BlobReader) : Prop :=
  0 ≤ self._offset ∧ self._offset ≤ self._size ∧ self._size = host.__blob_size

instance (host : BlobHost) (self : BlobReader) : Decidable (self.Inv host) := by
  unfold BlobReader.Inv
  infer_instance

/-- A host whose blob holds the bytes `data`. -/
def sliceHost (data : List Byte) : BlobHost :=
  { __blob_size := data.length
    __blob_get := fun offset n => some (slice data offset.toNat n.toNat) }

/-- A sequence of calls on which examples are evaluated: the second call asks
for more than is left. -/
def sampleCalls : List BlobCall := [.readBytes 2, .skip 10, .reset, .readBytes 4]

/-- The names of the properties of `Object.prototype` (ECMAScript 2017, 19.1.3
and B.2.2): an object written as a literal, or returned by `parse`, inherits
a property of each of these names, so that `obj[name]` finds a value for them
when `obj` has no property of its own with that name. -/
def objectPrototypeNames : List String :=
  ["constructor", "hasOwnProperty", "isPrototypeOf", "propertyIsEnumerable", "toLocaleString",
    "toString", "valueOf", "__proto__", "__defineGetter__", "__defineSetter__",
    "__lookupGetter__", "__lookupSetter__"]

mutual
/-- No Record of the model has a field named `__proto__`.  The models that
`_getModel` builds are of this kind: the assignment of line 294 to that name
sets the prototype of `modelObject` and adds no field. -/
def Model.protoFree : Model → Bool
  | .ConstModel _ => true
  | .ValueModel _ => true
  | .ArrayModel base _ => base.protoFree
  | .ObjectModel children => Model.protoFreeChildren children
/-- No child is named `__proto__`, and every child is `protoFree`. -/
def Model.protoFreeChildren : List (String × Model) → Bool
  | [] => true
  | child :: rest => child.1 != "__proto__" && child.2.protoFree && Model.protoFreeChildren rest
end

mutual
/-- No object of the schema, at any depth, has a property named `__proto__`. -/
def Schema.protoFree : Schema → Bool
  | .value _ => true
  | .valueArray baseType _ => baseType.protoFree
  | .model m => m.protoFree
  | .object props => Schema.protoFreeProps props
  | .literal _ => true
/-- No property is named `__proto__`, and every property is `protoFree`. -/
def Schema.protoFreeProps : List (String × Schema) → Bool
  | [] => true
  | p :: rest => p.1 != "__proto__" && p.2.protoFree && Schema.protoFreeProps rest
end

/-! # Theorems -/

/-! ## Bytes and windows of a view -/

theorem natToBytes_length (w m : Nat) : (natToBytes w m).length = w := by
  induction w generalizing m with
  | zero => rfl
  | succ w ih => simp [natToBytes, ih]

theorem bytesToNat_lt (raw : List Byte) : bytesToNat raw < 256 ^ raw.length := by
  induction raw with
  | nil => simp [bytesToNat]
  | cons b raw ih =>
    have hb := b.isLt
    simp only [bytesToNat, List.length_cons, pow_succ]
    omega

theorem bytesToNat_natToBytes (w m : Nat) : bytesToNat (natToBytes w m) = m % 256 ^ w := by
  induction w generalizing m with
  | zero => simp [natToBytes, bytesToNat, Nat.mod_one]
  | succ w ih =>
    simp only [natToBytes, bytesToNat, byte, ih, pow_succ]
    rw [Nat.mul_comm (256 ^ w) 256, Nat.mod_mul]

theorem natToBytes_bytesToNat (raw : List Byte) :
    natToBytes raw.length (bytesToNat raw) = raw := by
  induction raw with
  | nil => rfl
  | cons b raw ih =>
    have hb := b.isLt
    simp only [List.length_cons, natToBytes, bytesToNat]
    have h1 : (b.val + 256 * bytesToNat raw) / 256 = bytesToNat raw := by omega
    have h2 : byte (b.val + 256 * bytesToNat raw) = b := by
      apply Fin.ext
      simp only [byte]
      omega
    rw [h1, h2, ih]

theorem slice_length (view : List Byte) (o n : Nat) (h : o + n ≤ view.length) :
    (slice view o n).length = n := by
  simp [slice]; omega

theorem splice_length (view : List Byte) (o : Nat) (raw : List Byte)
    (h : o + raw.length ≤ view.length) : (splice view o raw).length = view.length := by
  simp [splice]; omega

/-- A view splits around a window that fits in it. -/
theorem exists_window (view : List Byte) (o n : Nat) (h : o + n ≤ view.length) :
    ∃ pre mid post, view = pre ++ mid ++ post ∧ pre.length = o ∧ mid.length = n := by
  refine ⟨view.take o, (view.drop o).take n, (view.drop o).drop n, ?_, ?_, ?_⟩
  · rw [List.append_assoc, List.take_append_drop, List.take_append_drop]
  · simp; omega
  · simp; omega

theorem slice_window (pre mid post : List Byte) :
    slice (pre ++ mid ++ post) pre.length mid.length = mid := by
  simp [slice, List.append_assoc]

theorem splice_window (pre mid post raw : List Byte) (h : raw.length = mid.length) :
    splice (pre ++ mid ++ post) pre.length raw = pre ++ raw ++ post := by
  simp only [splice, List.append_assoc]
  rw [List.take_left, h, List.drop_append, List.drop_left]

theorem slice_splice (view : List Byte) (o : Nat) (raw : List Byte)
    (h : o + raw.length ≤ view.length) : slice (splice view o raw) o raw.length = raw := by
  obtain ⟨pre, mid, post, rfl, rfl, hm⟩ := exists_window view o raw.length h
  rw [splice_window _ _ _ _ hm.symm, slice_window]

theorem splice_splice (view : List Byte) (o : Nat) (a b : List Byte)
    (h : o + a.length + b.length ≤ view.length) :
    splice (splice view o a) (o + a.length) b = splice view o (a ++ b) := by
  obtain ⟨pre, mid, post, rfl, rfl, hm⟩ :=
    exists_window view o (a.length + b.length) (by omega)
  obtain ⟨m1, m2, m3, rfl, h1, h2⟩ := exists_window mid a.length b.length (by omega)
  have h3 : m3 = [] := by
    apply List.eq_nil_of_length_eq_zero
    simp only [List.length_append] at hm
    omega
  subst h3
  have e1 : pre ++ (m1 ++ m2 ++ []) ++ post = pre ++ m1 ++ (m2 ++ post) := by simp
  have e2 : pre ++ a ++ (m2 ++ post) = (pre ++ a) ++ m2 ++ post := by simp
  have e3 : pre.length + a.length = (pre ++ a).length := by simp
  rw [splice_window pre (m1 ++ m2 ++ []) post (a ++ b) (by simp [h1, h2]), e1,
    splice_window pre m1 (m2 ++ post) a h1.symm, e2, e3,
    splice_window (pre ++ a) m2 post b h2.symm]
  simp

theorem slice_add (view : List Byte) (o n k : Nat) :
    slice view o (n + k) = slice view o n ++ slice view (o + n) k := by
  simp only [slice]
  rw [List.take_add, List.drop_drop]

theorem splice_nil (view : List Byte) (o : Nat) : splice view o [] = view := by
  simp [splice]

theorem splice_zero_full (view raw : List Byte) (h : raw.length = view.length) :
    splice view 0 raw = raw := by
  simp [splice, h]

theorem slice_zero_full (view : List Byte) : slice view 0 view.length = view := by
  simp [slice]

theorem slice_succ (view : List Byte) (o n : Nat) (h : o < view.length) :
    slice view o (n + 1) = view[o] :: slice view (o + 1) n := by
  simp only [slice]
  rw [List.drop_eq_getElem_cons h, List.take_succ_cons]

theorem toUnsigned_toSigned (w m : Nat) (h : m < 256 ^ w) : toUnsigned w (toSigned w m) = m := by
  have hp : (0 : Int) < ((256 ^ w : Nat) : Int) := by positivity
  simp only [toUnsigned, toSigned]
  split
  · rw [Int.emod_eq_of_lt (by omega) (by omega)]; simp
  · rw [Int.sub_emod, Int.emod_self, sub_zero, Int.emod_emod_of_dvd _ (dvd_refl _),
      Int.emod_eq_of_lt (by omega) (by omega)]
    simp

theorem toUnsigned_of_range (w : Nat) (v : Int) (h0 : 0 ≤ v) (h1 : v < ((256 ^ w : Nat) : Int)) :
    ((toUnsigned w v : Nat) : Int) = v := by
  simp only [toUnsigned]
  rw [Int.emod_eq_of_lt h0 h1]
  omega

theorem toSigned_toUnsigned (w : Nat) (v : Int) (h0 : -((256 ^ w : Nat) : Int) ≤ 2 * v)
    (h1 : 2 * v < ((256 ^ w : Nat) : Int)) : toSigned w (toUnsigned w v) = v := by
  have hp : (0 : Int) < ((256 ^ w : Nat) : Int) := by positivity
  simp only [toUnsigned, toSigned]
  by_cases hv : 0 ≤ v
  · rw [Int.emod_eq_of_lt hv (by omega)]
    rw [if_pos (by omega)]
    omega
  · have e : v % ((256 ^ w : Nat) : Int) = v + ((256 ^ w : Nat) : Int) := by
      rw [← Int.add_emod_self, Int.emod_eq_of_lt (by omega) (by omega)]
    rw [e, if_neg (by omega)]
    omega

/-! ## Integer accessors -/

theorem setInt_ok (host : Host) (w : Nat) (view : DataView) (o : Nat) (value : JSValue)
    (h : o + w ≤ view.length) :
    DataView.setInt host w view o value true =
      .ok (splice view o (natToBytes w (toUnsigned w (toIntegral host value)))) := by
  simp [DataView.setInt, DataView.setBytes, natToBytes_length, h]

theorem getUint_ok (w : Nat) (view : DataView) (o : Nat) (h : o + w ≤ view.length) :
    DataView.getUint w view o true = .ok ((bytesToNat (slice view o w) : Nat) : Int) := by
  simp [DataView.getUint, DataView.getBytes, h]

theorem getInt_ok (w : Nat) (view : DataView) (o : Nat) (h : o + w ≤ view.length) :
    DataView.getInt w view o true = .ok (toSigned w (bytesToNat (slice view o w))) := by
  simp [DataView.getInt, DataView.getBytes, h]

theorem getD_splice (view : List Byte) (o : Nat) (raw : List Byte) (k : Nat)
    (h : o + raw.length ≤ view.length) (hk : k < raw.length) :
    (splice view o raw).getD (o + k) 0 = raw.getD k 0 := by
  obtain ⟨pre, mid, post, rfl, rfl, hm⟩ := exists_window view o raw.length h
  rw [splice_window _ _ _ _ hm.symm]
  simp only [List.getD_eq_getElem?_getD, List.append_assoc]
  rw [List.getElem?_append_right (by omega)]
  simp [List.getElem?_append_left hk]

theorem getD_natToBytes (w m k : Nat) (hk : k < w) :
    (natToBytes w m).getD k 0 = byte (m / 256 ^ k) := by
  induction w generalizing m k with
  | zero => omega
  | succ w ih =>
    cases k with
    | zero => simp [natToBytes]
    | succ k =>
      simp only [natToBytes, List.getD_cons_succ]
      rw [ih _ _ (by omega), Nat.div_div_eq_div_mul, pow_succ, Nat.mul_comm]

theorem bytesToNat_slice (view : List Byte) (o w : Nat) (h : o + w ≤ view.length) :
    bytesToNat (slice view o w) =
      ∑ k ∈ Finset.range w, (view.getD (o + k) 0).val * 256 ^ k := by
  induction w generalizing o with
  | zero => simp [slice, bytesToNat]
  | succ w ih =>
    rw [slice_succ view o w (by omega), bytesToNat, ih (o + 1) (by omega),
      Finset.sum_range_succ', Finset.mul_sum]
    have e : view.getD (o + 0) 0 = view[o] := by
      simp [List.getD_eq_getElem?_getD, List.getElem?_eq_getElem (show o < view.length by omega)]
    rw [e, pow_zero, mul_one, add_comm]
    congr 1
    apply Finset.sum_congr rfl
    intro k _
    rw [show o + 1 + k = o + (k + 1) by omega, pow_succ]
    ring

theorem byte_toUnsigned (w : Nat) (v : Int) (k : Nat) :
    ((byte (toUnsigned w v / 256 ^ k)).val : Int) = v % 2 ^ (8 * w) / 256 ^ k % 256 := by
  have hp : (0 : Int) ≤ v % ((256 ^ w : Nat) : Int) :=
    Int.emod_nonneg v (by positivity)
  have e : ((256 ^ w : Nat) : Int) = 2 ^ (8 * w) := by
    push_cast
    rw [pow_mul]
    norm_num
  simp only [byte, toUnsigned]
  push_cast
  rw [Int.toNat_of_nonneg (by simpa using hp)]
  rw [← e]
  push_cast
  rfl



theorem num_dump_int (host : Host) (n : Num) (hn : n ≠ .float_t ∧ n ≠ .double_t)
    (value : JSValue) (view : DataView) (offset : Nat) (hfit : offset + n.getSize ≤ view.length) :
    n.dump host value view offset =
      .ok (splice view offset
        (natToBytes n.getSize (toUnsigned n.getSize (toIntegral host value)))) := by
  cases n
  case float_t => exact absurd rfl hn.1
  case double_t => exact absurd rfl hn.2
  all_goals
    simp only [Num.getSize, Num._size] at hfit
    simp only [Num.dump, Num.__writeView, _set_int8, _set_uint8, _set_int16, _set_uint16,
      _set_int32, _set_uint32, DataView.setInt8, DataView.setUint8, DataView.setInt16,
      DataView.setUint16, DataView.setInt32, DataView.setUint32, Num.getSize, Num._size,
      setInt_ok host _ view offset value hfit, raiseAt]

theorem num_parse_int (n : Num) (hn : n ≠ .float_t ∧ n ≠ .double_t)
    (view : DataView) (offset : Nat) (hfit : offset + n.getSize ≤ view.length) :
    n.parse view offset =
      .ok (.number (if n.signed then toSigned n.getSize (bytesToNat (slice view offset n.getSize))
        else ((bytesToNat (slice view offset n.getSize) : Nat) : Int))) := by
  cases n
  case float_t => exact absurd rfl hn.1
  case double_t => exact absurd rfl hn.2
  all_goals
    simp only [Num.getSize, Num._size] at hfit
    simp only [Num.parse, Num.__readView, _get_int8, _get_uint8, _get_int16, _get_uint16,
      _get_int32, _get_uint32, DataView.getInt8, DataView.getUint8, DataView.getInt16,
      DataView.getUint16, DataView.getInt32, DataView.getUint32, Num.getSize, Num._size,
      getInt_ok _ view offset hfit, getUint_ok _ view offset hfit, Except.map, Num.signed,
      if_true, Bool.false_eq_true, if_false]

theorem inRange_not_float (n : Num) (v : Int) (hv : n.inRange v = true) :
    n ≠ .float_t ∧ n ≠ .double_t := by
  cases n <;> simp [Num.inRange] at hv ⊢

theorem inRange_bounds (n : Num) (v : Int) (hv : n.inRange v = true) :
    if n.signed then -((256 ^ n.getSize : Nat) : Int) ≤ 2 * v ∧ 2 * v < ((256 ^ n.getSize : Nat) : Int)
    else 0 ≤ v ∧ v < ((256 ^ n.getSize : Nat) : Int) := by
  cases n <;> simp only [Num.inRange, decide_eq_true_eq, Bool.false_eq_true] at hv <;>
    simp only [Num.signed, Num.getSize, Num._size, if_true, Bool.false_eq_true, if_false] <;>
    norm_num <;> omega

/-- Claim C2: for every integer primitive, every integer `v` in its range and
every view and offset with `offset + width ≤ length`, `dump(v, view, offset)`
succeeds and `parse(view, offset)` on the written view returns exactly `v`. -/
theorem int_dump_parse_roundtrip (host : Host) (n : Num) (v : Int) (hv : n.inRange v = true)
    (view : DataView) (offset : Nat) (hfit : offset + n.getSize ≤ view.length) :
    ∃ view', n.dump host (.number v) view offset = .ok view' ∧
      n.parse view' offset = .ok (.number v) := by
  have hn := inRange_not_float n v hv
  have hb := inRange_bounds n v hv
  refine ⟨_, num_dump_int host n hn _ view offset hfit, ?_⟩
  have hlen : (natToBytes n.getSize (toUnsigned n.getSize (toIntegral host (.number v)))).length
      = n.getSize := natToBytes_length _ _
  have hfit' : offset + n.getSize ≤ (splice view offset
      (natToBytes n.getSize (toUnsigned n.getSize (toIntegral host (.number v))))).length := by
    rw [splice_length _ _ _ (by rw [hlen]; exact hfit)]
    exact hfit
  rw [num_parse_int n hn _ offset hfit']
  have hs : slice (splice view offset
      (natToBytes n.getSize (toUnsigned n.getSize (toIntegral host (.number v))))) offset n.getSize
      = natToBytes n.getSize (toUnsigned n.getSize (toIntegral host (.number v))) := by
    have := slice_splice view offset
      (natToBytes n.getSize (toUnsigned n.getSize (toIntegral host (.number v))))
      (by rw [hlen]; exact hfit)
    rwa [hlen] at this
  rw [hs, bytesToNat_natToBytes]
  have hp : (0 : Int) < ((256 ^ n.getSize : Nat) : Int) := by positivity
  have hlt : toUnsigned n.getSize v < 256 ^ n.getSize := by
    have := Int.emod_lt_of_pos v hp
    have := Int.emod_nonneg v (ne_of_gt hp)
    simp only [toUnsigned]
    omega
  simp only [toIntegral]
  rw [Nat.mod_eq_of_lt hlt]
  cases hsg : n.signed
  · rw [hsg] at hb
    simp only [Bool.false_eq_true, if_false] at hb ⊢
    rw [toUnsigned_of_range _ v hb.1 hb.2]
  · rw [hsg] at hb
    simp only [if_true] at hb ⊢
    rw [toSigned_toUnsigned _ v hb.1 hb.2]

theorem int_dump_parse_roundtrip_witness :
    Num.inRange .int16_t (-2) = true ∧ 1 + Num.getSize .int16_t ≤ [(7 : Byte), 7, 7, 7].length ∧
    ∃ view', Num.dump sampleHost .int16_t (.number (-2)) [7, 7, 7, 7] 1 = .ok view' ∧
      Num.parse .int16_t view' 1 = .ok (.number (-2)) :=
  ⟨by decide, by decide,
    int_dump_parse_roundtrip sampleHost .int16_t (-2) (by decide) [7, 7, 7, 7] 1 (by decide)⟩

/-- Claim C3: integer primitives are little-endian.  For an in-range `v`,
`dump(v, view, offset)` stores at byte `offset + k` (`k < w`) the value
`floor((v mod 2^(8w)) / 256^k) mod 256`, and `parse(view, offset)` is the number
whose base-256 digits, least significant first, are the bytes at
`offset, offset + 1, ...` (read as two-complement for a signed primitive).
Stated for every integer width, the 16- and 32-bit primitives included. -/
theorem int_little_endian (host : Host) (n : Num) (v : Int) (hv : n.inRange v = true)
    (view : DataView) (offset : Nat) (hfit : offset + n.getSize ≤ view.length) :
    (∃ view', n.dump host (.number v) view offset = .ok view' ∧
      ∀ k, k < n.getSize →
        ((view'.getD (offset + k) 0).val : Int) = v % 2 ^ (8 * n.getSize) / 256 ^ k % 256) ∧
    n.parse view offset =
      .ok (.number
        (if n.signed then
          toSigned n.getSize (∑ k ∈ Finset.range n.getSize, (view.getD (offset + k) 0).val * 256 ^ k)
        else
          ((∑ k ∈ Finset.range n.getSize, (view.getD (offset + k) 0).val * 256 ^ k : Nat) : Int))) := by
  have hn := inRange_not_float n v hv
  refine ⟨⟨_, num_dump_int host n hn _ view offset hfit, ?_⟩, ?_⟩
  · intro k hk
    rw [getD_splice _ _ _ _ (by rw [natToBytes_length]; exact hfit)
      (by rw [natToBytes_length]; exact hk), getD_natToBytes _ _ _ hk]
    exact byte_toUnsigned _ _ _
  · rw [num_parse_int n hn view offset hfit, bytesToNat_slice view offset _ hfit]

theorem int_little_endian_witness :
    Num.inRange .uint16_t 0x0403 = true ∧ 0 + Num.getSize .uint16_t ≤ [(0 : Byte), 0].length ∧
    Num.dump sampleHost .uint16_t (.number 0x0403) [0, 0] 0 = .ok [0x03, 0x04] ∧
    ((∃ view', Num.dump sampleHost .uint16_t (.number 0x0403) [0, 0] 0 = .ok view' ∧
      ∀ k, k < Num.getSize .uint16_t →
        ((view'.getD (0 + k) 0).val : Int) =
          0x0403 % 2 ^ (8 * Num.getSize .uint16_t) / 256 ^ k % 256) ∧
    Num.parse .uint16_t [0, 0] 0 =
      .ok (.number
        (if Num.signed .uint16_t then
          toSigned (Num.getSize .uint16_t)
            (∑ k ∈ Finset.range (Num.getSize .uint16_t), (([0, 0] : List Byte).getD (0 + k) 0).val * 256 ^ k)
        else
          ((∑ k ∈ Finset.range (Num.getSize .uint16_t),
            (([0, 0] : List Byte).getD (0 + k) 0).val * 256 ^ k : Nat) : Int)))) :=
  ⟨by decide, by decide, rfl,
    int_little_endian sampleHost .uint16_t 0x0403 (by decide) [0, 0] 0 (by decide)⟩

/-! ## Loops that write -/


theorem forRange_writes (body : Nat → DataView → Dump) (sz o : Nat)
    (enc : Nat → Option (List Byte))
    (hbody : ∀ i view, o + (i + 1) * sz ≤ view.length →
      Writes (body i view) view (o + i * sz) (enc i) sz) :
    ∀ count i view, o + (i + count) * sz ≤ view.length →
      Writes (forRange body count i view) view (o + i * sz) (encodeRange enc count i)
        (count * sz) := by
  intro count
  induction count with
  | zero =>
    intro i view _
    simp [Writes, encodeRange, forRange, splice_nil]
  | succ count ih =>
    intro i view hfit
    have hfit1 : o + (i + 1) * sz ≤ view.length := by
      have : (i + 1) * sz ≤ (i + (count + 1)) * sz := Nat.mul_le_mul_right _ (by omega)
      omega
    have h1 := hbody i view hfit1
    simp only [encodeRange, forRange]
    cases he : enc i with
    | none =>
      rw [he] at h1
      obtain ⟨e, h1⟩ := h1
      simp [Writes, h1]
    | some a =>
      rw [he] at h1
      obtain ⟨h1, ha⟩ := h1
      have hi : o + i * sz + a.length ≤ view.length := by
        rw [ha]; have : (i + 1) * sz = i * sz + sz := by ring
        omega
      have hlen := splice_length view (o + i * sz) a hi
      have h2 := ih (i + 1) (splice view (o + i * sz) a) (by
        rw [hlen]; have : i + 1 + count = i + (count + 1) := by omega
        rw [this]; exact hfit)
      rw [h1]
      simp only
      cases hr : encodeRange enc count (i + 1) with
      | none =>
        rw [hr] at h2
        obtain ⟨e, h2⟩ := h2
        simp [Writes, h2]
      | some b =>
        rw [hr] at h2
        obtain ⟨h2, hb⟩ := h2
        have e1 : o + (i + 1) * sz = o + i * sz + a.length := by rw [ha]; ring
        have hfit' : o + i * sz + a.length + b.length ≤ view.length := by
          rw [ha, hb]
          have : (i + (count + 1)) * sz = i * sz + sz + count * sz := by ring
          omega
        simp only [Writes]
        refine ⟨?_, ?_⟩
        · rw [h2, e1, splice_splice view (o + i * sz) a b hfit']
        · rw [List.length_append, ha, hb]; ring

theorem encodeRange_some (f : Nat → List Byte) (count i : Nat) :
    encodeRange (fun i => some (f i)) count i = some (concatRange f count i) := by
  induction count generalizing i with
  | zero => rfl
  | succ count ih => simp [encodeRange, concatRange, ih]

theorem concatRange_add (f : Nat → List Byte) (a b i : Nat) :
    concatRange f (a + b) i = concatRange f a i ++ concatRange f b (i + a) := by
  induction a generalizing i with
  | zero => simp [concatRange]
  | succ a ih =>
    rw [show a + 1 + b = (a + b) + 1 by omega]
    simp only [concatRange, ih, List.append_assoc]
    rw [show i + 1 + a = i + (a + 1) by omega]

theorem concatRange_congr (f g : Nat → List Byte) (count i : Nat)
    (h : ∀ j, i ≤ j → j < i + count → f j = g j) :
    concatRange f count i = concatRange g count i := by
  induction count generalizing i with
  | zero => rfl
  | succ count ih =>
    simp only [concatRange]
    rw [h i (le_refl _) (by omega), ih (i + 1) (fun j h1 h2 => h j (by omega) (by omega))]

theorem concatRange_length (f : Nat → List Byte) (sz : Nat) (hf : ∀ i, (f i).length = sz)
    (count i : Nat) : (concatRange f count i).length = count * sz := by
  induction count generalizing i with
  | zero => simp [concatRange]
  | succ count ih => simp only [concatRange, List.length_append, hf, ih]; ring

theorem toIntegral_charCodeAt (host : Host) (units : List CodeUnit) (i : Nat) :
    toIntegral host (charCodeAt units i) = (codeAt units i : Int) := by
  simp only [charCodeAt, codeAt]
  cases units.get? i <;> simp [toIntegral]

theorem codeAt_lt (units : List CodeUnit) (i : Nat) : codeAt units i < 65536 := by
  simp only [codeAt]
  cases units.get? i with
  | none => simp
  | some c => exact c.isLt

theorem byte_mod (c : Nat) : byte (c % 256) = byte c := by
  apply Fin.ext
  simp [byte]

theorem natToBytes_one (c : Nat) : natToBytes 1 (toUnsigned 1 (c : Int)) = unitBytes false c := by
  have e : toUnsigned 1 (c : Int) = c % 256 := by
    simp only [toUnsigned]
    omega
  simp [natToBytes, unitBytes, e, byte_mod]

theorem natToBytes_two (c : Nat) (hc : c < 65536) :
    (natToBytes 2 (toUnsigned 2 (c : Int))).reverse = unitBytes true c := by
  have e : toUnsigned 2 (c : Int) = c := by
    simp only [toUnsigned]
    omega
  simp [natToBytes, unitBytes, e]

/-- One iteration of either loop of `FixedLengthString.dump`. -/
theorem string_step (host : Host) (wide : Bool) (offset : Nat) (value : JSValue) (c : Nat)
    (hv : toIntegral host value = (c : Int)) (hc : c < 65536) (i : Nat) (view : DataView)
    (hfit : offset + (i + 1) * (if wide then 2 else 1) ≤ view.length) :
    Writes
      (raiseAt view
        (if wide then DataView.setInt16 host view (offset + i * 2) value false
         else DataView.setInt8 host view (offset + i) value))
      view (offset + i * (if wide then 2 else 1)) (some (unitBytes wide c))
      (if wide then 2 else 1) := by
  cases wide with
  | false =>
    simp only [Bool.false_eq_true, if_false, Nat.mul_one] at hfit ⊢
    simp only [Writes, DataView.setInt8, DataView.setInt, if_true, hv, natToBytes_one,
      DataView.setBytes]
    have hl : (unitBytes false c).length = 1 := by simp [unitBytes]
    rw [hl, if_pos (by omega)]
    exact ⟨rfl, rfl⟩
  | true =>
    simp only [if_true] at hfit ⊢
    simp only [Writes, DataView.setInt16, DataView.setInt, Bool.false_eq_true, if_false, hv,
      natToBytes_two c hc, DataView.setBytes]
    have hl : (unitBytes true c).length = 2 := by simp [unitBytes]
    rw [hl, if_pos (by have : (i + 1) * 2 = i * 2 + 2 := by ring
                       omega)]
    exact ⟨rfl, rfl⟩

theorem unitBytes_length (wide : Bool) (c : Nat) :
    (unitBytes wide c).length = if wide then 2 else 1 := by
  cases wide <;> simp [unitBytes]

theorem stringBytes_length (size : Nat) (wide : Bool) (units : List CodeUnit) :
    (stringBytes size wide units).length = FixedLengthString.getSize size wide := by
  rw [stringBytes, concatRange_length _ _ (fun i => unitBytes_length wide _),
    FixedLengthString.getSize]

theorem string_dump_ok (host : Host) (size : Nat) (wide : Bool) (units : List CodeUnit)
    (view : DataView) (offset : Nat)
    (hfit : offset + FixedLengthString.getSize size wide ≤ view.length) :
    FixedLengthString.dump host size wide (.string units) view offset =
      .ok (splice view offset (stringBytes size wide units)) := by
  simp only [FixedLengthString.getSize] at hfit
  -- the first loop
  have h1 := forRange_writes
    (fun i view => raiseAt view
      (if wide then DataView.setInt16 host view (offset + i * 2) (charCodeAt units i) false
       else DataView.setInt8 host view (offset + i) (charCodeAt units i)))
    (if wide then 2 else 1) offset (fun i => some (unitBytes wide (codeAt units i)))
    (fun i view h => string_step host wide offset _ _ (toIntegral_charCodeAt host units i)
      (codeAt_lt units i) i view h)
    (min units.length size) 0 view (by
      have : (0 + min units.length size) * (if wide then 2 else 1)
          ≤ size * (if wide then 2 else 1) := Nat.mul_le_mul_right _ (by omega)
      omega)
  rw [encodeRange_some] at h1
  obtain ⟨h1, hl1⟩ := h1
  simp only [Nat.zero_mul, Nat.add_zero] at h1
  simp only [FixedLengthString.dump, h1]
  by_cases hlen : size ≤ units.length
  · rw [Nat.sub_eq_zero_of_le hlen]
    simp only [forRange, stringBytes]
    rw [Nat.min_eq_right hlen]
  · have hlt : units.length < size := by omega
    rw [Nat.min_eq_left (by omega)] at hl1 ⊢
    have hl2 : (concatRange (fun _ => unitBytes wide 0) (size - units.length) units.length).length
        = (size - units.length) * (if wide then 2 else 1) :=
      concatRange_length _ _ (fun _ => unitBytes_length wide _) _ _
    have key : units.length * (if wide then 2 else 1)
        + (size - units.length) * (if wide then 2 else 1) = size * (if wide then 2 else 1) := by
      rw [← Nat.add_mul]
      congr 1
      omega
    have h2 := forRange_writes
      (fun i view => raiseAt view
        (if wide then DataView.setInt16 host view (offset + i * 2) (.number 0) false
         else DataView.setInt8 host view (offset + i) (.number 0)))
      (if wide then 2 else 1) offset (fun _ => some (unitBytes wide 0))
      (fun i view h => string_step host wide offset (.number 0) 0 (by simp [toIntegral])
        (by decide) i view h)
      (size - units.length) units.length
      (splice view offset (concatRange (fun i => unitBytes wide (codeAt units i)) units.length 0))
      (by
        rw [splice_length _ _ _ (by rw [hl1]; omega)]
        rw [show units.length + (size - units.length) = size by omega]
        exact hfit)
    rw [encodeRange_some] at h2
    obtain ⟨h2, _⟩ := h2
    rw [h2]
    have e : offset + units.length * (if wide then 2 else 1)
        = offset + (concatRange (fun i => unitBytes wide (codeAt units i)) units.length 0).length := by
      rw [hl1]
    rw [e, splice_splice _ _ _ _ (by rw [hl1, hl2]; omega), stringBytes]
    congr 2
    rw [show size = units.length + (size - units.length) by omega, concatRange_add]
    rw [show units.length + (size - units.length) - units.length = size - units.length by omega]
    congr 1
    simp only [Nat.zero_add]
    apply concatRange_congr
    intro j hj _
    simp only [codeAt]
    rw [List.get?_eq_none.mpr hj]

/-! ## Sizes -/

/-- Claim C6: `size()` of a compiled model is the fixed width of the primitive
for a Scalar model (1, 2, 4 or 8 bytes; the declared character count for a
fixed-length string of the registry), `base.size() * count` for an Array model,
the sum of the children's sizes for a Record model and 0 for a Constant
model. -/
theorem size_equations :
    ((modelOf (.value int8_t)).size = 1 ∧ (modelOf (.value uint8_t)).size = 1 ∧
      (modelOf (.value int16_t)).size = 2 ∧ (modelOf (.value uint16_t)).size = 2 ∧
      (modelOf (.value int32_t)).size = 4 ∧ (modelOf (.value uint32_t)).size = 4 ∧
      (modelOf (.value float_t)).size = 4 ∧ (modelOf (.value double_t)).size = 8) ∧
    (∀ (count : Nat) (flag : Option Bool),
      (modelOf (.value (fixed_length_string_t count flag))).size = count) ∧
    (∀ (base : Model) (count : Nat),
      (Facade.mk (.ArrayModel base count)).size = (Facade.mk base).size * count) ∧
    (∀ (type : Schema) (count : Nat),
      (modelOf (arrayOf type count)).size = (modelOf type).size * count) ∧
    (∀ children : List (String × Model),
      (Facade.mk (.ObjectModel children)).size =
        (children.map (fun child => (Facade.mk child.2).size)).sum) ∧
    (∀ v : JSValue, (Facade.mk (.ConstModel v)).size = 0 ∧ (modelOf (.literal v)).size = 0) := by
  refine ⟨by decide, ?_, ?_, ?_, ?_, ?_⟩
  · intro count flag
    simp [modelOf, _getModel, Facade.size, Model.getSize, Value.getSize, fixed_length_string_t,
      FixedLengthString.new, FixedLengthString.getSize]
  · intro base count
    simp [Facade.size, Model.getSize]
  · intro type count
    simp [modelOf, arrayOf, _getModel, Facade.size, Model.getSize]
  · intro children
    simp only [Facade.size, Model.getSize]
    induction children with
    | nil => rfl
    | cons child rest ih => simp [Model.childrenSize, ih]
  · intro v
    simp [modelOf, _getModel, Facade.size, Model.getSize]

/-! ## Floats -/

/-- Claim C9 (refuted by the code): `parse` of `float_t` and of `double_t` never
returns.  `_get_float` and `_get_double` name an unbound identifier `value`
among the arguments of the getter, so after any successful `dump` (and on any
view at all) `parse` throws a ReferenceError. -/
theorem float_parse_throws (host : Host) (v : JSValue) (view : DataView) (offset : Nat) :
    (Value.parse float_t view offset = .error .ReferenceError ∧
      Value.parse double_t view offset = .error .ReferenceError) ∧
    (∃ view', Value.dump host float_t v [0, 0, 0, 0] 0 = .ok view' ∧
      Value.parse float_t view' 0 = .error .ReferenceError) ∧
    (∃ view', Value.dump host double_t v [0, 0, 0, 0, 0, 0, 0, 0] 0 = .ok view' ∧
      Value.parse double_t view' 0 = .error .ReferenceError) ∧
    (modelOf (.value float_t)).parse (fun _ => view) = .error .ReferenceError := by
  refine ⟨⟨rfl, rfl⟩, ⟨_, rfl, rfl⟩, ⟨_, rfl, rfl⟩, rfl⟩

/-! ## Fixed-length strings -/

theorem getInt8_ok (view : DataView) (o : Nat) (h : o < view.length) :
    DataView.getInt8 view o = .ok (toSigned 1 (view[o]).val) := by
  rw [DataView.getInt8, getInt_ok 1 view o (by omega), slice_succ view o 0 h]
  simp [slice, bytesToNat]

theorem collect_getInt8 (view : DataView) (offset : Nat) (count i : Nat)
    (h : offset + i + count ≤ view.length) :
    collectRange (fun i => DataView.getInt8 view (offset + i)) count i =
      .ok ((slice view (offset + i) count).map (fun b => toSigned 1 b.val)) := by
  induction count generalizing i with
  | zero => simp [collectRange, slice]
  | succ count ih =>
    simp only [collectRange]
    rw [getInt8_ok view (offset + i) (by omega), ih (i + 1) (by omega),
      slice_succ view (offset + i) count (by omega)]
    simp [Nat.add_assoc]

theorem string_parse_narrow (size : Nat) (view : DataView) (offset : Nat)
    (h : offset + size ≤ view.length) :
    FixedLengthString.parse size false view offset =
      .ok (.string ((slice view offset size).map (fun b => ToUint16 (toSigned 1 b.val)))) := by
  simp only [FixedLengthString.parse, Bool.false_eq_true, if_false]
  rw [collect_getInt8 view offset size 0 (by omega)]
  simp [fromCharCode]

theorem ToUint16_toSigned_val (b : Byte) :
    (ToUint16 (toSigned 1 b.val)).val = if b.val < 128 then b.val else b.val + 65280 := by
  have hb := b.isLt
  simp only [ToUint16, toSigned]
  split <;> split <;> omega

theorem getD_slice (view : List Byte) (o n i : Nat) (hi : i < n) :
    (slice view o n).getD i 0 = view.getD (o + i) 0 := by
  simp only [slice, List.getD_eq_getElem?_getD]
  rw [List.getElem?_take_of_lt hi, List.getElem?_drop]

/-- Claim C8 (refuted by the code for bytes above 127): `parse` of a one-byte
fixed-length string of width `n` returns `n` characters, and the `i`-th one is
the byte at `offset + i` when that byte is below 128, but the byte plus 65280
(`0xFF00`) otherwise: the byte is read with `getInt8`, as a signed number, and
`String.fromCharCode` reduces the negative number modulo `2^16`. -/
theorem string_parse_code_units (n : Nat) (flag : Option Bool) (view : DataView) (offset : Nat)
    (h : offset + n ≤ view.length) :
    ∃ units : List CodeUnit,
      (fixed_length_string_t n flag).parse view offset = .ok (.string units) ∧
      units.length = n ∧
      ∀ i, i < n →
        (units.getD i 0).val =
          if (view.getD (offset + i) 0).val < 128 then (view.getD (offset + i) 0).val
          else (view.getD (offset + i) 0).val + 65280 := by
  refine ⟨_, string_parse_narrow n view offset h, ?_, ?_⟩
  · simp [slice_length view offset n h]
  · intro i hi
    rw [← getD_slice view offset n i hi]
    have hlen := slice_length view offset n h
    simp only [List.getD_eq_getElem?_getD]
    rw [List.getElem?_map, List.getElem?_eq_getElem (by omega)]
    simp [ToUint16_toSigned_val]

theorem string_parse_code_units_witness :
    0 + 1 ≤ [(0x80 : Byte)].length ∧
    (fixed_length_string_t 1 none).parse [0x80] 0 = .ok (.string [0xFF80]) ∧
    ∃ units : List CodeUnit,
      (fixed_length_string_t 1 none).parse [0x80] 0 = .ok (.string units) ∧
      units.length = 1 ∧
      ∀ i, i < 1 →
        (units.getD i 0).val =
          if (([0x80] : List Byte).getD (0 + i) 0).val < 128 then
            (([0x80] : List Byte).getD (0 + i) 0).val
          else (([0x80] : List Byte).getD (0 + i) 0).val + 65280 :=
  ⟨by decide, rfl, string_parse_code_units 1 none [0x80] 0 (by decide)⟩

/-- Claim C10 (refuted by the code): the registry entry takes the character
count only.  A flag passed to it is dropped, so the primitive has `count`
bytes, not `2 * count`, and moves one byte per character; and the wide path of
the class, which the registry never reaches, stores the high byte first. -/
theorem fixed_length_string_flag_dropped (host : Host) (count : Nat) (flag : Option Bool) :
    fixed_length_string_t count flag = FixedLengthString.new count (some false) ∧
    (fixed_length_string_t count flag).getSize = count ∧
    (fixed_length_string_t 2 (some true)).getSize = 2 ∧
    Value.dump host (fixed_length_string_t 2 (some true)) (.string [0x50, 0x4B]) [0, 0, 0, 0] 0 =
      .ok [0x50, 0x4B, 0, 0] ∧
    Value.dump host (FixedLengthString.new 1 (some true)) (.string [0x0102]) [0, 0] 0 =
      .ok [0x01, 0x02] ∧
    Value.parse (FixedLengthString.new 1 (some true)) [0x01, 0x02] 0 = .ok (.string [0x0102]) := by
  refine ⟨rfl, ?_, rfl, ?_, ?_, rfl⟩
  · simp [fixed_length_string_t, FixedLengthString.new, Value.getSize, FixedLengthString.getSize]
  · simp only [fixed_length_string_t, FixedLengthString.new, Option.getD, Value.dump]
    rw [string_dump_ok host 2 false _ _ 0 (by decide)]
    rfl
  · simp only [FixedLengthString.new, Option.getD, Value.dump]
    rw [string_dump_ok host 1 true _ _ 0 (by decide)]
    rfl

theorem ToUint16_byte (c : CodeUnit) (hc : c.val < 128) :
    ToUint16 (toSigned 1 (byte c.val).val) = c := by
  apply Fin.ext
  rw [ToUint16_toSigned_val]
  simp only [byte]
  have := c.isLt
  split <;> omega

theorem narrow_units (units : List CodeUnit) (hs : ∀ c ∈ units, c.val < 128) (count i : Nat) :
    (concatRange (fun i => unitBytes false (codeAt units i)) count i).map
        (fun b => ToUint16 (toSigned 1 b.val)) =
      (units.drop i).take count ++ List.replicate (count - (units.length - i)) 0 := by
  induction count generalizing i with
  | zero => simp [concatRange]
  | succ count ih =>
    rw [concatRange, List.map_append, ih (i + 1)]
    simp only [unitBytes, Bool.false_eq_true, if_false, List.map_cons, List.map_nil,
      List.singleton_append]
    by_cases hi : i < units.length
    · rw [List.drop_eq_getElem_cons hi, List.take_succ_cons]
      have hc : codeAt units i = (units[i]).val := by
        simp [codeAt, List.get?_eq_getElem?, List.getElem?_eq_getElem hi]
      rw [hc, ToUint16_byte _ (hs _ (List.getElem_mem hi))]
      rw [show count + 1 - (units.length - i) = count - (units.length - (i + 1)) by omega]
      rfl
    · have hc : codeAt units i = 0 := by
        simp only [codeAt]
        rw [List.get?_eq_none.mpr (by omega)]
      rw [hc, List.drop_eq_nil_of_le (show units.length ≤ i by omega),
        List.drop_eq_nil_of_le (show units.length ≤ i + 1 by omega)]
      rw [show count + 1 - (units.length - i) = count + 1 by omega,
        show count - (units.length - (i + 1)) = count by omega]
      simp only [List.take_nil, List.nil_append, List.replicate_succ]
      congr 1

/-- Claim C7: for every width `n` and every string `s` of characters below
128, dumping `s` into a fixed-length string field and parsing the field yields
exactly `n` characters: the first `n` characters of `s`, followed by
`n - |s|` NUL characters when `s` is shorter than `n`. -/
theorem string_dump_parse (host : Host) (n : Nat) (flag : Option Bool) (s : List CodeUnit)
    (hs : ∀ c ∈ s, c.val < 128) (view : DataView) (offset : Nat)
    (hfit : offset + n ≤ view.length) :
    ∃ view', (fixed_length_string_t n flag).dump host (.string s) view offset = .ok view' ∧
      (fixed_length_string_t n flag).parse view' offset =
        .ok (.string (s.take n ++ List.replicate (n - s.length) 0)) ∧
      (s.take n ++ List.replicate (n - s.length) 0).length = n := by
  have hsz : FixedLengthString.getSize n false = n := by simp [FixedLengthString.getSize]
  have hlen : (stringBytes n false s).length = n := by rw [stringBytes_length, hsz]
  refine ⟨_, string_dump_ok host n false s view offset (by rw [hsz]; exact hfit), ?_, ?_⟩
  · have hfit' : offset + n ≤ (splice view offset (stringBytes n false s)).length := by
      rw [splice_length _ _ _ (by rw [hlen]; exact hfit)]
      exact hfit
    have hsl : slice (splice view offset (stringBytes n false s)) offset n = stringBytes n false s := by
      have := slice_splice view offset (stringBytes n false s) (by rw [hlen]; exact hfit)
      rwa [hlen] at this
    show FixedLengthString.parse n false _ offset = _
    rw [string_parse_narrow n _ offset hfit', hsl, stringBytes, narrow_units s hs n 0]
    simp
  · simp only [List.length_append, List.length_take, List.length_replicate]
    omega

theorem string_dump_parse_witness :
    (∀ c ∈ ([0x41, 0x42] : List CodeUnit), c.val < 128) ∧
    0 + 5 ≤ [(9 : Byte), 9, 9, 9, 9].length ∧
    (fixed_length_string_t 5 none).dump sampleHost (.string [0x41, 0x42]) [9, 9, 9, 9, 9] 0 =
      .ok [0x41, 0x42, 0, 0, 0] ∧
    (fixed_length_string_t 5 none).parse [0x41, 0x42, 0, 0, 0] 0 =
      .ok (.string [0x41, 0x42, 0, 0, 0]) ∧
    (∃ view', (fixed_length_string_t 5 none).dump sampleHost
        (.string [0x41, 0x42, 0x43, 0x44, 0x45, 0x46, 0x47]) [9, 9, 9, 9, 9] 0 = .ok view' ∧
      (fixed_length_string_t 5 none).parse view' 0 =
        .ok (.string [0x41, 0x42, 0x43, 0x44, 0x45])) ∧
    ∃ view', (fixed_length_string_t 5 none).dump sampleHost (.string [0x41, 0x42])
        [9, 9, 9, 9, 9] 0 = .ok view' ∧
      (fixed_length_string_t 5 none).parse view' 0 =
        .ok (.string (([0x41, 0x42] : List CodeUnit).take 5 ++
          List.replicate (5 - ([0x41, 0x42] : List CodeUnit).length) 0)) ∧
      (([0x41, 0x42] : List CodeUnit).take 5 ++
          List.replicate (5 - ([0x41, 0x42] : List CodeUnit).length) 0).length = 5 :=
  have hs : ∀ c ∈ ([0x41, 0x42] : List CodeUnit), c.val < 128 := by
    intro c hc
    simp only [List.mem_cons, List.mem_singleton, List.not_mem_nil, or_false] at hc
    rcases hc with rfl | rfl <;> decide
  ⟨hs, by decide, rfl, rfl, ⟨_, rfl, rfl⟩,
    string_dump_parse sampleHost 5 none [0x41, 0x42] hs [9, 9, 9, 9, 9] 0 (by decide)⟩

/-! ## The dump engine writes a block of `getSize()` bytes -/

theorem num_dump_writes (host : Host) (n : Num) (value : JSValue) (view : DataView)
    (offset : Nat) (hfit : offset + n.getSize ≤ view.length) :
    Writes (n.dump host value view offset) view offset (some (n.bytes host value)) n.getSize := by
  by_cases hn : n ≠ .float_t ∧ n ≠ .double_t
  · have hb : n.bytes host value
        = natToBytes n.getSize (toUnsigned n.getSize (toIntegral host value)) := by
      cases n <;> first | rfl | exact absurd rfl hn.1 | exact absurd rfl hn.2
    rw [hb]
    exact ⟨num_dump_int host n hn value view offset hfit, natToBytes_length _ _⟩
  · cases n <;> simp at hn
    · simp only [Num.getSize, Num._size] at hfit
      simp [Writes, Num.dump, Num.__writeView, _set_float, DataView.setFloat32, DataView.setBytes,
        Num.bytes, Num.getSize, Num._size, hfit, raiseAt]
    · simp only [Num.getSize, Num._size] at hfit
      simp [Writes, Num.dump, Num.__writeView, _set_double, DataView.setFloat64,
        DataView.setBytes, Num.bytes, Num.getSize, Num._size, hfit, raiseAt]

theorem value_dump_writes (host : Host) (value : Value) (obj : JSValue) (view : DataView)
    (offset : Nat) (hfit : offset + value.getSize ≤ view.length) :
    Writes (value.dump host obj view offset) view offset (value.encode host obj)
      value.getSize := by
  cases value with
  | Num n => exact num_dump_writes host n obj view offset hfit
  | FixedLengthString size wide =>
    simp only [Value.getSize] at hfit
    cases obj with
    | string units =>
      exact ⟨string_dump_ok host size wide units view offset hfit, stringBytes_length _ _ _⟩
    | _ => exact ⟨_, rfl⟩

mutual
theorem dump_writes (host : Host) : ∀ (m : Model) (obj : JSValue) (view : DataView)
    (offset : Nat), offset + m.getSize ≤ view.length →
    Writes (m.dump host obj view offset) view offset (m.encode host obj) m.getSize
  | .ConstModel _, obj, view, offset, _ => by
    simp [Writes, Model.dump, Model.encode, Model.getSize, splice_nil]
  | .ValueModel value, obj, view, offset, hfit => by
    simp only [Model.dump, Model.encode, Model.getSize] at hfit ⊢
    exact value_dump_writes host value obj view offset hfit
  | .ArrayModel base size, obj, view, offset, hfit => by
    simp only [Model.dump, Model.encode, Model.getSize] at hfit ⊢
    have h := forRange_writes
      (fun i view =>
        match obj.getIndex i with
        | .error e => .error (e, view)
        | .ok x => Model.dump host base x view (offset + i * base.getSize))
      base.getSize offset
      (fun i =>
        match obj.getIndex i with
        | .error _ => none
        | .ok x => Model.encode host base x)
      (fun i view hf => by
        have hf' : offset + i * base.getSize + base.getSize ≤ view.length := by
          have : (i + 1) * base.getSize = i * base.getSize + base.getSize := by ring
          omega
        beta_reduce
        cases hg : obj.getIndex i with
        | error e => exact ⟨_, rfl⟩
        | ok x => exact dump_writes host base x view (offset + i * base.getSize) hf')
      size 0 view (by rw [Nat.zero_add, Nat.mul_comm]; exact hfit)
    simp only [Nat.zero_mul, Nat.add_zero] at h
    rw [Nat.mul_comm]
    exact h
  | .ObjectModel children, obj, view, offset, hfit => by
    simp only [Model.dump, Model.encode, Model.getSize] at hfit ⊢
    exact dumpChildren_writes host children obj view offset hfit
theorem dumpChildren_writes (host : Host) : ∀ (children : List (String × Model))
    (obj : JSValue) (view : DataView) (offset : Nat),
    offset + Model.childrenSize children ≤ view.length →
    Writes (Model.dumpChildren host children obj view offset) view offset
      (Model.encodeChildren host children obj) (Model.childrenSize children)
  | [], obj, view, offset, _ => by
    simp [Writes, Model.dumpChildren, Model.encodeChildren, Model.childrenSize, splice_nil]
  | child :: rest, obj, view, offset, hfit => by
    simp only [Model.dumpChildren, Model.encodeChildren, Model.childrenSize] at hfit ⊢
    cases hg : obj.getField child.1 with
    | error e => exact ⟨_, rfl⟩
    | ok x =>
      have h1 := dump_writes host child.2 x view offset (by omega)
      simp only
      cases he : Model.encode host child.2 x with
      | none =>
        rw [he] at h1
        obtain ⟨e, h1⟩ := h1
        rw [h1]
        exact ⟨_, rfl⟩
      | some a =>
        rw [he] at h1
        obtain ⟨h1, ha⟩ := h1
        rw [h1]
        simp only
        have hl := splice_length view offset a (by omega)
        have h2 := dumpChildren_writes host rest obj (splice view offset a)
          (offset + child.2.getSize) (by rw [hl]; omega)
        cases hr : Model.encodeChildren host rest obj with
        | none =>
          rw [hr] at h2
          obtain ⟨e, h2⟩ := h2
          rw [h2]
          exact ⟨_, rfl⟩
        | some b =>
          rw [hr] at h2
          obtain ⟨h2, hb⟩ := h2
          rw [h2]
          refine ⟨?_, ?_⟩
          · rw [← ha, splice_splice view offset a b (by omega)]
          · rw [List.length_append, ha, hb]
end

/-! ## The facade -/

theorem facade_dump_iff (host : Host) (m : Model) (obj : JSValue) (b : ArrayBuffer) :
    Facade.dump host ⟨m⟩ obj = .ok b ↔ m.encode host obj = some b := by
  have hw := dump_writes host m obj (List.replicate m.getSize 0) 0 (by simp)
  simp only [Facade.dump]
  cases he : m.encode host obj with
  | none =>
    rw [he] at hw
    obtain ⟨e, hw⟩ := hw
    rw [hw]
    simp
  | some a =>
    rw [he] at hw
    obtain ⟨hw, ha⟩ := hw
    rw [hw, splice_zero_full _ _ (by simp [ha])]
    simp

theorem facade_dump_length (host : Host) (m : Model) (obj : JSValue) (b : ArrayBuffer)
    (h : Facade.dump host ⟨m⟩ obj = .ok b) : b.length = m.getSize := by
  have hw := dump_writes host m obj (List.replicate m.getSize 0) 0 (by simp)
  rw [(facade_dump_iff host m obj b).mp h] at hw
  exact hw.2

theorem encodeChildren_blocks (host : Host) (children : List (String × Model)) (v : JSValue)
    (blocks : List (List Byte))
    (h : List.Forall₂
      (fun (child : String × Model) (block : List Byte) =>
        ∃ x, v.getField child.1 = .ok x ∧ Facade.dump host ⟨child.2⟩ x = .ok block)
      children blocks) :
    Model.encodeChildren host children v = some blocks.flatten := by
  induction h with
  | nil => rfl
  | cons hc _ ih =>
    obtain ⟨x, hx, hd⟩ := hc
    simp only [Model.encodeChildren, hx, (facade_dump_iff host _ _ _).mp hd, ih,
      List.flatten_cons]

/-- The end-to-end scenario of the zip signature, on every host: the record
`{pk: "PK", type: 0x0403}` is dumped to the four bytes `50 4B 03 04`, and
those bytes are parsed back to the same record. -/
theorem zip_file_signature_scenario (host : Host) :
    zip_file_signature.size = 4 ∧
    zip_file_signature.dump host
        (.object (objectLiteral [("pk", .string [0x50, 0x4B]), ("type", .number 0x0403)])) =
      .ok [0x50, 0x4B, 0x03, 0x04] ∧
    zip_file_signature.parse (fun _ => [0x50, 0x4B, 0x03, 0x04]) =
      .ok (.object [("pk", .string [0x50, 0x4B]), ("type", .number 0x0403)]) := by
  refine ⟨rfl, ?_, rfl⟩
  have hpk : Facade.dump host ⟨.ValueModel (fixed_length_string_t 2 none)⟩
      (.string [0x50, 0x4B]) = .ok [0x50, 0x4B] := by
    rw [facade_dump_iff]
    rfl
  have htype : Facade.dump host ⟨.ValueModel uint16_t⟩ (.number 0x0403) = .ok [0x03, 0x04] := by
    rw [facade_dump_iff]
    show some (natToBytes 2 (toUnsigned 2 0x0403)) = _
    rfl
  have h := encodeChildren_blocks host
    [("pk", .ValueModel (fixed_length_string_t 2 none)), ("type", .ValueModel uint16_t)]
    (.object (objectLiteral [("pk", .string [0x50, 0x4B]), ("type", .number 0x0403)]))
    [[0x50, 0x4B], [0x03, 0x04]]
    (.cons ⟨_, rfl, hpk⟩ (.cons ⟨_, rfl, htype⟩ .nil))
  exact (facade_dump_iff host _ _ _).mpr h

/-- Claim C4: for a Record model and a value whose fields the children accept,
the facade `dump` returns a buffer of exactly `size()` bytes, the concatenation
in field order, with nothing in between, of the buffers that the children dump
for the fields of the value.  In particular the zip signature
`{pk: fixed_length_string_t(2), type: uint16_t()}` dumps
`{pk: "PK", type: 0x0403}` to the bytes `50 4B 03 04` and parses them back. -/
theorem record_dump_concat (host : Host) (children : List (String × Model)) (v : JSValue)
    (blocks : List (List Byte))
    (h : List.Forall₂
      (fun (child : String × Model) (block : List Byte) =>
        ∃ x, v.getField child.1 = .ok x ∧ Facade.dump host ⟨child.2⟩ x = .ok block)
      children blocks) :
    (Facade.dump host ⟨.ObjectModel children⟩ v = .ok blocks.flatten ∧
      blocks.flatten.length = Facade.size ⟨.ObjectModel children⟩) ∧
    (zip_file_signature.size = 4 ∧
      zip_file_signature.dump host
          (.object (objectLiteral [("pk", .string [0x50, 0x4B]), ("type", .number 0x0403)])) =
        .ok [0x50, 0x4B, 0x03, 0x04] ∧
      zip_file_signature.parse (fun _ => [0x50, 0x4B, 0x03, 0x04]) =
        .ok (.object [("pk", .string [0x50, 0x4B]), ("type", .number 0x0403)])) := by
  have hd : Facade.dump host ⟨.ObjectModel children⟩ v = .ok blocks.flatten := by
    rw [facade_dump_iff, Model.encode]
    exact encodeChildren_blocks host children v blocks h
  exact ⟨⟨hd, facade_dump_length host _ _ _ hd⟩, zip_file_signature_scenario host⟩

theorem record_dump_concat_witness :
    List.Forall₂
      (fun (child : String × Model) (block : List Byte) =>
        ∃ x, (JSValue.object (objectLiteral
            [("pk", .string [0x50, 0x4B]), ("type", .number 0x0403)])).getField child.1 = .ok x ∧
          Facade.dump sampleHost ⟨child.2⟩ x = .ok block)
      [("pk", .ValueModel (fixed_length_string_t 2 none)), ("type", .ValueModel uint16_t)]
      [[0x50, 0x4B], [0x03, 0x04]] ∧
    zip_file_signature.model =
      .ObjectModel
        [("pk", .ValueModel (fixed_length_string_t 2 none)), ("type", .ValueModel uint16_t)] ∧
    ((Facade.dump sampleHost
        ⟨.ObjectModel
          [("pk", .ValueModel (fixed_length_string_t 2 none)), ("type", .ValueModel uint16_t)]⟩
        (.object (objectLiteral [("pk", .string [0x50, 0x4B]), ("type", .number 0x0403)])) =
      .ok ([[0x50, 0x4B], [0x03, 0x04]] : List (List Byte)).flatten ∧
    ([[0x50, 0x4B], [0x03, 0x04]] : List (List Byte)).flatten.length =
      Facade.size ⟨.ObjectModel
        [("pk", .ValueModel (fixed_length_string_t 2 none)), ("type", .ValueModel uint16_t)]⟩) ∧
    (zip_file_signature.size = 4 ∧
      zip_file_signature.dump sampleHost
          (.object (objectLiteral [("pk", .string [0x50, 0x4B]), ("type", .number 0x0403)])) =
        .ok [0x50, 0x4B, 0x03, 0x04] ∧
      zip_file_signature.parse (fun _ => [0x50, 0x4B, 0x03, 0x04]) =
        .ok (.object [("pk", .string [0x50, 0x4B]), ("type", .number 0x0403)]))) :=
  have h : List.Forall₂
      (fun (child : String × Model) (block : List Byte) =>
        ∃ x, (JSValue.object (objectLiteral
            [("pk", .string [0x50, 0x4B]), ("type", .number 0x0403)])).getField child.1 = .ok x ∧
          Facade.dump sampleHost ⟨child.2⟩ x = .ok block)
      [("pk", .ValueModel (fixed_length_string_t 2 none)), ("type", .ValueModel uint16_t)]
      [[0x50, 0x4B], [0x03, 0x04]] :=
    .cons ⟨_, rfl, rfl⟩ (.cons ⟨_, rfl, rfl⟩ .nil)
  ⟨h, rfl, record_dump_concat sampleHost _ _ _ h⟩

/-! ## Property lists -/

theorem lookup_cons_if {α : Type} (k a : String) (b : α) (es : List (String × α)) :
    List.lookup k ((a, b) :: es) = if k = a then some b else List.lookup k es := by
  by_cases h : k = a
  · simp [List.lookup, h]
  · have : (k == a) = false := by simpa using h
    simp [List.lookup, h, this]

theorem lookup_insertIndex {α : Type} (i : Nat) (k : String) (v : α)
    (props : List (String × α)) (k' : String)
    (hnew : props.any (fun p => p.1 == k) = false) :
    (insertIndex i k v props).lookup k' =
      if k' = k then some v else props.lookup k' := by
  induction props with
  | nil => simp [insertIndex, lookup_cons_if]
  | cons p rest ih =>
    obtain ⟨pk, pv⟩ := p
    simp only [List.any_cons, Bool.or_eq_false_iff, beq_eq_false_iff_ne, ne_eq] at hnew
    simp only [insertIndex]
    split
    · split
      · rw [lookup_cons_if, ih hnew.2, lookup_cons_if]
        by_cases h1 : k' = pk
        · have : k' ≠ k := fun h => hnew.1 (h1 ▸ h)
          simp [h1, this, hnew.1]
        · simp [h1]
      · simp [lookup_cons_if]
    · simp [lookup_cons_if]

theorem lookup_append_new {α : Type} (k : String) (v : α) (props : List (String × α))
    (k' : String) (hnew : props.any (fun p => p.1 == k) = false) :
    (props ++ [(k, v)]).lookup k' = if k' = k then some v else props.lookup k' := by
  induction props with
  | nil => simp [lookup_cons_if]
  | cons p rest ih =>
    obtain ⟨pk, pv⟩ := p
    simp only [List.any_cons, Bool.or_eq_false_iff, beq_eq_false_iff_ne, ne_eq] at hnew
    rw [List.cons_append, lookup_cons_if, ih hnew.2, lookup_cons_if]
    by_cases h1 : k' = pk
    · simp [h1, hnew.1]
    · simp [h1]

theorem lookup_replace_ne {α : Type} (k : String) (v : α) (props : List (String × α))
    (k' : String) (hne : k' ≠ k) :
    (props.map (fun p => if p.1 == k then (k, v) else p)).lookup k' = props.lookup k' := by
  induction props with
  | nil => rfl
  | cons p rest ih =>
    obtain ⟨pk, pv⟩ := p
    simp only [List.map_cons]
    by_cases hp : pk = k
    · subst hp
      simp only [beq_self_eq_true, if_true, lookup_cons_if, ih, hne, if_false]
    · have hb : (pk == k) = false := by simpa using hp
      simp only [hb, Bool.false_eq_true, if_false, lookup_cons_if, ih]

theorem lookup_replace_self {α : Type} (k : String) (v : α) (props : List (String × α))
    (hold : props.any (fun p => p.1 == k) = true) :
    (props.map (fun p => if p.1 == k then (k, v) else p)).lookup k = some v := by
  induction props with
  | nil => simp at hold
  | cons p rest ih =>
    obtain ⟨pk, pv⟩ := p
    simp only [List.map_cons]
    by_cases hp : pk = k
    · subst hp
      simp [lookup_cons_if]
    · have hb : (pk == k) = false := by simpa using hp
      simp only [List.any_cons, hb, Bool.false_or] at hold
      have hp' : ¬k = pk := fun h => hp h.symm
      simp only [hb, Bool.false_eq_true, if_false, lookup_cons_if, ih hold, hp']

theorem lookup_setProp {α : Type} (props : List (String × α)) (k : String) (v : α)
    (k' : String) :
    (setProp props k v).lookup k' = if k' = k then some v else props.lookup k' := by
  simp only [setProp]
  split
  · next h =>
    by_cases hk : k' = k
    · subst hk
      rw [lookup_replace_self k' v props h, if_pos rfl]
    · rw [lookup_replace_ne k v props k' hk, if_neg hk]
  · next h =>
    have h' : props.any (fun p => p.1 == k) = false := Bool.eq_false_iff.mpr h
    split
    · exact lookup_insertIndex _ k v props k' h'
    · exact lookup_append_new k v props k' h'

/-! ## The parse engine on records -/

theorem childrenSize_eq_sum (children : List (String × Model)) :
    Model.childrenSize children = (children.map (fun child => child.2.getSize)).sum := by
  induction children with
  | nil => rfl
  | cons child rest ih => simp [Model.childrenSize, ih]

/-- The loop of `ObjectModel.parse` visits child `i` at the offset advanced by
the sizes of the children before it, and stores its result under its name. -/
theorem parseChildren_spec (view : DataView) :
    ∀ (children : List (String × Model)) (o : Nat) (ret : List (String × JSValue)),
      (∀ i (h : i < children.length),
        ∃ x, children[i].2.parse view (o + Model.childrenSize (children.take i)) = .ok x) →
      ∃ ret', Model.parseChildren children view o ret = .ok ret' ∧
        (∀ k, k ∉ children.map Prod.fst → ret'.lookup k = ret.lookup k) ∧
        ((children.map Prod.fst).Nodup → ∀ i (h : i < children.length),
          ∃ x, children[i].2.parse view (o + Model.childrenSize (children.take i)) = .ok x ∧
            ret'.lookup children[i].1 = some x)
  | [], o, ret, _ => ⟨ret, rfl, fun _ _ => rfl, fun _ i h => absurd h (Nat.not_lt_zero i)⟩
  | child :: rest, o, ret, hok => by
    obtain ⟨x, hx⟩ := hok 0 (by simp)
    simp only [List.take_zero, Model.childrenSize, Nat.add_zero, List.getElem_cons_zero] at hx
    have hrest : ∀ i (h : i < rest.length),
        ∃ y, rest[i].2.parse view (o + child.2.getSize + Model.childrenSize (rest.take i))
          = .ok y := by
      intro i h
      obtain ⟨y, hy⟩ := hok (i + 1) (by simp; omega)
      simp only [List.take_succ_cons, Model.childrenSize, List.getElem_cons_succ] at hy
      exact ⟨y, by rw [Nat.add_assoc]; exact hy⟩
    obtain ⟨ret', hp, hkeep, hget⟩ :=
      parseChildren_spec view rest (o + child.2.getSize) (setProp ret child.1 x) hrest
    refine ⟨ret', ?_, ?_, ?_⟩
    · simp only [Model.parseChildren, hx, hp]
    · intro k hk
      simp only [List.map_cons, List.mem_cons, not_or] at hk
      rw [hkeep k hk.2, lookup_setProp, if_neg hk.1]
    · intro hnd i h
      simp only [List.map_cons, List.nodup_cons] at hnd
      cases i with
      | zero =>
        refine ⟨x, ?_, ?_⟩
        · simpa [Model.childrenSize] using hx
        · simp only [List.getElem_cons_zero]
          rw [hkeep _ hnd.1, lookup_setProp, if_pos rfl]
      | succ i =>
        obtain ⟨y, hy, hl⟩ := hget hnd.2 i (by simpa using h)
        refine ⟨y, ?_, ?_⟩
        · simp only [List.take_succ_cons, Model.childrenSize, List.getElem_cons_succ]
          rw [← Nat.add_assoc]
          exact hy
        · simpa using hl

/-- Claim C5: a Record model parses field `i` with its child model at exactly
`offset` plus the sum of the sizes of the fields before it, without padding,
and the result maps each field name to the result of that child. -/
theorem record_parse_offsets (children : List (String × Model))
    (hnames : (children.map Prod.fst).Nodup) (view : DataView) (offset : Nat)
    (hok : ∀ i (h : i < children.length),
      ∃ x, children[i].2.parse view
        (offset + ((children.take i).map (fun child => child.2.getSize)).sum) = .ok x) :
    ∃ ret, Model.parse (.ObjectModel children) view offset = .ok ret ∧
      ∀ i (h : i < children.length),
        ret.getField children[i].1 =
          children[i].2.parse view
            (offset + ((children.take i).map (fun child => child.2.getSize)).sum) := by
  obtain ⟨ret', hp, _, hget⟩ := parseChildren_spec view children offset []
    (fun i h => by rw [childrenSize_eq_sum]; exact hok i h)
  refine ⟨.object ret', by simp only [Model.parse, hp], ?_⟩
  intro i h
  obtain ⟨x, hx, hl⟩ := hget hnames i h
  rw [childrenSize_eq_sum] at hx
  rw [hx]
  simp only [JSValue.getField, hl, Option.getD_some]

theorem record_parse_offsets_witness :
    (([("a", .ValueModel int32_t), ("b", .ValueModel int8_t),
        ("c", .ArrayModel (.ValueModel int32_t) 3)] : List (String × Model)).map Prod.fst).Nodup ∧
    (modelOf docStruct).model =
      .ObjectModel [("a", .ValueModel int32_t), ("b", .ValueModel int8_t),
        ("c", .ArrayModel (.ValueModel int32_t) 3)] ∧
    (modelOf docStruct).size = 17 ∧
    (modelOf docStruct).parse
        (fun _ => [1, 0, 0, 0, 2, 3, 0, 0, 0, 4, 0, 0, 0, 5, 0, 0, 0]) =
      .ok (.object [("a", .number 1), ("b", .number 2),
        ("c", .array [.number 3, .number 4, .number 5])]) ∧
    _get_int32 [1, 0, 0, 0, 2, 3, 0, 0, 0, 4, 0, 0, 0, 5, 0, 0, 0] 5 = .ok (.number 3) ∧
    ∃ ret,
      Model.parse
          (.ObjectModel [("a", .ValueModel int32_t), ("b", .ValueModel int8_t),
            ("c", .ArrayModel (.ValueModel int32_t) 3)])
          [1, 0, 0, 0, 2, 3, 0, 0, 0, 4, 0, 0, 0, 5, 0, 0, 0] 0 = .ok ret ∧
      ∀ i (h : i < ([("a", .ValueModel int32_t), ("b", .ValueModel int8_t),
          ("c", .ArrayModel (.ValueModel int32_t) 3)] : List (String × Model)).length),
        ret.getField
            ([("a", .ValueModel int32_t), ("b", .ValueModel int8_t),
              ("c", .ArrayModel (.ValueModel int32_t) 3)] : List (String × Model))[i].1 =
          ([("a", .ValueModel int32_t), ("b", .ValueModel int8_t),
              ("c", .ArrayModel (.ValueModel int32_t) 3)] : List (String × Model))[i].2.parse
            [1, 0, 0, 0, 2, 3, 0, 0, 0, 4, 0, 0, 0, 5, 0, 0, 0]
            (0 + ((([("a", .ValueModel int32_t), ("b", .ValueModel int8_t),
              ("c", .ArrayModel (.ValueModel int32_t) 3)] : List (String × Model)).take i).map
                (fun child => child.2.getSize)).sum) :=
  have hn : (([("a", .ValueModel int32_t), ("b", .ValueModel int8_t),
        ("c", .ArrayModel (.ValueModel int32_t) 3)] : List (String × Model)).map Prod.fst).Nodup := by
    decide
  ⟨hn, rfl, rfl, rfl, rfl,
    record_parse_offsets _ hn [1, 0, 0, 0, 2, 3, 0, 0, 0, 4, 0, 0, 0, 5, 0, 0, 0] 0
      (fun i h =>
        match i, h with
        | 0, _ => ⟨_, rfl⟩
        | 1, _ => ⟨_, rfl⟩
        | 2, _ => ⟨_, rfl⟩)⟩

/-- The layout of the struct of the doc comment of `modelOf`, on every buffer
of 17 bytes: `a` is decoded from bytes `[0, 4)`, `b` from byte 4, and `c[0]`,
`c[1]`, `c[2]` from bytes `[5, 9)`, `[9, 13)` and `[13, 17)`. -/
theorem docStruct_layout (view : DataView) (h : view.length = 17) :
    (modelOf docStruct).size = 17 ∧
    (modelOf docStruct).parse (fun _ => view) =
      .ok (.object
        [("a", .number (toSigned 4 (bytesToNat (slice view 0 4)))),
         ("b", .number (toSigned 1 (bytesToNat (slice view 4 1)))),
         ("c", .array
           [.number (toSigned 4 (bytesToNat (slice view 5 4))),
            .number (toSigned 4 (bytesToNat (slice view 9 4))),
            .number (toSigned 4 (bytesToNat (slice view 13 4)))])]) := by
  have hm : (modelOf docStruct).model =
      .ObjectModel [("a", .ValueModel int32_t), ("b", .ValueModel int8_t),
        ("c", .ArrayModel (.ValueModel int32_t) 3)] := rfl
  refine ⟨rfl, ?_⟩
  have e32 : ∀ o, o + 4 ≤ view.length →
      _get_int32 view o = .ok (.number (toSigned 4 (bytesToNat (slice view o 4)))) := by
    intro o ho
    simp only [_get_int32, DataView.getInt32, getInt_ok 4 view o ho, Except.map]
  have e8 : _get_int8 view 4 = .ok (.number (toSigned 1 (bytesToNat (slice view 4 1)))) := by
    simp only [_get_int8, DataView.getInt8, getInt_ok 1 view 4 (by omega), Except.map]
  simp only [Facade.parse, hm, Model.parse, Model.parseChildren, Value.parse, int32_t, int8_t,
    Num.parse, Num.__readView, Model.getSize, Value.getSize, Num.getSize, Num._size,
    collectRange, e32 0 (by omega), e8, e32 5 (by omega), e32 9 (by omega), e32 13 (by omega),
    Nat.zero_add, Nat.zero_mul, Nat.add_zero, Nat.one_mul, Nat.reduceAdd, Nat.reduceMul]
  rfl

/-! ## Parsing and then dumping -/

theorem mem_insertIndex {α : Type} (i : Nat) (k : String) (v : α) (props : List (String × α))
    (p : String × α) : p ∈ insertIndex i k v props ↔ p = (k, v) ∨ p ∈ props := by
  induction props with
  | nil => simp [insertIndex]
  | cons q rest ih =>
    simp only [insertIndex]
    split
    · split
      · simp only [List.mem_cons, ih]
        tauto
      · simp
    · simp

theorem keys_replace {α : Type} (k : String) (v : α) (props : List (String × α)) :
    (props.map (fun p => if p.1 == k then (k, v) else p)).map Prod.fst = props.map Prod.fst := by
  induction props with
  | nil => rfl
  | cons p rest ih =>
    simp only [List.map_cons, ih]
    congr 1
    by_cases h : p.1 = k
    · simp [h]
    · have : (p.1 == k) = false := by simpa using h
      simp [this]

theorem keys_insertIndex {α : Type} (i : Nat) (k : String) (v : α) (props : List (String × α)) :
    ((insertIndex i k v props).map Prod.fst).Perm (k :: props.map Prod.fst) := by
  induction props with
  | nil => simp [insertIndex]
  | cons q rest ih =>
    simp only [insertIndex]
    split
    · split
      · simp only [List.map_cons]
        exact (List.Perm.cons _ ih).trans (List.Perm.swap _ _ _)
      · simp
    · simp

theorem nodup_keys_setProp {α : Type} (props : List (String × α)) (k : String) (v : α)
    (h : (props.map Prod.fst).Nodup) : ((setProp props k v).map Prod.fst).Nodup := by
  simp only [setProp]
  split
  · rw [keys_replace]; exact h
  · next hnew =>
    have hk : k ∉ props.map Prod.fst := by
      intro hmem
      apply hnew
      obtain ⟨p, hp, rfl⟩ := List.mem_map.mp hmem
      exact List.any_eq_true.mpr ⟨p, hp, by simp⟩
    split
    · exact (keys_insertIndex _ k v props).nodup_iff.mpr (List.nodup_cons.mpr ⟨hk, h⟩)
    · rw [List.map_append, List.map_cons, List.map_nil]
      exact List.Nodup.append h (List.nodup_singleton _) (by simpa using hk)

theorem mem_setProp {α : Type} (props : List (String × α)) (k : String) (v : α)
    (p : String × α) (hp : p ∈ setProp props k v) : p = (k, v) ∨ p ∈ props := by
  simp only [setProp] at hp
  split at hp
  · obtain ⟨q, hq, rfl⟩ := List.mem_map.mp hp
    by_cases h : q.1 == k
    · simp [h]
    · simp [h, hq]
  · split at hp
    · exact (mem_insertIndex _ k v props p).mp hp
    · simp only [List.mem_append, List.mem_singleton] at hp
      tauto

theorem plainChildren_iff (children : List (String × Model)) :
    Model.plainChildren children = true ↔ ∀ child ∈ children, child.2.plain = true := by
  induction children with
  | nil => simp [Model.plainChildren]
  | cons child rest ih => simp [Model.plainChildren, ih]

mutual
theorem getModel_plain : ∀ s : Schema, s.plain = true → (_getModel s).plain = true
  | .value (.Num n), h => by simpa [_getModel, Model.plain, Schema.plain] using h
  | .value (.FixedLengthString _ wide), h => by
    simpa [_getModel, Model.plain, Schema.plain] using h
  | .valueArray baseType _, h => by
    simp only [Schema.plain] at h
    simpa [_getModel, Model.plain] using getModel_plain baseType h
  | .model _, h => by simp [Schema.plain] at h
  | .object props, h => by
    simp only [Schema.plain] at h
    have := getModelProps_plain props [] h (by simp) (by simp [Model.plainChildren])
    simp only [_getModel, Model.plain, Bool.and_eq_true, decide_eq_true_eq]
    exact this
  | .literal _, _ => by simp [_getModel, Model.plain]
theorem getModelProps_plain : ∀ (props : List (String × Schema)) (acc : List (String × Model)),
    Schema.plainProps props = true → (acc.map Prod.fst).Nodup → Model.plainChildren acc = true →
    ((_getModelProps props acc).map Prod.fst).Nodup ∧
      Model.plainChildren (_getModelProps props acc) = true
  | [], acc, _, hn, hp => ⟨hn, hp⟩
  | p :: rest, acc, h, hn, hp => by
    simp only [Schema.plainProps, Bool.and_eq_true] at h
    simp only [_getModelProps]
    apply getModelProps_plain rest _ h.2 (nodup_keys_setProp acc p.1 _ hn)
    rw [plainChildren_iff] at hp ⊢
    intro child hc
    rcases mem_setProp acc p.1 _ child hc with rfl | hmem
    · exact getModel_plain p.2 h.1
    · exact hp child hmem
end

theorem num_parse_encode (host : Host) (n : Num) (hn : n.isInteger = true) (view : DataView)
    (o : Nat) (hfit : o + n.getSize ≤ view.length) :
    ∃ v, n.parse view o = .ok v ∧ n.bytes host v = slice view o n.getSize := by
  have hn' : n ≠ .float_t ∧ n ≠ .double_t := by
    cases n <;> simp [Num.isInteger] at hn ⊢
  refine ⟨_, num_parse_int n hn' view o hfit, ?_⟩
  have hb : ∀ v, n.bytes host v
      = natToBytes n.getSize (toUnsigned n.getSize (toIntegral host v)) := by
    intro v
    cases n <;> first | rfl | exact absurd rfl hn'.1 | exact absurd rfl hn'.2
  have hl := slice_length view o n.getSize hfit
  have hlt := bytesToNat_lt (slice view o n.getSize)
  rw [hl] at hlt
  have hr := natToBytes_bytesToNat (slice view o n.getSize)
  rw [hl] at hr
  rw [hb]
  simp only [toIntegral]
  cases n.signed
  · simp only [Bool.false_eq_true, if_false]
    have e : toUnsigned n.getSize ((bytesToNat (slice view o n.getSize) : Nat) : Int)
        = bytesToNat (slice view o n.getSize) := by
      have := toUnsigned_of_range n.getSize ((bytesToNat (slice view o n.getSize) : Nat) : Int)
        (by positivity) (by exact_mod_cast hlt)
      exact_mod_cast this
    rw [e, hr]
  · simp only [if_true]
    rw [toUnsigned_toSigned _ _ hlt, hr]

theorem byte_ToUint16 (b : Byte) : byte (ToUint16 (toSigned 1 b.val)).val = b := by
  apply Fin.ext
  rw [ToUint16_toSigned_val]
  have := b.isLt
  simp only [byte]
  split <;> omega

theorem stringBytes_of_bytes (raw : List Byte) (count i : Nat) (h : i + count ≤ raw.length) :
    concatRange
        (fun i => unitBytes false (codeAt (raw.map (fun b => ToUint16 (toSigned 1 b.val))) i))
        count i =
      slice raw i count := by
  induction count generalizing i with
  | zero => simp [concatRange, slice]
  | succ count ih =>
    have hi : i < raw.length := by omega
    rw [concatRange, ih (i + 1) (by omega), slice_succ raw i count hi]
    have hc : codeAt (raw.map (fun b => ToUint16 (toSigned 1 b.val))) i
        = (ToUint16 (toSigned 1 (raw[i]).val)).val := by
      simp [codeAt, List.get?_eq_getElem?, List.getElem?_eq_getElem hi]
    simp only [unitBytes, Bool.false_eq_true, if_false, hc, byte_ToUint16, List.singleton_append]

theorem string_parse_encode (host : Host) (size : Nat) (view : DataView) (o : Nat)
    (hfit : o + size ≤ view.length) :
    ∃ v, FixedLengthString.parse size false view o = .ok v ∧
      Value.encode host (.FixedLengthString size false) v = some (slice view o size) := by
  refine ⟨_, string_parse_narrow size view o hfit, ?_⟩
  have hl := slice_length view o size hfit
  have := stringBytes_of_bytes (slice view o size) size 0 (by omega)
  have e : slice (slice view o size) 0 size = slice view o size := by
    have h0 := slice_zero_full (slice view o size)
    rwa [hl] at h0
  simp only [Value.encode, stringBytes, this, e]

theorem slice_zero_len (view : List Byte) (o : Nat) : slice view o 0 = [] := by
  simp [slice]

/-- The loop of `ArrayModel.parse`, followed by the blocks that the loop of
`ArrayModel.dump` writes for the array it returns. -/
theorem collect_encode (view : DataView) (o sz : Nat) (f : Nat → Except JSError JSValue)
    (enc : JSValue → Option (List Byte))
    (H : ∀ j, o + (j + 1) * sz ≤ view.length →
      ∃ x, f j = .ok x ∧ enc x = some (slice view (o + j * sz) sz)) :
    ∀ count i, o + (i + count) * sz ≤ view.length →
      ∃ ys, collectRange f count i = .ok ys ∧
        ∀ pre : List JSValue, pre.length = i →
          encodeRange
              (fun j =>
                match (JSValue.array (pre ++ ys)).getIndex j with
                | .error _ => none
                | .ok x => enc x)
              count i =
            some (slice view (o + i * sz) (count * sz)) := by
  intro count
  induction count with
  | zero =>
    intro i _
    exact ⟨[], rfl, fun pre _ => by simp [encodeRange, slice_zero_len]⟩
  | succ count ih =>
    intro i hfit
    have hfit1 : o + (i + 1) * sz ≤ view.length := by
      have : (i + 1) * sz ≤ (i + (count + 1)) * sz := Nat.mul_le_mul_right _ (by omega)
      omega
    obtain ⟨x, hx, hex⟩ := H i hfit1
    obtain ⟨ys, hys, henc⟩ := ih (i + 1) (by
      rw [show i + 1 + count = i + (count + 1) by omega]; exact hfit)
    refine ⟨x :: ys, by simp only [collectRange, hx, hys], ?_⟩
    intro pre hpre
    have hget : (JSValue.array (pre ++ x :: ys)).getIndex i = .ok x := by
      simp only [JSValue.getIndex, List.getD_eq_getElem?_getD]
      rw [List.getElem?_append_right (by omega)]
      simp [hpre]
    have h2 := henc (pre ++ [x]) (by simp [hpre])
    rw [List.append_assoc, List.singleton_append] at h2
    simp only [encodeRange, hget, hex, h2]
    congr 1
    rw [show (count + 1) * sz = sz + count * sz by ring, slice_add]
    congr 2
    ring

mutual
theorem parse_encode (host : Host) : ∀ (m : Model), m.plain = true →
    ∀ (view : DataView) (o : Nat), o + m.getSize ≤ view.length →
    ∃ v, m.parse view o = .ok v ∧ m.encode host v = some (slice view o m.getSize)
  | .ConstModel value, _, view, o, _ =>
    ⟨value, rfl, by simp [Model.encode, Model.getSize, slice_zero_len]⟩
  | .ValueModel (.Num n), hp, view, o, hfit => by
    simp only [Model.plain] at hp
    simp only [Model.getSize, Value.getSize] at hfit
    obtain ⟨v, hv, he⟩ := num_parse_encode host n hp view o hfit
    exact ⟨v, by simpa [Model.parse, Value.parse] using hv,
      by simp [Model.encode, Value.encode, Model.getSize, Value.getSize, he]⟩
  | .ValueModel (.FixedLengthString size wide), hp, view, o, hfit => by
    simp only [Model.plain, Bool.not_eq_true', ] at hp
    subst hp
    simp only [Model.getSize, Value.getSize, FixedLengthString.getSize, Bool.false_eq_true,
      if_false, Nat.mul_one] at hfit ⊢
    obtain ⟨v, hv, he⟩ := string_parse_encode host size view o hfit
    exact ⟨v, by simpa [Model.parse, Value.parse] using hv, by simpa [Model.encode] using he⟩
  | .ArrayModel base size, hp, view, o, hfit => by
    simp only [Model.plain] at hp
    simp only [Model.getSize] at hfit
    obtain ⟨ys, hys, henc⟩ := collect_encode view o base.getSize
      (fun i => Model.parse base view (o + i * base.getSize)) (Model.encode host base)
      (fun j hj => parse_encode host base hp view (o + j * base.getSize) (by
        have : (j + 1) * base.getSize = j * base.getSize + base.getSize := by ring
        omega))
      size 0 (by rw [Nat.zero_add, Nat.mul_comm]; exact hfit)
    refine ⟨.array ys, by simp only [Model.parse, hys], ?_⟩
    have h := henc [] rfl
    simp only [List.nil_append, Nat.zero_mul, Nat.add_zero] at h
    simp only [Model.encode, Model.getSize, h]
    rw [Nat.mul_comm]
  | .ObjectModel children, hp, view, o, hfit => by
    simp only [Model.plain, Bool.and_eq_true, decide_eq_true_eq] at hp
    simp only [Model.getSize] at hfit
    obtain ⟨ret', hret, _, henc⟩ :=
      parseChildren_encode host children hp.2 hp.1 view o [] hfit
    exact ⟨.object ret', by simp only [Model.parse, hret],
      by simpa [Model.encode, Model.getSize] using henc ret' (fun _ _ => rfl)⟩
theorem parseChildren_encode (host : Host) : ∀ (children : List (String × Model)),
    Model.plainChildren children = true → (children.map Prod.fst).Nodup →
    ∀ (view : DataView) (o : Nat) (ret : List (String × JSValue)),
    o + Model.childrenSize children ≤ view.length →
    ∃ ret', Model.parseChildren children view o ret = .ok ret' ∧
      (∀ k, k ∉ children.map Prod.fst → ret'.lookup k = ret.lookup k) ∧
      ∀ final : List (String × JSValue),
        (∀ k, k ∈ children.map Prod.fst → final.lookup k = ret'.lookup k) →
        Model.encodeChildren host children (.object final) =
          some (slice view o (Model.childrenSize children))
  | [], _, _, view, o, ret, _ =>
    ⟨ret, rfl, fun _ _ => rfl, fun _ _ => by
      simp [Model.encodeChildren, Model.childrenSize, slice_zero_len]⟩
  | child :: rest, hp, hn, view, o, ret, hfit => by
    simp only [Model.plainChildren, Bool.and_eq_true] at hp
    simp only [List.map_cons, List.nodup_cons] at hn
    simp only [Model.childrenSize] at hfit
    obtain ⟨x, hx, hex⟩ := parse_encode host child.2 hp.1 view o (by omega)
    obtain ⟨ret', hret, hkeep, henc⟩ := parseChildren_encode host rest hp.2 hn.2 view
      (o + child.2.getSize) (setProp ret child.1 x) (by omega)
    refine ⟨ret', by simp only [Model.parseChildren, hx, hret], ?_, ?_⟩
    · intro k hk
      simp only [List.map_cons, List.mem_cons, not_or] at hk
      rw [hkeep k hk.2, lookup_setProp, if_neg hk.1]
    · intro final hfinal
      have h1 : final.lookup child.1 = some x := by
        rw [hfinal child.1 (by simp), hkeep child.1 hn.1, lookup_setProp, if_pos rfl]
      have h2 := henc final (fun k hk => hfinal k (by simp [hk]))
      simp only [Model.encodeChildren, JSValue.getField, h1, Option.getD_some, hex, h2,
        Model.childrenSize, slice_add]
end

/-- Claim C1: for every model that `modelOf` compiles from integer primitives,
fixed-length strings, arrays, nested records and literal constants, and for
every buffer `b` of exactly `size()` bytes handed over by the read callback,
`parse` returns a value and `dump` of that value returns a buffer equal to `b`
byte for byte. -/
theorem dump_parse_roundtrip (host : Host) (s : Schema) (hs : s.plain = true)
    (read_callback : Nat → ArrayBuffer)
    (hb : (read_callback (modelOf s).size).length = (modelOf s).size) :
    ∃ v, (modelOf s).parse read_callback = .ok v ∧
      (modelOf s).dump host v = .ok (read_callback (modelOf s).size) := by
  have hp := getModel_plain s hs
  simp only [modelOf, Facade.size] at hb
  obtain ⟨v, hv, he⟩ := parse_encode host (_getModel s) hp
    (read_callback (_getModel s).getSize) 0 (by omega)
  refine ⟨v, by simpa [modelOf, Facade.parse] using hv, ?_⟩
  have e : slice (read_callback (_getModel s).getSize) 0 (_getModel s).getSize
      = read_callback (_getModel s).getSize := by
    have h0 := slice_zero_full (read_callback (_getModel s).getSize)
    rwa [hb] at h0
  rw [e] at he
  simp only [modelOf, Facade.size]
  exact (facade_dump_iff host _ _ _).mpr he

theorem dump_parse_roundtrip_witness :
    sampleSchema.plain = true ∧
    ((fun _ => sampleBuffer : Nat → ArrayBuffer) (modelOf sampleSchema).size).length =
      (modelOf sampleSchema).size ∧
    (modelOf sampleSchema).parse (fun _ => sampleBuffer) =
      .ok (.object
        [("magic", .string [0x50, 0x4B]),
         ("pk", .string [0x50, 0xFFCB]),
         ("type", .number 0x0403),
         ("body", .object [("x", .number (-1))]),
         ("tail", .array [.number (-32767), .number (-2)])]) ∧
    ∃ v,
      (modelOf sampleSchema).parse (fun _ => sampleBuffer) = .ok v ∧
      (modelOf sampleSchema).dump sampleHost v =
        .ok ((fun _ => sampleBuffer : Nat → ArrayBuffer) (modelOf sampleSchema).size) :=
  ⟨rfl, rfl, rfl, dump_parse_roundtrip sampleHost sampleSchema rfl (fun _ => sampleBuffer) rfl⟩

/-! ## Schemas and models without a field `__proto__` -/

theorem protoFreeChildren_iff (children : List (String × Model)) :
    Model.protoFreeChildren children = true ↔
      ∀ child ∈ children, child.1 ≠ "__proto__" ∧ child.2.protoFree = true := by
  induction children with
  | nil => simp [Model.protoFreeChildren]
  | cons c rest ih =>
    simp only [Model.protoFreeChildren, Bool.and_eq_true, ih, List.mem_cons, forall_eq_or_imp,
      bne_iff_ne, ne_eq, and_assoc]

theorem protoFreeProps_iff (props : List (String × Schema)) :
    Schema.protoFreeProps props = true ↔
      ∀ p ∈ props, p.1 ≠ "__proto__" ∧ p.2.protoFree = true := by
  induction props with
  | nil => simp [Schema.protoFreeProps]
  | cons c rest ih =>
    simp only [Schema.protoFreeProps, Bool.and_eq_true, ih, List.mem_cons, forall_eq_or_imp,
      bne_iff_ne, ne_eq, and_assoc]

theorem protoFreeChildren_setProp (acc : List (String × Model)) (k : String) (m : Model)
    (hacc : Model.protoFreeChildren acc = true) (hk : k ≠ "__proto__")
    (hm : m.protoFree = true) : Model.protoFreeChildren (setProp acc k m) = true := by
  rw [protoFreeChildren_iff] at hacc ⊢
  intro child hc
  rcases mem_setProp acc k m child hc with rfl | h
  · exact ⟨hk, hm⟩
  · exact hacc child h

mutual
/-- A schema without a property `__proto__` compiles to a model without a
field `__proto__`. -/
theorem getModel_protoFree : ∀ s : Schema, s.protoFree = true → (_getModel s).protoFree = true
  | .value _, _ => rfl
  | .valueArray baseType _, h => by
    simp only [Schema.protoFree] at h
    simpa [_getModel, Model.protoFree] using getModel_protoFree baseType h
  | .model _, h => by simpa [_getModel, Schema.protoFree] using h
  | .object props, h => by
    simp only [Schema.protoFree] at h
    simpa [_getModel, Model.protoFree] using getModelProps_protoFree props [] h rfl
  | .literal _, _ => rfl
theorem getModelProps_protoFree : ∀ (props : List (String × Schema))
    (acc : List (String × Model)), Schema.protoFreeProps props = true →
    Model.protoFreeChildren acc = true →
    Model.protoFreeChildren (_getModelProps props acc) = true
  | [], _, _, hacc => hacc
  | p :: rest, acc, h, hacc => by
    simp only [Schema.protoFreeProps, Bool.and_eq_true, bne_iff_ne, ne_eq] at h
    simp only [_getModelProps]
    exact getModelProps_protoFree rest _ h.2
      (protoFreeChildren_setProp acc p.1 _ hacc h.1.1 (getModel_protoFree p.2 h.1.2))
end

/-! ## Declared order and enumeration order -/

theorem insertIndex_append {α : Type} (i : Nat) (k : String) (v : α)
    (acc : List (String × α)) (hk : arrayIndex? k = some i)
    (h : ∀ p ∈ acc, enumBefore p.1 k = true) : insertIndex i k v acc = acc ++ [(k, v)] := by
  induction acc with
  | nil => rfl
  | cons p rest ih =>
    have hp := h p (by simp)
    simp only [enumBefore, hk] at hp
    simp only [insertIndex]
    cases hpi : arrayIndex? p.1 with
    | none => simp [hpi] at hp
    | some j =>
      simp only [hpi, decide_eq_true_eq] at hp
      simp only [hp, if_true, List.cons_append]
      rw [ih (fun q hq => h q (by simp [hq]))]

theorem setProp_append {α : Type} (acc : List (String × α)) (k : String) (v : α)
    (hnew : k ∉ acc.map Prod.fst) (h : ∀ p ∈ acc, enumBefore p.1 k = true) :
    setProp acc k v = acc ++ [(k, v)] := by
  have hany : acc.any (fun p => p.1 == k) = false := by
    apply Bool.eq_false_iff.mpr
    intro hc
    obtain ⟨p, hp, hpk⟩ := List.any_eq_true.mp hc
    exact hnew (List.mem_map.mpr ⟨p, hp, by simpa using hpk⟩)
  simp only [setProp, hany, Bool.false_eq_true, if_false]
  cases hk : arrayIndex? k with
  | none => rfl
  | some i => exact insertIndex_append i k v acc hk h

theorem keysOrdered_step (pre : List String) (k : String) (post : List String)
    (h : KeysOrdered (pre ++ k :: post)) :
    k ∉ pre ∧ (∀ a ∈ pre, enumBefore a k = true) ∧ KeysOrdered ((pre ++ [k]) ++ post) := by
  obtain ⟨hn, hp⟩ := h
  refine ⟨?_, ?_, ?_⟩
  · intro hk
    have := List.nodup_append.mp hn
    exact this.2.2 hk (by simp)
  · intro a ha
    have := List.pairwise_append.mp hp
    exact this.2.2 a ha k (by simp)
  · rw [List.append_assoc, List.singleton_append]
    exact ⟨hn, hp⟩

theorem foldl_setProp_eq {α : Type} (l acc : List (String × α))
    (h : KeysOrdered (acc.map Prod.fst ++ l.map Prod.fst)) :
    l.foldl (fun props p => setProp props p.1 p.2) acc = acc ++ l := by
  induction l generalizing acc with
  | nil => simp
  | cons p rest ih =>
    rw [List.map_cons] at h
    obtain ⟨h1, h2, h3⟩ := keysOrdered_step _ _ _ h
    have hs : setProp acc p.1 p.2 = acc ++ [p] :=
      setProp_append acc p.1 p.2 h1 (fun q hq => h2 q.1 (List.mem_map.mpr ⟨q, hq, rfl⟩))
    rw [List.foldl_cons, hs, ih (acc ++ [p]) (by simpa using h3)]
    simp

/-- An object literal written in enumeration order is enumerated as written. -/
theorem objectLiteral_eq {α : Type} (l : List (String × α)) (h : IsPropertyList l) :
    objectLiteral l = l := by
  have := foldl_setProp_eq l [] (by simpa using h)
  simpa [objectLiteral] using this

theorem getModelProps_eq (props : List (String × Schema)) (acc : List (String × Model))
    (h : KeysOrdered (acc.map Prod.fst ++ props.map Prod.fst)) :
    _getModelProps props acc = acc ++ props.map (fun p => (p.1, _getModel p.2)) := by
  induction props generalizing acc with
  | nil => simp [_getModelProps]
  | cons p rest ih =>
    rw [List.map_cons] at h
    obtain ⟨h1, h2, h3⟩ := keysOrdered_step _ _ _ h
    have hs : setProp acc p.1 (_getModel p.2) = acc ++ [(p.1, _getModel p.2)] :=
      setProp_append acc p.1 _ h1 (fun q hq => h2 q.1 (List.mem_map.mpr ⟨q, hq, rfl⟩))
    rw [_getModelProps, hs, ih _ (by simpa using h3)]
    simp

/-- The Record model of a schema object has the fields of the object, each one
compiled, in the order in which the object enumerates them. -/
theorem getModel_object (props : List (String × Schema)) (h : IsPropertyList props) :
    _getModel (.object props) = .ObjectModel (props.map (fun p => (p.1, _getModel p.2))) := by
  have := getModelProps_eq props [] (by simpa using h)
  simpa [_getModel] using this

/-- Claim C11, refuted as stated: the schema `{b: int8_t(), "0": int16_t()}`
declares `b` first, but its Record model has the field `0` first.  `0` is
parsed from bytes 0 and 1 and `b` from byte 2, and `dump` writes in that order
too. -/
theorem declared_order_counterexample :
    (([("b", .value int8_t), ("0", .value int16_t)] : List (String × Schema)).map
      Prod.fst).Nodup ∧
    (modelOf (.object (objectLiteral
      [("b", .value int8_t), ("0", .value int16_t)]))).model.fieldNames = ["0", "b"] ∧
    (modelOf (.object (objectLiteral [("b", .value int8_t), ("0", .value int16_t)]))).model ≠
      .ObjectModel (([("b", .value int8_t), ("0", .value int16_t)] : List (String × Schema)).map
        (fun p => (p.1, _getModel p.2))) ∧
    (modelOf (.object (objectLiteral [("b", .value int8_t), ("0", .value int16_t)]))).parse
        (fun _ => [1, 2, 3]) =
      .ok (.object [("0", .number 0x0201), ("b", .number 3)]) ∧
    (modelOf (.object (objectLiteral [("b", .value int8_t), ("0", .value int16_t)]))).dump
        sampleHost (.object (objectLiteral [("b", .number 1), ("0", .number 0x0302)])) =
      .ok [2, 3, 1] :=
  ⟨by decide, rfl, fun h => absurd (congrArg Model.fieldNames h) (by decide), rfl, rfl⟩

/-- Claim C11, amended: when the declared names are distinct, none of them is
`__proto__` (in the schema or in a schema nested in it), and the names that are
array indices (canonical decimal integers below `2^32 - 1`), if there are
any, are declared first and in ascending order, the schema object enumerates
its fields as declared and the Record model has exactly these fields in the
declared order, none of them named `__proto__` at any depth: its size is the
sum taken in that order, `parse` reads field `i` at the offset advanced by the
fields declared before it, and `dump` concatenates the blocks of the fields in
the declared order.  A field declared as `__proto__` is left out: the
assignment `modelObject[name] = ...` of line 294 then sets the prototype of
`modelObject`, and the Record gets no field of that name. -/
theorem declared_order_kept (decl : List (String × Schema)) (h : IsPropertyList decl)
    (hproto : Schema.protoFree (.object decl) = true) :
    objectLiteral decl = decl ∧
    ∃ children : List (String × Model),
      children = decl.map (fun p => (p.1, _getModel p.2)) ∧
      (modelOf (.object (objectLiteral decl))).model = .ObjectModel children ∧
      ("__proto__" ∉ children.map Prod.fst ∧
        (modelOf (.object (objectLiteral decl))).model.protoFree = true) ∧
      (modelOf (.object (objectLiteral decl))).size =
        (children.map (fun child => child.2.getSize)).sum ∧
      (∀ (view : DataView) (offset : Nat),
        (∀ i (hi : i < children.length),
          ∃ x, children[i].2.parse view
            (offset + ((children.take i).map (fun child => child.2.getSize)).sum) = .ok x) →
        ∃ ret, (modelOf (.object (objectLiteral decl))).model.parse view offset = .ok ret ∧
          ∀ i (hi : i < children.length),
            ret.getField children[i].1 =
              children[i].2.parse view
                (offset + ((children.take i).map (fun child => child.2.getSize)).sum)) ∧
      (∀ (host : Host) (v : JSValue) (blocks : List (List Byte)),
        List.Forall₂
          (fun (child : String × Model) (block : List Byte) =>
            ∃ x, v.getField child.1 = .ok x ∧ Facade.dump host ⟨child.2⟩ x = .ok block)
          children blocks →
        (modelOf (.object (objectLiteral decl))).dump host v = .ok blocks.flatten) := by
  have hl := objectLiteral_eq decl h
  have hf : modelOf (.object (objectLiteral decl)) =
      ⟨.ObjectModel (decl.map (fun p => (p.1, _getModel p.2)))⟩ := by
    rw [hl, modelOf, getModel_object decl h]
  have hnames : ((decl.map (fun p => (p.1, _getModel p.2))).map Prod.fst).Nodup := by
    have : (decl.map (fun p => (p.1, _getModel p.2))).map Prod.fst = decl.map Prod.fst := by
      simp [List.map_map, Function.comp_def]
    rw [this]
    exact h.1
  have hfree : (modelOf (.object (objectLiteral decl))).model.protoFree = true := by
    rw [hl]
    exact getModel_protoFree (.object decl) hproto
  refine ⟨hl, _, rfl, by rw [hf], ⟨?_, hfree⟩, ?_, ?_, ?_⟩
  · rw [hf] at hfree
    simp only [Model.protoFree] at hfree
    intro hmem
    obtain ⟨child, hc, hname⟩ := List.mem_map.mp hmem
    exact ((protoFreeChildren_iff _).mp hfree child hc).1 hname
  · rw [hf]
    simp only [Facade.size, Model.getSize, childrenSize_eq_sum]
  · intro view offset hok
    obtain ⟨ret', hp, _, hget⟩ := parseChildren_spec view _ offset []
      (fun i hi => by rw [childrenSize_eq_sum]; exact hok i hi)
    rw [hf]
    refine ⟨.object ret', by simp only [Model.parse, hp], ?_⟩
    intro i hi
    obtain ⟨x, hx, hlk⟩ := hget hnames i hi
    rw [childrenSize_eq_sum] at hx
    rw [hx]
    simp only [JSValue.getField, hlk, Option.getD_some]
  · intro host v blocks hb
    rw [hf, facade_dump_iff, Model.encode]
    exact encodeChildren_blocks host _ v blocks hb

theorem declared_order_kept_witness :
    IsPropertyList ([("0", .value int16_t), ("7", .literal (.number 1)), ("b", .value int8_t),
      ("a", arrayOf (.value uint8_t) 2)] : List (String × Schema)) ∧
    Schema.protoFree (.object [("0", .value int16_t), ("7", .literal (.number 1)),
      ("b", .value int8_t), ("a", arrayOf (.value uint8_t) 2)]) = true ∧
    (modelOf (.object (objectLiteral [("0", .value int16_t), ("7", .literal (.number 1)),
      ("b", .value int8_t), ("a", arrayOf (.value uint8_t) 2)]))).model.fieldNames =
      ["0", "7", "b", "a"] ∧
    (objectLiteral ([("0", .value int16_t), ("7", .literal (.number 1)), ("b", .value int8_t),
        ("a", arrayOf (.value uint8_t) 2)] : List (String × Schema)) =
      [("0", .value int16_t), ("7", .literal (.number 1)), ("b", .value int8_t),
        ("a", arrayOf (.value uint8_t) 2)] ∧
    ∃ children : List (String × Model),
      children = ([("0", .value int16_t), ("7", .literal (.number 1)), ("b", .value int8_t),
        ("a", arrayOf (.value uint8_t) 2)] : List (String × Schema)).map
          (fun p => (p.1, _getModel p.2)) ∧
      (modelOf (.object (objectLiteral [("0", .value int16_t), ("7", .literal (.number 1)),
        ("b", .value int8_t), ("a", arrayOf (.value uint8_t) 2)]))).model =
        .ObjectModel children ∧
      ("__proto__" ∉ children.map Prod.fst ∧
        (modelOf (.object (objectLiteral [("0", .value int16_t), ("7", .literal (.number 1)),
          ("b", .value int8_t), ("a", arrayOf (.value uint8_t) 2)]))).model.protoFree = true) ∧
      (modelOf (.object (objectLiteral [("0", .value int16_t), ("7", .literal (.number 1)),
        ("b", .value int8_t), ("a", arrayOf (.value uint8_t) 2)]))).size =
        (children.map (fun child => child.2.getSize)).sum ∧
      (∀ (view : DataView) (offset : Nat),
        (∀ i (hi : i < children.length),
          ∃ x, children[i].2.parse view
            (offset + ((children.take i).map (fun child => child.2.getSize)).sum) = .ok x) →
        ∃ ret, (modelOf (.object (objectLiteral [("0", .value int16_t),
            ("7", .literal (.number 1)), ("b", .value int8_t),
            ("a", arrayOf (.value uint8_t) 2)]))).model.parse view offset = .ok ret ∧
          ∀ i (hi : i < children.length),
            ret.getField children[i].1 =
              children[i].2.parse view
                (offset + ((children.take i).map (fun child => child.2.getSize)).sum)) ∧
      (∀ (host : Host) (v : JSValue) (blocks : List (List Byte)),
        List.Forall₂
          (fun (child : String × Model) (block : List Byte) =>
            ∃ x, v.getField child.1 = .ok x ∧ Facade.dump host ⟨child.2⟩ x = .ok block)
          children blocks →
        (modelOf (.object (objectLiteral [("0", .value int16_t), ("7", .literal (.number 1)),
          ("b", .value int8_t), ("a", arrayOf (.value uint8_t) 2)]))).dump host v =
          .ok blocks.flatten)) :=
  ⟨by decide, rfl, rfl, declared_order_kept _ (by decide) rfl⟩

/-! ## Compiled models as schema nodes -/

/-- Claim C20: `_getModel` returns an already compiled Model unchanged, so
`modelOf(modelOf(s).model())` is the same facade as `modelOf(s)`, with the same
`size()` and the same results of `parse` and `dump`, and a compiled Model that
is a field of a schema object is the child of that name, at the same place, in
the Record model. -/
theorem getModel_idempotent :
    (∀ m : Model, _getModel (.model m) = m) ∧
    (∀ s : Schema, modelOf (.model (modelOf s).model) = modelOf s) ∧
    (∀ (s : Schema) (host : Host) (read_callback : Nat → ArrayBuffer) (obj : JSValue),
      (modelOf (.model (modelOf s).model)).size = (modelOf s).size ∧
      (modelOf (.model (modelOf s).model)).parse read_callback = (modelOf s).parse read_callback ∧
      (modelOf (.model (modelOf s).model)).dump host obj = (modelOf s).dump host obj) ∧
    (∀ (props : List (String × Schema)), IsPropertyList props →
      ∀ (i : Nat) (hi : i < props.length) (m : Model), props[i].2 = .model m →
        ∃ children : List (String × Model),
          (modelOf (.object props)).model = .ObjectModel children ∧
          children.length = props.length ∧ children[i]? = some (props[i].1, m)) := by
  refine ⟨fun _ => rfl, fun _ => rfl, fun _ _ _ _ => ⟨rfl, rfl, rfl⟩, ?_⟩
  intro props h i hi m hm
  refine ⟨_, getModel_object props h, by simp, ?_⟩
  rw [List.getElem?_map, List.getElem?_eq_getElem hi]
  simp [hm, _getModel]

theorem getModel_idempotent_witness :
    IsPropertyList ([("sig", .model zip_file_signature.model), ("n", .value uint8_t)] :
      List (String × Schema)) ∧
    (modelOf (.object [("sig", .model zip_file_signature.model), ("n", .value uint8_t)])).model =
      .ObjectModel [("sig", zip_file_signature.model), ("n", .ValueModel uint8_t)] ∧
    ∃ children : List (String × Model),
      (modelOf (.object [("sig", .model zip_file_signature.model),
        ("n", .value uint8_t)])).model = .ObjectModel children ∧
      children.length = ([("sig", .model zip_file_signature.model), ("n", .value uint8_t)] :
        List (String × Schema)).length ∧
      children[0]? = some (([("sig", .model zip_file_signature.model), ("n", .value uint8_t)] :
        List (String × Schema))[0].1, zip_file_signature.model) :=
  ⟨by decide, rfl,
    getModel_idempotent.2.2.2 [("sig", .model zip_file_signature.model), ("n", .value uint8_t)]
      (by decide) 0 (by decide) zip_file_signature.model rfl⟩

/-! ## Arrays -/

theorem collectRange_spec {α : Type} (body : Nat → Except JSError α) :
    ∀ (count i : Nat) (items : List α),
      collectRange body count i = .ok items ↔
        items.length = count ∧ ∀ j (hj : j < items.length), body (i + j) = .ok items[j] := by
  intro count
  induction count with
  | zero =>
    intro i items
    simp only [collectRange, Except.ok.injEq]
    constructor
    · rintro rfl
      exact ⟨rfl, fun j hj => absurd hj (Nat.not_lt_zero j)⟩
    · rintro ⟨h, _⟩
      exact (List.eq_nil_of_length_eq_zero h).symm
  | succ count ih =>
    intro i items
    simp only [collectRange]
    cases hb : body i with
    | error e =>
      simp only [false_iff, not_and, reduceCtorEq]
      intro hl hall
      have := hall 0 (by omega)
      rw [Nat.add_zero, hb] at this
      cases this
    | ok x =>
      simp only
      cases hr : collectRange body count (i + 1) with
      | error e =>
        simp only [false_iff, not_and, reduceCtorEq]
        intro hl hall
        cases items with
        | nil => simp at hl
        | cons y ys =>
          have h2 := (ih (i + 1) ys).mpr ⟨by simpa using hl, fun j hj => by
            have := hall (j + 1) (by simpa using hj)
            simpa [Nat.add_assoc, Nat.add_comm 1 j] using this⟩
          rw [hr] at h2
          cases h2
      | ok xs =>
        have h2 := (ih (i + 1) xs).mp hr
        simp only [Except.ok.injEq]
        constructor
        · rintro rfl
          refine ⟨by simp [h2.1], ?_⟩
          intro j hj
          cases j with
          | zero => simpa using hb
          | succ j =>
            have := h2.2 j (by simpa using hj)
            simpa [Nat.add_assoc, Nat.add_comm 1 j] using this
        · rintro ⟨hl, hall⟩
          cases items with
          | nil => simp at hl
          | cons y ys =>
            have hy := hall 0 (by simp)
            rw [Nat.add_zero, hb] at hy
            have h3 := (ih (i + 1) ys).mpr ⟨by simpa using hl, fun j hj => by
              have := hall (j + 1) (by simpa using hj)
              simpa [Nat.add_assoc, Nat.add_comm 1 j] using this⟩
            rw [hr] at h3
            simp only [List.getElem_cons_zero, Except.ok.injEq] at hy
            simp only [Except.ok.injEq] at h3
            rw [hy, h3]

/-- Claim C16: `parse` of an Array model with base `B` and count `c` returns,
whenever the base parses at each of the `c` offsets, an ordered sequence of
exactly `c` elements whose `i`-th element is `B.parse(view, offset + i * B.size())`;
and whatever it returns is such a sequence, so the number of elements is the
count of the schema on every buffer. -/
theorem array_parse_elements (base : Model) (count : Nat) (view : DataView) (offset : Nat) :
    ((∀ i, i < count → ∃ x, base.parse view (offset + i * base.getSize) = .ok x) →
      ∃ items : List JSValue,
        Model.parse (.ArrayModel base count) view offset = .ok (.array items)) ∧
    (∀ ret, Model.parse (.ArrayModel base count) view offset = .ok ret →
      ∃ items : List JSValue, ret = .array items ∧ items.length = count ∧
        ∀ i (hi : i < items.length),
          base.parse view (offset + i * base.getSize) = .ok items[i]) := by
  constructor
  · intro hok
    have hx : ∀ i : Fin count, ∃ x, base.parse view (offset + i.val * base.getSize) = .ok x :=
      fun i => hok i.val i.isLt
    choose f hf using hx
    refine ⟨List.ofFn f, ?_⟩
    have := (collectRange_spec (fun i => Model.parse base view (offset + i * base.getSize))
      count 0 (List.ofFn f)).mpr ⟨by simp, fun j hj => by
        simp only [Nat.zero_add, List.getElem_ofFn]
        exact hf ⟨j, by simpa using hj⟩⟩
    simp only [Model.parse, this]
  · intro ret hret
    simp only [Model.parse] at hret
    cases hc : collectRange (fun i => Model.parse base view (offset + i * base.getSize)) count 0 with
    | error e => rw [hc] at hret; cases hret
    | ok items =>
      rw [hc] at hret
      simp only [Except.ok.injEq] at hret
      have := (collectRange_spec _ count 0 items).mp hc
      refine ⟨items, hret.symm, this.1, fun i hi => ?_⟩
      have h2 := this.2 i hi
      simpa using h2

theorem array_parse_elements_witness :
    (∀ i, i < 3 → ∃ x, Model.parse (.ValueModel int16_t) [1, 0, 2, 0, 3, 0, 9]
      (1 + i * Model.getSize (.ValueModel int16_t)) = .ok x) ∧
    Model.parse (.ArrayModel (.ValueModel int16_t) 3) [1, 0, 2, 0, 3, 0, 9] 1 =
      .ok (.array [.number 512, .number 768, .number 2304]) ∧
    ∃ items : List JSValue,
      Model.parse (.ArrayModel (.ValueModel int16_t) 3) [1, 0, 2, 0, 3, 0, 9] 1 =
        .ok (.array items) :=
  have h : ∀ i, i < 3 → ∃ x, Model.parse (.ValueModel int16_t) [1, 0, 2, 0, 3, 0, 9]
      (1 + i * Model.getSize (.ValueModel int16_t)) = .ok x :=
    fun i hi =>
      match i, hi with
      | 0, _ => ⟨_, rfl⟩
      | 1, _ => ⟨_, rfl⟩
      | 2, _ => ⟨_, rfl⟩
  ⟨h, rfl, (array_parse_elements (.ValueModel int16_t) 3 [1, 0, 2, 0, 3, 0, 9] 1).1 h⟩

/-! ## Errors of the dump engine -/

theorem forRange_error (body : Nat → DataView → Dump) (e : JSError × DataView) :
    ∀ (count i : Nat) (view : DataView), forRange body count i view = .error e →
      ∃ j view', body j view' = .error e := by
  intro count
  induction count with
  | zero => intro i view h; simp [forRange] at h
  | succ count ih =>
    intro i view h
    simp only [forRange] at h
    cases hb : body i view with
    | error e' =>
      rw [hb] at h
      simp only [Except.error.injEq] at h
      exact ⟨i, view, by rw [hb, h]⟩
    | ok view' =>
      rw [hb] at h
      exact ih (i + 1) view' h

theorem setBytes_error (view : DataView) (o : Nat) (raw : List Byte) (e : JSError)
    (h : DataView.setBytes view o raw = .error e) : e = .RangeError := by
  simp only [DataView.setBytes] at h
  split at h
  · cases h
  · simp only [Except.error.injEq] at h
    exact h.symm

theorem raiseAt_setBytes_error (view : DataView) (o : Nat) (raw : List Byte)
    (e : JSError × DataView) (h : raiseAt view (DataView.setBytes view o raw) = .error e) :
    e = (.RangeError, view) := by
  cases hs : DataView.setBytes view o raw with
  | ok v => rw [hs] at h; simp [raiseAt] at h
  | error e' =>
    rw [hs] at h
    simp only [raiseAt, Except.error.injEq] at h
    rw [← h, setBytes_error _ _ _ _ hs]

theorem string_write_error (host : Host) (wide : Bool) (view : DataView) (o1 o2 : Nat)
    (value : JSValue) (e : JSError × DataView)
    (h : raiseAt view
        (if wide then DataView.setInt16 host view o1 value false
         else DataView.setInt8 host view o2 value) = .error e) :
    e = (.RangeError, view) := by
  cases wide with
  | false => exact raiseAt_setBytes_error _ _ _ _ h
  | true => exact raiseAt_setBytes_error _ _ _ _ h

/-- A dump of a string into a string field fails with a RangeError only. -/
theorem string_dump_error (host : Host) (size : Nat) (wide : Bool) (units : List CodeUnit)
    (view : DataView) (offset : Nat) (e : JSError) (st : DataView)
    (h : FixedLengthString.dump host size wide (.string units) view offset = .error (e, st)) :
    e = .RangeError := by
  simp only [FixedLengthString.dump] at h
  split at h
  · next e' h1 =>
    obtain ⟨j, view', hj⟩ := forRange_error _ _ _ _ _ h1
    have := string_write_error host wide view' _ _ _ _ hj
    simp only [Except.error.injEq] at h
    rw [h] at this
    exact (Prod.mk.inj this).1
  · next view1 h1 =>
    obtain ⟨j, view', hj⟩ := forRange_error _ _ _ _ _ h
    have := string_write_error host wide view' _ _ _ _ hj
    exact (Prod.mk.inj this).1

/-- Claim C12: for every width, buffer, offset and value `x`, `dump` of a
fixed-length string raises a TypeError if and only if `x` is not a string, and
when it does the buffer is as it was. -/
theorem string_dump_type_error (host : Host) (size : Nat) (wide : Bool) (x : JSValue)
    (view : DataView) (offset : Nat) :
    ((∃ st, Value.dump host (.FixedLengthString size wide) x view offset =
        .error (.TypeError, st)) ↔ ∀ units, x ≠ .string units) ∧
    (∀ st, Value.dump host (.FixedLengthString size wide) x view offset =
        .error (.TypeError, st) → st = view) ∧
    ((∀ units, x ≠ .string units) →
      Value.dump host (.FixedLengthString size wide) x view offset = .error (.TypeError, view)) := by
  have hnot : (∀ units, x ≠ .string units) →
      Value.dump host (.FixedLengthString size wide) x view offset = .error (.TypeError, view) := by
    intro hx
    cases x with
    | string units => exact absurd rfl (hx units)
    | _ => rfl
  have hstr : ∀ units st, x = .string units →
      Value.dump host (.FixedLengthString size wide) x view offset ≠ .error (.TypeError, st) := by
    intro units st hx h
    subst hx
    have := string_dump_error host size wide units view offset _ _ h
    cases this
  refine ⟨⟨?_, fun hx => ⟨view, hnot hx⟩⟩, ?_, hnot⟩
  · rintro ⟨st, h⟩ units hx
    exact hstr units st hx h
  · intro st h
    by_cases hx : ∀ units, x ≠ .string units
    · rw [hnot hx] at h
      simp only [Except.error.injEq, Prod.mk.injEq, true_and] at h
      exact h.symm
    · push_neg at hx
      obtain ⟨units, hx⟩ := hx
      exact absurd h (hstr units st hx)

theorem string_dump_type_error_witness :
    (∀ units, JSValue.number 5 ≠ .string units) ∧
    Value.dump sampleHost (fixed_length_string_t 2 none) (.number 5) [7, 7] 0 =
      .error (.TypeError, [7, 7]) ∧
    Value.dump sampleHost (fixed_length_string_t 2 none) (.string [0x41, 0x42]) [7] 0 =
      .error (.RangeError, [0x41]) ∧
    Value.dump sampleHost (.FixedLengthString 2 false) (.number 5) [7, 7] 0 =
      .error (.TypeError, [7, 7]) :=
  ⟨(fun _ h => nomatch h), rfl, rfl,
    (string_dump_type_error sampleHost 2 false (.number 5) [7, 7] 0).2.2 (fun _ h => nomatch h)⟩

theorem facade_dump_error (host : Host) (m : Model) (obj : JSValue)
    (h : m.encode host obj = none) : ∃ e, Facade.dump host ⟨m⟩ obj = .error e := by
  cases hd : Facade.dump host ⟨m⟩ obj with
  | error e => exact ⟨e, rfl⟩
  | ok b =>
    rw [(facade_dump_iff host m obj b).mp hd] at h
    cases h

theorem encodeChildren_none (host : Host) (children : List (String × Model)) (obj : JSValue)
    (child : String × Model) (hmem : child ∈ children)
    (h : ∀ x, obj.getField child.1 = .ok x → Model.encode host child.2 x = none) :
    Model.encodeChildren host children obj = none := by
  induction children with
  | nil => simp at hmem
  | cons c rest ih =>
    simp only [Model.encodeChildren]
    cases hg : obj.getField c.1 with
    | error e => rfl
    | ok x =>
      simp only
      cases he : Model.encode host c.2 x with
      | none => rfl
      | some a =>
        simp only
        rcases List.mem_cons.mp hmem with rfl | hrest
        · rw [h x hg] at he
          cases he
        · rw [ih hrest]

theorem encode_undefined_none (host : Host) (m : Model) (h : m.needsValue = true) :
    m.encode host .undefined = none := by
  cases m with
  | ConstModel v => simp [Model.needsValue] at h
  | ValueModel value =>
    cases value with
    | Num n => simp [Model.needsValue] at h
    | FixedLengthString size wide => rfl
  | ArrayModel base count =>
    cases count with
    | zero => simp [Model.needsValue] at h
    | succ count => rfl
  | ObjectModel children =>
    cases children with
    | nil => simp [Model.needsValue] at h
    | cons c rest => rfl

theorem dump_undefined_error (host : Host) (m : Model) (h : m.needsValue = true)
    (view : DataView) (offset : Nat) :
    m.dump host .undefined view offset = .error (.TypeError, view) := by
  cases m with
  | ConstModel v => simp [Model.needsValue] at h
  | ValueModel value =>
    cases value with
    | Num n => simp [Model.needsValue] at h
    | FixedLengthString size wide => rfl
  | ArrayModel base count =>
    cases count with
    | zero => simp [Model.needsValue] at h
    | succ count => rfl
  | ObjectModel children =>
    cases children with
    | nil => simp [Model.needsValue] at h
    | cons c rest => rfl

theorem num_bytes_undefined (host : Host) (n : Num) (hn : n.isInteger = true) :
    n.bytes host .undefined = List.replicate n.getSize 0 := by
  cases n <;> first
    | (simp [Num.isInteger] at hn; done)
    | (simp only [Num.bytes, toIntegral, Num.getSize, Num._size]; rfl)

theorem num_bytes_length (host : Host) (n : Num) (x : JSValue) :
    (n.bytes host x).length = n.getSize := by
  cases n <;> simp [Num.bytes, natToBytes_length, Num.getSize, Num._size]

/-- Claim C13, refuted as stated: an integer field accepts `undefined`, a string
and an object.  The setter of `DataView` converts the value to a Number, the
byte 0 is stored and the facade `dump` returns the buffer. -/
theorem primitive_dump_counterexample :
    (modelOf (.value uint8_t)).dump sampleHost .undefined = .ok [0] ∧
    (modelOf (.value uint8_t)).dump sampleHost (.string [0x61]) = .ok [0] ∧
    (modelOf (.value uint8_t)).dump sampleHost (.object []) = .ok [0] ∧
    (modelOf (.value int32_t)).dump sampleHost .undefined = .ok [0, 0, 0, 0] :=
  ⟨rfl, rfl, rfl, rfl⟩

/-- Claim C13, amended: a fixed-length string primitive fails at once, with a
TypeError and an untouched buffer, for every value that is not a string, and
the facade `dump` then returns no buffer, also when the string is a field of a
record.  A numeric primitive does not fail on account of the value: whatever
the value is, `dump` writes when the bytes fit and the facade `dump` returns a
buffer of `size()` bytes, which is all zero for `undefined` in an integer
field. -/
theorem primitive_dump_type (host : Host) :
    (∀ (size : Nat) (wide : Bool) (x : JSValue) (view : DataView) (offset : Nat),
      (∀ units, x ≠ .string units) →
        Value.dump host (.FixedLengthString size wide) x view offset =
          .error (.TypeError, view) ∧
        Facade.dump host ⟨.ValueModel (.FixedLengthString size wide)⟩ x = .error .TypeError) ∧
    (∀ (children : List (String × Model)) (obj : JSValue) (name : String) (size : Nat)
      (wide : Bool) (x : JSValue),
      (name, .ValueModel (.FixedLengthString size wide)) ∈ children →
      obj.getField name = .ok x → (∀ units, x ≠ .string units) →
        ∃ e, Facade.dump host ⟨.ObjectModel children⟩ obj = .error e) ∧
    (∀ (n : Num) (x : JSValue) (view : DataView) (offset : Nat),
      offset + n.getSize ≤ view.length →
        ∃ view', Value.dump host (.Num n) x view offset = .ok view') ∧
    (∀ (n : Num) (x : JSValue),
      ∃ b, Facade.dump host ⟨.ValueModel (.Num n)⟩ x = .ok b ∧ b.length = n.getSize) ∧
    (∀ n : Num, n.isInteger = true →
      Facade.dump host ⟨.ValueModel (.Num n)⟩ .undefined = .ok (List.replicate n.getSize 0)) := by
  have hstr : ∀ (size : Nat) (wide : Bool) (x : JSValue), (∀ units, x ≠ .string units) →
      Value.encode host (.FixedLengthString size wide) x = none := by
    intro size wide x hx
    cases x with
    | string units => exact absurd rfl (hx units)
    | _ => rfl
  refine ⟨?_, ?_, ?_, ?_, ?_⟩
  · intro size wide x view offset hx
    have h1 : ∀ view offset, Value.dump host (.FixedLengthString size wide) x view offset =
        .error (.TypeError, view) := by
      intro view offset
      cases x with
      | string units => exact absurd rfl (hx units)
      | _ => rfl
    refine ⟨h1 view offset, ?_⟩
    simp only [Facade.dump, Model.dump]
    rw [h1]
  · intro children obj name size wide x hmem hg hx
    apply facade_dump_error
    simp only [Model.encode]
    apply encodeChildren_none host children obj _ hmem
    intro y hy
    rw [hg] at hy
    simp only [Except.ok.injEq] at hy
    subst hy
    simpa [Model.encode] using hstr size wide x hx
  · intro n x view offset hfit
    have := num_dump_writes host n x view offset hfit
    exact ⟨_, this.1⟩
  · intro n x
    exact ⟨n.bytes host x, (facade_dump_iff host _ _ _).mpr rfl, num_bytes_length host n x⟩
  · intro n hn
    rw [facade_dump_iff]
    simp only [Model.encode, Value.encode, num_bytes_undefined host n hn]

theorem primitive_dump_type_witness :
    (∀ units, JSValue.number 7 ≠ .string units) ∧
    (modelOf (.value (fixed_length_string_t 2 none))).dump sampleHost (.number 7) =
      .error .TypeError ∧
    zip_file_signature.dump sampleHost
        (.object (objectLiteral [("pk", .number 7), ("type", .number 1)])) =
      .error .TypeError ∧
    (Value.dump sampleHost (.FixedLengthString 2 false) (.number 7) [9, 9] 0 =
        .error (.TypeError, [9, 9]) ∧
      Facade.dump sampleHost ⟨.ValueModel (.FixedLengthString 2 false)⟩ (.number 7) =
        .error .TypeError) :=
  ⟨(fun _ h => nomatch h), rfl, rfl,
    (primitive_dump_type sampleHost).1 2 false (.number 7) [9, 9] 0 (fun _ h => nomatch h)⟩

/-- Claim C14, refuted as stated: the record `{x: uint8_t()}` dumps the value
`{}`, which lacks `x`, to the byte 0 and returns the buffer, and the record
`{x: int16_t(), y: uint8_t()}` dumps `{y: 5}` to the bytes `00 00 05`. -/
theorem missing_field_counterexample :
    (JSValue.object []).getField "x" = .ok .undefined ∧
    (modelOf (.object (objectLiteral [("x", .value uint8_t)]))).dump sampleHost (.object []) =
      .ok [0] ∧
    (modelOf (.object (objectLiteral [("x", .value int16_t), ("y", .value uint8_t)]))).dump
        sampleHost (.object (objectLiteral [("y", .number 5)])) =
      .ok [0, 0, 5] :=
  ⟨rfl, rfl, rfl⟩

/-- Claim C14, amended: a field that a plain object has neither as a property
of its own nor by inheritance from `Object.prototype` (so a field named
`constructor` or `toString`, which every plain object inherits, is not a
missing one) is read as `undefined` and handed to the child of the field.
When that child is a fixed-length string, a record with at least one field or
an array of positive count, the child raises a TypeError before it writes, and
the facade `dump` of the record returns no buffer.  When the children are
numeric primitives, the facade `dump` returns a buffer whatever fields the
value has. -/
theorem missing_field_dump (host : Host) (children : List (String × Model))
    (props : List (String × JSValue)) :
    (∀ name, props.lookup name = none → name ∉ objectPrototypeNames →
      (JSValue.object props).getField name = .ok .undefined) ∧
    (∀ (m : Model) (view : DataView) (offset : Nat), m.needsValue = true →
      m.dump host .undefined view offset = .error (.TypeError, view)) ∧
    (∀ (name : String) (child : Model), (name, child) ∈ children →
      props.lookup name = none → name ∉ objectPrototypeNames → child.needsValue = true →
        ∃ e, Facade.dump host ⟨.ObjectModel children⟩ (.object props) = .error e) ∧
    ((∀ child ∈ children, ∃ n : Num, child.2 = .ValueModel (.Num n)) →
      ∃ b, Facade.dump host ⟨.ObjectModel children⟩ (.object props) = .ok b) := by
  refine ⟨?_, ?_, ?_, ?_⟩
  · intro name h _
    simp [JSValue.getField, h]
  · intro m view offset h
    exact dump_undefined_error host m h view offset
  · intro name child hmem hmiss _ hneeds
    apply facade_dump_error
    simp only [Model.encode]
    apply encodeChildren_none host children _ (name, child) hmem
    intro x hx
    simp only [JSValue.getField, hmiss, Option.getD_none, Except.ok.injEq] at hx
    subst hx
    exact encode_undefined_none host child hneeds
  · intro hall
    have : ∃ b, Model.encodeChildren host children (.object props) = some b := by
      induction children with
      | nil => exact ⟨[], rfl⟩
      | cons c rest ih =>
        obtain ⟨n, hn⟩ := hall c (by simp)
        obtain ⟨b, hb⟩ := ih (fun child hc => hall child (by simp [hc]))
        exact ⟨n.bytes host ((props.lookup c.1).getD .undefined) ++ b, by
          simp only [Model.encodeChildren, JSValue.getField, hn, Model.encode, Value.encode, hb]⟩
    obtain ⟨b, hb⟩ := this
    exact ⟨b, (facade_dump_iff host _ _ _).mpr (by simpa [Model.encode] using hb)⟩

theorem missing_field_dump_witness :
    List.lookup "pk" [("type", JSValue.number 1)] = none ∧
    "pk" ∉ objectPrototypeNames ∧
    Model.needsValue (.ValueModel (fixed_length_string_t 2 none)) = true ∧
    zip_file_signature.dump sampleHost (.object (objectLiteral [("type", .number 1)])) =
      .error .TypeError ∧
    ∃ e, Facade.dump sampleHost
        ⟨.ObjectModel [("pk", .ValueModel (fixed_length_string_t 2 none)),
          ("type", .ValueModel uint16_t)]⟩
        (.object [("type", .number 1)]) = .error e :=
  ⟨rfl, by decide, rfl, rfl,
    (missing_field_dump sampleHost
      [("pk", .ValueModel (fixed_length_string_t 2 none)), ("type", .ValueModel uint16_t)]
      [("type", .number 1)]).2.2.1 "pk" (.ValueModel (fixed_length_string_t 2 none))
      (by simp) rfl (by decide) rfl⟩

theorem forRange_congr (f g : Nat → DataView → Dump) :
    ∀ (count i : Nat) (view : DataView),
      (∀ j view, i ≤ j → j < i + count → f j view = g j view) →
      forRange f count i view = forRange g count i view := by
  intro count
  induction count with
  | zero => intro i view _; rfl
  | succ count ih =>
    intro i view h
    simp only [forRange]
    rw [h i view (le_refl _) (by omega)]
    cases g i view with
    | error e => rfl
    | ok view' => exact ih (i + 1) view' (fun j v h1 h2 => h j v (by omega) (by omega))

theorem encodeRange_congr (f g : Nat → Option (List Byte)) :
    ∀ (count i : Nat), (∀ j, i ≤ j → j < i + count → f j = g j) →
      encodeRange f count i = encodeRange g count i := by
  intro count
  induction count with
  | zero => intro i _; rfl
  | succ count ih =>
    intro i h
    simp only [encodeRange]
    rw [h i (le_refl _) (by omega), ih (i + 1) (fun j h1 h2 => h j (by omega) (by omega))]

theorem encodeRange_none (enc : Nat → Option (List Byte)) :
    ∀ (count i j : Nat), i ≤ j → j < i + count → enc j = none →
      encodeRange enc count i = none := by
  intro count
  induction count with
  | zero => intro i j h1 h2; omega
  | succ count ih =>
    intro i j h1 h2 hj
    simp only [encodeRange]
    by_cases hij : j = i
    · subst hij
      rw [hj]
    · cases enc i with
      | none => rfl
      | some a =>
        simp only
        rw [ih (i + 1) j (by omega) (by omega) hj]

theorem encodeRange_total (enc : Nat → Option (List Byte)) (h : ∀ j, ∃ b, enc j = some b) :
    ∀ (count i : Nat), ∃ b, encodeRange enc count i = some b := by
  intro count
  induction count with
  | zero => intro i; exact ⟨[], rfl⟩
  | succ count ih =>
    intro i
    obtain ⟨a, ha⟩ := h i
    obtain ⟨b, hb⟩ := ih (i + 1)
    exact ⟨a ++ b, by simp only [encodeRange, ha, hb]⟩

theorem getD_take (items : List JSValue) (count j : Nat) (hj : j < count) :
    (items.take count).getD j .undefined = items.getD j .undefined := by
  simp only [List.getD_eq_getElem?_getD, List.getElem?_take_of_lt hj]

/-- Claim C15, refuted as stated, in both directions: an array of two `uint8_t`
dumps the empty sequence to two zero bytes without an error, and an array of
one fixed-length string raises a TypeError for a sequence of two numbers, which
has more elements than the count. -/
theorem array_dump_counterexample :
    Facade.dump sampleHost ⟨.ArrayModel (.ValueModel uint8_t) 2⟩ (.array []) = .ok [0, 0] ∧
    Facade.dump sampleHost ⟨.ArrayModel (.ValueModel (fixed_length_string_t 1 none)) 1⟩
        (.array [.number 5, .number 6]) = .error .TypeError :=
  ⟨rfl, rfl⟩

/-- Claim C15, amended: `dump` of an Array model hands to the base, for
`i = 0 .. count - 1` in this order, the element `v[i]`, or `undefined` when `v`
has no such element, at `offset + i * B.size()`.  The elements of index `count`
and above are ignored: the dump of `v` is the dump of its first `count`
elements, and when the base dumps the `count` values to the blocks
`b_0, b_1, ...` the facade returns their concatenation.  A sequence that is too
short raises no error when the base is a numeric primitive; it raises one when
the base is a fixed-length string, a record with a field or an array of
positive count. -/
theorem array_dump_elements (host : Host) (base : Model) (count : Nat) (items : List JSValue) :
    (∀ (view : DataView) (offset : Nat),
      Model.dump host (.ArrayModel base count) (.array items) view offset =
        forRange
          (fun i view => base.dump host (items.getD i .undefined) view (offset + i * base.getSize))
          count 0 view) ∧
    (∀ (view : DataView) (offset : Nat),
      Model.dump host (.ArrayModel base count) (.array items) view offset =
        Model.dump host (.ArrayModel base count) (.array (items.take count)) view offset) ∧
    (∀ blocks : List (List Byte), blocks.length = count →
      (∀ i (hi : i < blocks.length),
        Facade.dump host ⟨base⟩ (items.getD i .undefined) = .ok blocks[i]) →
      Facade.dump host ⟨.ArrayModel base count⟩ (.array items) = .ok blocks.flatten) ∧
    ((∃ n : Num, base = .ValueModel (.Num n)) →
      ∃ b, Facade.dump host ⟨.ArrayModel base count⟩ (.array items) = .ok b) ∧
    (base.needsValue = true → items.length < count →
      ∃ e, Facade.dump host ⟨.ArrayModel base count⟩ (.array items) = .error e) := by
  have hdump : ∀ (items : List JSValue) (view : DataView) (offset : Nat),
      Model.dump host (.ArrayModel base count) (.array items) view offset =
        forRange
          (fun i view => base.dump host (items.getD i .undefined) view (offset + i * base.getSize))
          count 0 view := by
    intro items view offset
    simp only [Model.dump, JSValue.getIndex]
  have henc : Model.encode host (.ArrayModel base count) (.array items) =
      encodeRange (fun i => base.encode host (items.getD i .undefined)) count 0 := by
    simp only [Model.encode, JSValue.getIndex]
  refine ⟨hdump items, ?_, ?_, ?_, ?_⟩
  · intro view offset
    rw [hdump, hdump]
    apply forRange_congr
    intro j v _ hj
    rw [getD_take items count j (by omega)]
  · intro blocks hlen hb
    rw [facade_dump_iff, henc]
    have hsome : ∀ i (hi : i < blocks.length),
        base.encode host (items.getD i .undefined) = some blocks[i] :=
      fun i hi => (facade_dump_iff host _ _ _).mp (hb i hi)
    have key : ∀ (k i : Nat), i + k = blocks.length →
        encodeRange (fun i => base.encode host (items.getD i .undefined)) k i =
          some (blocks.drop i).flatten := by
      intro k
      induction k with
      | zero =>
        intro i hi
        rw [List.drop_eq_nil_of_le (by omega)]
        rfl
      | succ k ih =>
        intro i hi
        have hlt : i < blocks.length := by omega
        simp only [encodeRange, hsome i hlt, ih (i + 1) (by omega)]
        rw [List.drop_eq_getElem_cons hlt, List.flatten_cons]
    have := key count 0 (by omega)
    simpa using this
  · rintro ⟨n, rfl⟩
    obtain ⟨b, hb⟩ := encodeRange_total
      (fun i => Model.encode host (.ValueModel (.Num n)) (items.getD i .undefined))
      (fun j => ⟨_, rfl⟩) count 0
    exact ⟨b, (facade_dump_iff host _ _ _).mpr (by rw [henc]; exact hb)⟩
  · intro hneeds hshort
    apply facade_dump_error
    rw [henc]
    apply encodeRange_none _ count 0 items.length (by omega) (by omega)
    have : items.getD items.length .undefined = .undefined := by
      simp [List.getD_eq_getElem?_getD]
    simp only [this]
    exact encode_undefined_none host base hneeds

theorem array_dump_elements_witness :
    ([[1, 0], [2, 0]] : List (List Byte)).length = 2 ∧
    (∀ i (hi : i < ([[1, 0], [2, 0]] : List (List Byte)).length),
      Facade.dump sampleHost ⟨.ValueModel int16_t⟩
        (([.number 1, .number 2, .number 3] : List JSValue).getD i .undefined) =
        .ok ([[1, 0], [2, 0]] : List (List Byte))[i]) ∧
    Facade.dump sampleHost ⟨.ArrayModel (.ValueModel int16_t) 2⟩
        (.array [.number 1, .number 2, .number 3]) = .ok [1, 0, 2, 0] ∧
    Facade.dump sampleHost ⟨.ArrayModel (.ValueModel int16_t) 2⟩
        (.array [.number 1, .number 2, .number 3]) =
      .ok ([[1, 0], [2, 0]] : List (List Byte)).flatten :=
  have h : ∀ i (hi : i < ([[1, 0], [2, 0]] : List (List Byte)).length),
      Facade.dump sampleHost ⟨.ValueModel int16_t⟩
        (([.number 1, .number 2, .number 3] : List JSValue).getD i .undefined) =
        .ok ([[1, 0], [2, 0]] : List (List Byte))[i] :=
    fun i hi =>
      match i, hi with
      | 0, _ => rfl
      | 1, _ => rfl
  ⟨rfl, h, rfl,
    (array_dump_elements sampleHost (.ValueModel int16_t) 2
      [.number 1, .number 2, .number 3]).2.2.1 [[1, 0], [2, 0]] rfl h⟩

/-! ## Literal fields -/

theorem parseChildren_keep (view : DataView) :
    ∀ (children : List (String × Model)) (o : Nat) (ret r : List (String × JSValue)),
      Model.parseChildren children view o ret = .ok r →
      ∀ k, k ∉ children.map Prod.fst → r.lookup k = ret.lookup k
  | [], o, ret, r, h, k, _ => by
    simp only [Model.parseChildren, Except.ok.injEq] at h
    rw [h]
  | child :: rest, o, ret, r, h, k, hk => by
    simp only [Model.parseChildren] at h
    cases hp : child.2.parse view o with
    | error e => rw [hp] at h; cases h
    | ok x =>
      rw [hp] at h
      simp only [List.map_cons, List.mem_cons, not_or] at hk
      rw [parseChildren_keep view rest _ _ r h k hk.2, lookup_setProp, if_neg hk.1]

/-- The loop of `ObjectModel.parse` from two states of `ret` that differ at
`name` only: the same exception, or two results that differ at `name` only. -/
theorem parseChildren_agree (view : DataView) (name : String) :
    ∀ (children : List (String × Model)) (o : Nat) (ret1 ret2 : List (String × JSValue)),
      (∀ k, k ≠ name → ret1.lookup k = ret2.lookup k) →
      (∀ e, Model.parseChildren children view o ret2 = .error e →
        Model.parseChildren children view o ret1 = .error e) ∧
      (∀ r2, Model.parseChildren children view o ret2 = .ok r2 →
        ∃ r1, Model.parseChildren children view o ret1 = .ok r1 ∧
          ∀ k, k ≠ name → r1.lookup k = r2.lookup k)
  | [], o, ret1, ret2, h => by
    refine ⟨fun e he => by simp [Model.parseChildren] at he, fun r2 hr => ?_⟩
    simp only [Model.parseChildren, Except.ok.injEq] at hr
    subst hr
    exact ⟨ret1, rfl, h⟩
  | child :: rest, o, ret1, ret2, h => by
    simp only [Model.parseChildren]
    cases hp : child.2.parse view o with
    | error e => exact ⟨fun e' he => he, fun r2 hr => by cases hr⟩
    | ok x =>
      simp only
      apply parseChildren_agree view name rest
      intro k hk
      rw [lookup_setProp, lookup_setProp, h k hk]

theorem parseChildren_literal (view : DataView) (name : String) (v : JSValue)
    (post : List (String × Model)) (hpost : name ∉ post.map Prod.fst) :
    ∀ (pre : List (String × Model)) (o : Nat) (ret : List (String × JSValue)),
      (∀ e, Model.parseChildren (pre ++ post) view o ret = .error e →
        Model.parseChildren (pre ++ (name, .ConstModel v) :: post) view o ret = .error e) ∧
      (∀ r, Model.parseChildren (pre ++ post) view o ret = .ok r →
        ∃ r', Model.parseChildren (pre ++ (name, .ConstModel v) :: post) view o ret = .ok r' ∧
          r'.lookup name = some v ∧ ∀ k, k ≠ name → r'.lookup k = r.lookup k)
  | [], o, ret => by
    simp only [List.nil_append, Model.parseChildren, Model.parse, Model.getSize, Nat.add_zero]
    have hag := parseChildren_agree view name post o (setProp ret name v) ret
      (fun k hk => by rw [lookup_setProp, if_neg hk])
    refine ⟨hag.1, fun r hr => ?_⟩
    obtain ⟨r', hr', hk⟩ := hag.2 r hr
    refine ⟨r', hr', ?_, hk⟩
    rw [parseChildren_keep view post o _ r' hr' name hpost, lookup_setProp, if_pos rfl]
  | child :: pre, o, ret => by
    simp only [List.cons_append, Model.parseChildren]
    cases hp : child.2.parse view o with
    | error e => exact ⟨fun e' he => he, fun r hr => by cases hr⟩
    | ok x => exact parseChildren_literal view name v post hpost pre _ _

theorem getField_error (obj : JSValue) (k k' : String) (e : JSError)
    (h : obj.getField k = .error e) : obj.getField k' = .error .TypeError ∧ e = .TypeError := by
  cases obj with
  | undefined => simp only [JSValue.getField, Except.error.injEq] at h; exact ⟨rfl, h.symm⟩
  | null => simp only [JSValue.getField, Except.error.injEq] at h; exact ⟨rfl, h.symm⟩
  | bool b => simp [JSValue.getField] at h
  | number n => simp [JSValue.getField] at h
  | object props => simp [JSValue.getField] at h
  | array items =>
    simp only [JSValue.getField] at h
    split at h
    · cases h
    · split at h <;> cases h
  | string units =>
    simp only [JSValue.getField] at h
    split at h
    · cases h
    · split at h <;> cases h

theorem dumpChildren_literal (host : Host) (name : String) (v : JSValue)
    (post : List (String × Model)) (obj : JSValue) :
    ∀ (pre : List (String × Model)) (view : DataView) (o : Nat),
      (pre ++ post ≠ [] ∨ ∃ x, obj.getField name = .ok x) →
      Model.dumpChildren host (pre ++ (name, .ConstModel v) :: post) obj view o =
        Model.dumpChildren host (pre ++ post) obj view o
  | [], view, o, h => by
    simp only [List.nil_append, Model.dumpChildren, Model.dump, Model.getSize, Nat.add_zero]
    cases hg : obj.getField name with
    | ok x => rfl
    | error e =>
      have hne : post ≠ [] := by
        rcases h with h | ⟨x, hx⟩
        · simpa using h
        · rw [hg] at hx; cases hx
      cases post with
      | nil => exact absurd rfl hne
      | cons c rest =>
        obtain ⟨h1, h2⟩ := getField_error obj name c.1 e hg
        simp only [Model.dumpChildren, h1, h2]
  | child :: pre, view, o, h => by
    simp only [List.cons_append, Model.dumpChildren]
    cases hg : obj.getField child.1 with
    | error e => rfl
    | ok x =>
      simp only
      cases hd : Model.dump host child.2 x view o with
      | error e => rfl
      | ok view' =>
        simp only
        apply dumpChildren_literal host name v post obj pre
        right
        cases hn : obj.getField name with
        | ok y => exact ⟨y, rfl⟩
        | error e =>
          obtain ⟨h1, _⟩ := getField_error obj name child.1 e hn
          rw [hg] at h1
          cases h1

theorem isPropertyList_remove {α : Type} (pre : List (String × α)) (p : String × α)
    (post : List (String × α)) (h : IsPropertyList (pre ++ p :: post)) :
    IsPropertyList (pre ++ post) ∧ p.1 ∉ (pre ++ post).map Prod.fst := by
  have hsub : ((pre ++ post).map Prod.fst).Sublist ((pre ++ p :: post).map Prod.fst) := by
    apply List.Sublist.map
    exact List.Sublist.append (List.Sublist.refl _) (List.sublist_cons_self _ _)
  refine ⟨⟨h.1.sublist hsub, h.2.sublist hsub⟩, ?_⟩
  have hn := h.1
  simp only [List.map_append, List.map_cons] at hn ⊢
  have h1 := List.nodup_append.mp hn
  have h2 := List.nodup_cons.mp h1.2.1
  intro hmem
  rcases List.mem_append.mp hmem with hpre | hpost
  · exact h1.2.2 hpre (by simp)
  · exact h2.1 hpost

theorem childrenSize_append (a b : List (String × Model)) :
    Model.childrenSize (a ++ b) = Model.childrenSize a + Model.childrenSize b := by
  simp [childrenSize_eq_sum]

/-- Claim C19: in a schema record with a literal field, the literal adds 0 to
`size()`, the parsed object has the literal under that name on every buffer on
which the record parses, every other field is parsed as in the record without
the literal (same offsets, same results, same exception), and `dump` writes
what the record without the literal writes, whatever the value holds under
that name. -/
theorem literal_field (host : Host) (pre post : List (String × Schema)) (name : String)
    (v : JSValue) (h : IsPropertyList (pre ++ (name, Schema.literal v) :: post)) :
    (modelOf (.literal v)).size = 0 ∧
    (modelOf (.object (pre ++ (name, .literal v) :: post))).size =
      (modelOf (.object (pre ++ post))).size ∧
    (∀ (view : DataView) (offset : Nat),
      (∀ e, (modelOf (.object (pre ++ post))).model.parse view offset = .error e →
        (modelOf (.object (pre ++ (name, .literal v) :: post))).model.parse view offset =
          .error e) ∧
      (∀ r, (modelOf (.object (pre ++ post))).model.parse view offset = .ok r →
        ∃ r', (modelOf (.object (pre ++ (name, .literal v) :: post))).model.parse view offset =
            .ok r' ∧
          r'.getField name = .ok v ∧ ∀ k, k ≠ name → r'.getField k = r.getField k)) ∧
    (∀ (read_callback : Nat → ArrayBuffer),
      (∀ e, (modelOf (.object (pre ++ post))).parse read_callback = .error e →
        (modelOf (.object (pre ++ (name, .literal v) :: post))).parse read_callback = .error e) ∧
      (∀ r, (modelOf (.object (pre ++ post))).parse read_callback = .ok r →
        ∃ r', (modelOf (.object (pre ++ (name, .literal v) :: post))).parse read_callback =
            .ok r' ∧
          r'.getField name = .ok v ∧ ∀ k, k ≠ name → r'.getField k = r.getField k)) ∧
    (∀ (x : JSValue) (view : DataView) (offset : Nat),
      (modelOf (.literal v)).model.dump host x view offset = .ok view) ∧
    (pre ++ post ≠ [] → ∀ (obj : JSValue) (view : DataView) (offset : Nat),
      (modelOf (.object (pre ++ (name, .literal v) :: post))).model.dump host obj view offset =
        (modelOf (.object (pre ++ post))).model.dump host obj view offset) ∧
    (pre ++ post ≠ [] → ∀ obj : JSValue,
      (modelOf (.object (pre ++ (name, .literal v) :: post))).dump host obj =
        (modelOf (.object (pre ++ post))).dump host obj) := by
  obtain ⟨hrest, hname⟩ := isPropertyList_remove pre (name, Schema.literal v) post h
  have hfull : modelOf (.object (pre ++ (name, .literal v) :: post)) =
      ⟨.ObjectModel (pre.map (fun p => (p.1, _getModel p.2)) ++
        (name, .ConstModel v) :: post.map (fun p => (p.1, _getModel p.2)))⟩ := by
    rw [modelOf, getModel_object _ h]
    simp [_getModel]
  have hr : modelOf (.object (pre ++ post)) =
      ⟨.ObjectModel (pre.map (fun p => (p.1, _getModel p.2)) ++
        post.map (fun p => (p.1, _getModel p.2)))⟩ := by
    rw [modelOf, getModel_object _ hrest]
    simp
  have hpost : name ∉ (post.map (fun p => (p.1, _getModel p.2))).map Prod.fst := by
    intro hmem
    apply hname
    simp only [List.map_append, List.mem_append]
    right
    simpa [List.map_map, Function.comp_def] using hmem
  have hsize : (modelOf (.object (pre ++ (name, .literal v) :: post))).size =
      (modelOf (.object (pre ++ post))).size := by
    rw [hfull, hr]
    simp only [Facade.size, Model.getSize, childrenSize_append, Model.childrenSize, Nat.zero_add]
  have hparse : ∀ (view : DataView) (offset : Nat),
      (∀ e, (modelOf (.object (pre ++ post))).model.parse view offset = .error e →
        (modelOf (.object (pre ++ (name, .literal v) :: post))).model.parse view offset =
          .error e) ∧
      (∀ r, (modelOf (.object (pre ++ post))).model.parse view offset = .ok r →
        ∃ r', (modelOf (.object (pre ++ (name, .literal v) :: post))).model.parse view offset =
            .ok r' ∧
          r'.getField name = .ok v ∧ ∀ k, k ≠ name → r'.getField k = r.getField k) := by
    intro view offset
    rw [hfull, hr]
    obtain ⟨he, hok⟩ := parseChildren_literal view name v _ hpost
      (pre.map (fun p => (p.1, _getModel p.2))) offset []
    simp only [Model.parse]
    constructor
    · intro e hpe
      cases hc : Model.parseChildren (pre.map (fun p => (p.1, _getModel p.2)) ++
          post.map (fun p => (p.1, _getModel p.2))) view offset [] with
      | ok r => rw [hc] at hpe; cases hpe
      | error e' =>
        rw [hc] at hpe
        simp only [Except.error.injEq] at hpe
        rw [he e' hc, hpe]
    · intro r hpr
      cases hc : Model.parseChildren (pre.map (fun p => (p.1, _getModel p.2)) ++
          post.map (fun p => (p.1, _getModel p.2))) view offset [] with
      | error e' => rw [hc] at hpr; cases hpr
      | ok r0 =>
        rw [hc] at hpr
        simp only [Except.ok.injEq] at hpr
        subst hpr
        obtain ⟨r', hr', hv, hk⟩ := hok r0 hc
        refine ⟨.object r', by rw [hr'], ?_, ?_⟩
        · simp only [JSValue.getField, hv, Option.getD_some]
        · intro k hkn
          simp only [JSValue.getField, hk k hkn]
  have hdump : pre ++ post ≠ [] → ∀ (obj : JSValue) (view : DataView) (offset : Nat),
      (modelOf (.object (pre ++ (name, .literal v) :: post))).model.dump host obj view offset =
        (modelOf (.object (pre ++ post))).model.dump host obj view offset := by
    intro hne obj view offset
    rw [hfull, hr]
    simp only [Model.dump]
    apply dumpChildren_literal
    left
    intro hnil
    apply hne
    have := congrArg List.length hnil
    simp only [List.length_append, List.length_map] at this
    apply List.eq_nil_of_length_eq_zero
    simpa using this
  refine ⟨rfl, hsize, hparse, ?_, fun _ _ _ => rfl, hdump, ?_⟩
  · intro read_callback
    have := hparse (read_callback (modelOf (.object (pre ++ post))).size) 0
    simp only [Facade.parse]
    simp only [Facade.size] at hsize this
    rw [hsize]
    exact this
  · intro hne obj
    simp only [Facade.dump]
    simp only [Facade.size] at hsize
    rw [hsize, hdump hne]

theorem literal_field_witness :
    IsPropertyList ([("pk", .value (fixed_length_string_t 2 none))] ++
      ("magic", Schema.literal (.string [0x50, 0x4B])) :: [("type", .value uint16_t)]) ∧
    (modelOf (.object ([("pk", .value (fixed_length_string_t 2 none))] ++
      ("magic", Schema.literal (.string [0x50, 0x4B])) :: [("type", .value uint16_t)]))).parse
        (fun _ => [0x41, 0x42, 1, 0]) =
      .ok (.object [("pk", .string [0x41, 0x42]), ("magic", .string [0x50, 0x4B]),
        ("type", .number 1)]) ∧
    (modelOf (.object ([("pk", .value (fixed_length_string_t 2 none))] ++
      ("magic", Schema.literal (.string [0x50, 0x4B])) :: [("type", .value uint16_t)]))).dump
        sampleHost (.object [("pk", .string [0x41, 0x42]), ("magic", .number 7),
          ("type", .number 1)]) =
      .ok [0x41, 0x42, 1, 0] ∧
    (modelOf (.object ([("pk", .value (fixed_length_string_t 2 none))] ++
      ("magic", Schema.literal (.string [0x50, 0x4B])) :: [("type", .value uint16_t)]))).size =
      (modelOf (.object ([("pk", .value (fixed_length_string_t 2 none))] ++
        [("type", .value uint16_t)]))).size :=
  ⟨by decide, rfl, rfl,
    (literal_field sampleHost [("pk", .value (fixed_length_string_t 2 none))]
      [("type", .value uint16_t)] "magic" (.string [0x50, 0x4B]) (by decide)).2.1⟩

/-! ## The frame of the dump engine -/

theorem sameOutside_refl (view : DataView) (offset size : Nat) :
    SameOutside view view offset size := ⟨rfl, fun _ _ => rfl⟩

theorem sameOutside_trans (a b c : DataView) (o s o1 s1 o2 s2 : Nat)
    (h1 : SameOutside a b o1 s1) (h2 : SameOutside b c o2 s2)
    (ho1 : o ≤ o1) (hs1 : o1 + s1 ≤ o + s) (ho2 : o ≤ o2) (hs2 : o2 + s2 ≤ o + s) :
    SameOutside a c o s := by
  refine ⟨h2.1.trans h1.1, fun j hj => ?_⟩
  rw [h2.2 j (by omega), h1.2 j (by omega)]

theorem sameOutside_splice (view : DataView) (o : Nat) (raw : List Byte)
    (h : o + raw.length ≤ view.length) : SameOutside view (splice view o raw) o raw.length := by
  refine ⟨splice_length view o raw h, fun j hj => ?_⟩
  obtain ⟨pre, mid, post, rfl, rfl, hm⟩ := exists_window view o raw.length h
  rw [splice_window _ _ _ _ hm.symm]
  rcases hj with hj | hj
  · simp only [List.append_assoc]
    rw [List.getElem?_append_left hj, List.getElem?_append_left hj]
  · rw [List.getElem?_append_right (by simp; omega),
      List.getElem?_append_right (by simp; omega)]
    simp [hm]

theorem raiseAt_setBytes_frame (view : DataView) (o : Nat) (raw : List Byte) :
    SameOutside view (finalView (raiseAt view (DataView.setBytes view o raw))) o raw.length := by
  simp only [DataView.setBytes]
  split
  · next h => exact sameOutside_splice view o raw h
  · exact sameOutside_refl _ _ _

theorem forRange_frame (body : Nat → DataView → Dump) (o sz : Nat)
    (hbody : ∀ i view, SameOutside view (finalView (body i view)) (o + i * sz) sz) :
    ∀ (count i : Nat) (view : DataView),
      SameOutside view (finalView (forRange body count i view)) (o + i * sz) (count * sz) := by
  intro count
  induction count with
  | zero => intro i view; exact sameOutside_refl _ _ _
  | succ count ih =>
    intro i view
    have h1 := hbody i view
    have e1 : (count + 1) * sz = count * sz + sz := by ring
    have e2 : (i + 1) * sz = i * sz + sz := by ring
    simp only [forRange]
    cases hb : body i view with
    | error e =>
      rw [hb] at h1
      exact sameOutside_trans view view _ _ _ _ _ _ _ (sameOutside_refl view (o + i * sz) 0) h1
        (le_refl _) (by omega) (le_refl _) (by omega)
    | ok view' =>
      rw [hb] at h1
      exact sameOutside_trans view view' _ _ _ _ _ _ _ h1 (ih (i + 1) view')
        (le_refl _) (by omega) (by omega) (by omega)

theorem setInt_frame (host : Host) (w : Nat) (view : DataView) (o : Nat) (value : JSValue)
    (littleEndian : Bool) :
    SameOutside view (finalView (raiseAt view (DataView.setInt host w view o value littleEndian)))
      o w := by
  have := raiseAt_setBytes_frame view o
    (if littleEndian then natToBytes w (toUnsigned w (toIntegral host value))
      else (natToBytes w (toUnsigned w (toIntegral host value))).reverse)
  have hl : (if littleEndian then natToBytes w (toUnsigned w (toIntegral host value))
      else (natToBytes w (toUnsigned w (toIntegral host value))).reverse).length = w := by
    cases littleEndian <;> simp [natToBytes_length]
  rw [hl] at this
  exact this

theorem num_dump_frame (host : Host) (n : Num) (value : JSValue) (view : DataView)
    (offset : Nat) :
    SameOutside view (finalView (n.dump host value view offset)) offset n.getSize := by
  cases n
  case float_t =>
    have := raiseAt_setBytes_frame view offset (List.ofFn (host.float32 value))
    simpa [Num.dump, Num.__writeView, _set_float, DataView.setFloat32, Num.getSize, Num._size]
      using this
  case double_t =>
    have := raiseAt_setBytes_frame view offset (List.ofFn (host.float64 value))
    simpa [Num.dump, Num.__writeView, _set_double, DataView.setFloat64, Num.getSize, Num._size]
      using this
  all_goals
    simp only [Num.dump, Num.__writeView, _set_int8, _set_uint8, _set_int16, _set_uint16,
      _set_int32, _set_uint32, DataView.setInt8, DataView.setUint8, DataView.setInt16,
      DataView.setUint16, DataView.setInt32, DataView.setUint32, Num.getSize, Num._size]
    exact setInt_frame host _ view offset value true

theorem string_step_frame (host : Host) (wide : Bool) (offset : Nat) (value : JSValue)
    (i : Nat) (view : DataView) :
    SameOutside view
      (finalView (raiseAt view
        (if wide then DataView.setInt16 host view (offset + i * 2) value false
         else DataView.setInt8 host view (offset + i) value)))
      (offset + i * (if wide then 2 else 1)) (if wide then 2 else 1) := by
  cases wide with
  | false =>
    simp only [Bool.false_eq_true, if_false, Nat.mul_one, DataView.setInt8]
    exact setInt_frame host 1 view (offset + i) value true
  | true =>
    simp only [if_true, DataView.setInt16]
    exact setInt_frame host 2 view (offset + i * 2) value false

theorem string_dump_frame (host : Host) (size : Nat) (wide : Bool) (value : JSValue)
    (view : DataView) (offset : Nat) :
    SameOutside view (finalView (FixedLengthString.dump host size wide value view offset))
      offset (FixedLengthString.getSize size wide) := by
  cases value with
  | string units =>
    simp only [FixedLengthString.dump, FixedLengthString.getSize]
    have h1 := forRange_frame
      (fun i view => raiseAt view
        (if wide then DataView.setInt16 host view (offset + i * 2) (charCodeAt units i) false
         else DataView.setInt8 host view (offset + i) (charCodeAt units i)))
      offset (if wide then 2 else 1)
      (fun i view => string_step_frame host wide offset _ i view)
      (min units.length size) 0 view
    have hmin : min units.length size * (if wide then 2 else 1)
        ≤ size * (if wide then 2 else 1) := Nat.mul_le_mul_right _ (by omega)
    cases hf : forRange
      (fun i view => raiseAt view
        (if wide then DataView.setInt16 host view (offset + i * 2) (charCodeAt units i) false
         else DataView.setInt8 host view (offset + i) (charCodeAt units i)))
      (min units.length size) 0 view with
    | error e =>
      rw [hf] at h1
      exact sameOutside_trans view view _ _ _ _ _ _ _ (sameOutside_refl view offset 0) h1
        (le_refl _) (by omega) (by omega) (by omega)
    | ok view' =>
      rw [hf] at h1
      simp only
      by_cases hlen : size ≤ units.length
      · rw [Nat.sub_eq_zero_of_le hlen]
        simp only [forRange]
        exact sameOutside_trans view view _ _ _ _ _ _ _ (sameOutside_refl view offset 0) h1
          (le_refl _) (by omega) (by omega) (by omega)
      · have h2 := forRange_frame
          (fun i view => raiseAt view
            (if wide then DataView.setInt16 host view (offset + i * 2) (.number 0) false
             else DataView.setInt8 host view (offset + i) (.number 0)))
          offset (if wide then 2 else 1)
          (fun i view => string_step_frame host wide offset _ i view)
          (size - units.length) units.length view'
        have key : units.length * (if wide then 2 else 1)
            + (size - units.length) * (if wide then 2 else 1)
            = size * (if wide then 2 else 1) := by
          rw [← Nat.add_mul]
          congr 1
          omega
        exact sameOutside_trans view view' _ _ _ _ _ _ _ h1 h2
          (by omega) (by omega) (by omega) (by omega)
  | _ => exact sameOutside_refl _ _ _

theorem value_dump_frame (host : Host) (value : Value) (obj : JSValue) (view : DataView)
    (offset : Nat) :
    SameOutside view (finalView (value.dump host obj view offset)) offset value.getSize := by
  cases value with
  | Num n => exact num_dump_frame host n obj view offset
  | FixedLengthString size wide => exact string_dump_frame host size wide obj view offset

mutual
theorem dump_frame (host : Host) : ∀ (m : Model) (obj : JSValue) (view : DataView)
    (offset : Nat), SameOutside view (finalView (m.dump host obj view offset)) offset m.getSize
  | .ConstModel _, _, view, offset => sameOutside_refl view offset 0
  | .ValueModel value, obj, view, offset => by
    simp only [Model.dump, Model.getSize]
    exact value_dump_frame host value obj view offset
  | .ArrayModel base size, obj, view, offset => by
    simp only [Model.dump, Model.getSize]
    have h := forRange_frame
      (fun i view =>
        match obj.getIndex i with
        | .error e => .error (e, view)
        | .ok x => Model.dump host base x view (offset + i * base.getSize))
      offset base.getSize
      (fun i view => by
        beta_reduce
        cases obj.getIndex i with
        | error e => exact sameOutside_refl _ _ _
        | ok x => exact dump_frame host base x view (offset + i * base.getSize))
      size 0 view
    simp only [Nat.zero_mul, Nat.add_zero] at h
    rw [Nat.mul_comm]
    exact h
  | .ObjectModel children, obj, view, offset => by
    simp only [Model.dump, Model.getSize]
    exact dumpChildren_frame host children obj view offset
theorem dumpChildren_frame (host : Host) : ∀ (children : List (String × Model))
    (obj : JSValue) (view : DataView) (offset : Nat),
    SameOutside view (finalView (Model.dumpChildren host children obj view offset)) offset
      (Model.childrenSize children)
  | [], _, view, offset => sameOutside_refl view offset 0
  | child :: rest, obj, view, offset => by
    simp only [Model.dumpChildren, Model.childrenSize]
    cases obj.getField child.1 with
    | error e => exact sameOutside_refl _ _ _
    | ok x =>
      simp only
      have h1 := dump_frame host child.2 x view offset
      cases hd : Model.dump host child.2 x view offset with
      | error e =>
        rw [hd] at h1
        exact sameOutside_trans view view _ _ _ _ _ _ _ (sameOutside_refl view offset 0) h1
          (le_refl _) (by omega) (le_refl _) (by omega)
      | ok view' =>
        rw [hd] at h1
        exact sameOutside_trans view view' _ _ _ _ _ _ _ h1
          (dumpChildren_frame host rest obj view' (offset + child.2.getSize))
          (le_refl _) (by omega) (by omega) (by omega)
end

/-- Claim C17: for every model, value, buffer and offset, the buffer in which
`Model.dump(value, buffer, offset)` ends, whether it returns or throws part-way,
has the length of the buffer it started from and the same byte at every
position outside `[offset, offset + Model.size())`. -/
theorem dump_writes_in_range (host : Host) (m : Model) (value : JSValue) (view : DataView)
    (offset : Nat) :
    (finalView (m.dump host value view offset)).length = view.length ∧
    ∀ j, (j < offset ∨ offset + m.getSize ≤ j) →
      (finalView (m.dump host value view offset))[j]? = view[j]? :=
  dump_frame host m value view offset

/-! ## Short buffers -/

theorem getBytes_short (view : DataView) (o w : Nat) (h : view.length < o + w) :
    DataView.getBytes view o w = .error .RangeError := by
  simp only [DataView.getBytes]
  rw [if_neg (by omega)]

theorem num_parse_short (n : Num) (hn : n.isInteger = true) (view : DataView) (o : Nat)
    (h : view.length < o + n.getSize) : n.parse view o = .error .RangeError := by
  cases n <;> first
    | (simp [Num.isInteger] at hn; done)
    | (simp only [Num.getSize, Num._size] at h
       simp only [Num.parse, Num.__readView, _get_int8, _get_uint8, _get_int16, _get_uint16,
         _get_int32, _get_uint32, DataView.getInt8, DataView.getUint8, DataView.getInt16,
         DataView.getUint16, DataView.getInt32, DataView.getUint32, DataView.getInt,
         DataView.getUint, getBytes_short view o _ h, Except.map])

/-- A loop of reads over a buffer that ends inside the range of the loop stops
with the exception of the first read that does not fit. -/
theorem collect_short {α : Type} (f : Nat → Except JSError α) (o sz len : Nat)
    (hfit : ∀ i, o + (i + 1) * sz ≤ len → ∃ x, f i = .ok x)
    (hshort : ∀ i, o + i * sz ≤ len → len < o + (i + 1) * sz → f i = .error .RangeError) :
    ∀ (count i : Nat), o + i * sz ≤ len → len < o + (i + count) * sz →
      collectRange f count i = .error .RangeError := by
  intro count
  induction count with
  | zero => intro i h1 h2; simp only [Nat.add_zero] at h2; omega
  | succ count ih =>
    intro i h1 h2
    simp only [collectRange]
    by_cases hi : o + (i + 1) * sz ≤ len
    · obtain ⟨x, hx⟩ := hfit i hi
      rw [hx]
      simp only
      rw [ih (i + 1) hi (by rw [show i + 1 + count = i + (count + 1) by omega]; exact h2)]
    · rw [hshort i h1 (by omega)]

theorem string_parse_short (size : Nat) (view : DataView) (o : Nat) (h1 : o ≤ view.length)
    (h2 : view.length < o + size) :
    FixedLengthString.parse size false view o = .error .RangeError := by
  have := collect_short (fun i => DataView.getInt8 view (o + i)) o 1 view.length
    (fun i hi => ⟨_, getInt8_ok view (o + i) (by omega)⟩)
    (fun i _ hi => by
      simp only [DataView.getInt8, DataView.getInt, getBytes_short view (o + i) 1 (by omega)])
    size 0 (by omega) (by omega)
  simp only [FixedLengthString.parse, Bool.false_eq_true, if_false, this]

mutual
theorem parse_short : ∀ (m : Model), m.plain = true →
    ∀ (view : DataView) (o : Nat), o ≤ view.length → view.length < o + m.getSize →
    m.parse view o = .error .RangeError
  | .ConstModel _, _, view, o, h1, h2 => by
    simp only [Model.getSize] at h2
    omega
  | .ValueModel (.Num n), hp, view, o, _, h2 => by
    simp only [Model.plain] at hp
    simp only [Model.getSize, Value.getSize] at h2
    simpa [Model.parse, Value.parse] using num_parse_short n hp view o h2
  | .ValueModel (.FixedLengthString size wide), hp, view, o, h1, h2 => by
    simp only [Model.plain, Bool.not_eq_true'] at hp
    subst hp
    simp only [Model.getSize, Value.getSize, FixedLengthString.getSize, Bool.false_eq_true,
      if_false, Nat.mul_one] at h2
    simpa [Model.parse, Value.parse] using string_parse_short size view o h1 h2
  | .ArrayModel base size, hp, view, o, h1, h2 => by
    simp only [Model.plain] at hp
    simp only [Model.getSize] at h2
    have := collect_short (fun i => Model.parse base view (o + i * base.getSize)) o
      base.getSize view.length
      (fun i hi => by
        obtain ⟨v, hv, _⟩ := parse_encode sampleHost base hp view (o + i * base.getSize) (by
          have : (i + 1) * base.getSize = i * base.getSize + base.getSize := by ring
          omega)
        exact ⟨v, hv⟩)
      (fun i hi1 hi2 => parse_short base hp view (o + i * base.getSize) hi1 (by
        have : (i + 1) * base.getSize = i * base.getSize + base.getSize := by ring
        omega))
      size 0 (by omega) (by rw [Nat.zero_add, Nat.mul_comm]; exact h2)
    simp only [Model.parse, this]
  | .ObjectModel children, hp, view, o, h1, h2 => by
    simp only [Model.plain, Bool.and_eq_true, decide_eq_true_eq] at hp
    simp only [Model.getSize] at h2
    simp only [Model.parse, parseChildren_short children hp.2 view o [] h1 h2]
theorem parseChildren_short : ∀ (children : List (String × Model)),
    Model.plainChildren children = true →
    ∀ (view : DataView) (o : Nat) (ret : List (String × JSValue)), o ≤ view.length →
    view.length < o + Model.childrenSize children →
    Model.parseChildren children view o ret = .error .RangeError
  | [], _, view, o, ret, h1, h2 => by
    simp only [Model.childrenSize] at h2
    omega
  | child :: rest, hp, view, o, ret, h1, h2 => by
    simp only [Model.plainChildren, Bool.and_eq_true] at hp
    simp only [Model.childrenSize] at h2
    simp only [Model.parseChildren]
    by_cases hfit : o + child.2.getSize ≤ view.length
    · obtain ⟨v, hv, _⟩ := parse_encode sampleHost child.2 hp.1 view o hfit
      rw [hv]
      simp only
      exact parseChildren_short rest hp.2 view (o + child.2.getSize) _ hfit (by omega)
    · rw [parse_short child.2 hp.1 view o h1 (by omega)]
end

/-- Claim C18: for a model of integer primitives, fixed-length strings, arrays,
records and constants, the facade `parse` applies the read callback exactly
once, to `size()`; it raises an out-of-range error if and only if the buffer
that the callback returned has fewer than `size()` bytes, raises nothing else,
and with at least `size()` bytes it returns what `model.parse` reads at
offset 0. -/
theorem facade_parse_range (s : Schema) (hs : s.plain = true) :
    (∀ (σ : Type) (read_callback : Nat → σ → ArrayBuffer × σ) (st : σ),
      ((modelOf s).parseWith (logCalls read_callback) ([], st)).2.1 = [(modelOf s).size] ∧
      (modelOf s).parseWith read_callback st =
        ((modelOf s).parse (fun n => (read_callback n st).1),
          (read_callback (modelOf s).size st).2)) ∧
    (∀ read_callback : Nat → ArrayBuffer,
      ((modelOf s).parse read_callback = .error .RangeError ↔
        (read_callback (modelOf s).size).length < (modelOf s).size) ∧
      (∀ e, (modelOf s).parse read_callback = .error e → e = .RangeError) ∧
      ((modelOf s).size ≤ (read_callback (modelOf s).size).length →
        ∃ v, (modelOf s).parse read_callback = .ok v ∧
          (modelOf s).model.parse (read_callback (modelOf s).size) 0 = .ok v)) := by
  have hp := getModel_plain s hs
  refine ⟨fun σ read_callback st => ⟨rfl, rfl⟩, ?_⟩
  intro read_callback
  have hlong : (modelOf s).size ≤ (read_callback (modelOf s).size).length →
      ∃ v, (modelOf s).parse read_callback = .ok v ∧
        (modelOf s).model.parse (read_callback (modelOf s).size) 0 = .ok v := by
    intro h
    obtain ⟨v, hv, _⟩ := parse_encode sampleHost (_getModel s) hp
      (read_callback (modelOf s).size) 0 (by simpa [modelOf, Facade.size] using h)
    exact ⟨v, hv, hv⟩
  have hshort : (read_callback (modelOf s).size).length < (modelOf s).size →
      (modelOf s).parse read_callback = .error .RangeError := by
    intro h
    exact parse_short (_getModel s) hp (read_callback (modelOf s).size) 0 (Nat.zero_le _)
      (by simpa [modelOf, Facade.size] using h)
  refine ⟨⟨?_, hshort⟩, ?_, hlong⟩
  · intro herr
    by_contra hnot
    obtain ⟨v, hv, _⟩ := hlong (by omega)
    rw [hv] at herr
    cases herr
  · intro e he
    by_cases h : (read_callback (modelOf s).size).length < (modelOf s).size
    · rw [hshort h] at he
      simp only [Except.error.injEq] at he
      exact he.symm
    · obtain ⟨v, hv, _⟩ := hlong (by omega)
      rw [hv] at he
      cases he

theorem facade_parse_range_witness :
    sampleSchema.plain = true ∧
    (modelOf sampleSchema).size = 9 ∧
    (modelOf sampleSchema).parse (fun _ => sampleBuffer.take 8) = .error .RangeError ∧
    ((modelOf sampleSchema).parseWith
        (logCalls (fun (n : Nat) (cursor : Nat) => ((sampleBuffer.drop cursor).take n, cursor + n)))
        ([], 0)).2 = ([9], 9) ∧
    ((modelOf sampleSchema).parse (fun _ => sampleBuffer.take 8) = .error .RangeError ↔
      ((fun _ => sampleBuffer.take 8 : Nat → ArrayBuffer) (modelOf sampleSchema).size).length <
        (modelOf sampleSchema).size) :=
  ⟨rfl, rfl, rfl, rfl,
    ((facade_parse_range sampleSchema rfl).2 (fun _ => sampleBuffer.take 8)).1⟩

/-! ## Integers outside the range of a primitive -/

/-- What `parse` reads back after an integer primitive has stored `v`. -/
theorem num_parse_dump_int (host : Host) (n : Num) (hn : n.isInteger = true) (v : Int)
    (view : DataView) (offset : Nat) (hfit : offset + n.getSize ≤ view.length) :
    n.dump host (.number v) view offset =
        .ok (splice view offset (natToBytes n.getSize (toUnsigned n.getSize v))) ∧
      n.parse (splice view offset (natToBytes n.getSize (toUnsigned n.getSize v))) offset =
        .ok (.number (if n.signed then toSigned n.getSize (toUnsigned n.getSize v)
          else ((toUnsigned n.getSize v : Nat) : Int))) := by
  have hn' : n ≠ .float_t ∧ n ≠ .double_t := by
    cases n <;> simp [Num.isInteger] at hn ⊢
  have hlen : (natToBytes n.getSize (toUnsigned n.getSize v)).length = n.getSize :=
    natToBytes_length _ _
  have hfit' : offset + n.getSize ≤
      (splice view offset (natToBytes n.getSize (toUnsigned n.getSize v))).length := by
    rw [splice_length _ _ _ (by rw [hlen]; exact hfit)]
    exact hfit
  have hs : slice (splice view offset (natToBytes n.getSize (toUnsigned n.getSize v))) offset
      n.getSize = natToBytes n.getSize (toUnsigned n.getSize v) := by
    have := slice_splice view offset (natToBytes n.getSize (toUnsigned n.getSize v))
      (by rw [hlen]; exact hfit)
    rwa [hlen] at this
  have hp : (0 : Int) < ((256 ^ n.getSize : Nat) : Int) := by positivity
  have hlt : toUnsigned n.getSize v < 256 ^ n.getSize := by
    have := Int.emod_lt_of_pos v hp
    have := Int.emod_nonneg v (ne_of_gt hp)
    simp only [toUnsigned]
    omega
  refine ⟨num_dump_int host n hn' _ view offset hfit, ?_⟩
  rw [num_parse_int n hn' _ offset hfit', hs, bytesToNat_natToBytes, Nat.mod_eq_of_lt hlt]

/-- Claim C22: for every integer primitive of width `w = 8 * getSize()` bits and
every integer `v`, in range or not, `dump(v, view, offset)` fails exactly when
the `w / 8` bytes do not fit in the view (with a RangeError, whatever `v` is),
and when they fit, `parse(view, offset)` on the written view returns a value
`r` of the range of the primitive with `r ≡ v (mod 2^w)`; `r` is the only value
of the range congruent to `v`. -/
theorem int_dump_wraps (host : Host) (n : Num) (hn : n.isInteger = true) (v : Int)
    (view : DataView) (offset : Nat) :
    (¬ offset + n.getSize ≤ view.length →
      n.dump host (.number v) view offset = .error (.RangeError, view)) ∧
    (offset + n.getSize ≤ view.length →
      ∃ view' r, n.dump host (.number v) view offset = .ok view' ∧
        n.parse view' offset = .ok (.number r) ∧
        n.inRange r = true ∧ Int.ModEq (2 ^ (8 * n.getSize)) r v ∧
        ∀ r', n.inRange r' = true → Int.ModEq (2 ^ (8 * n.getSize)) r' v → r' = r) := by
  constructor
  · intro hfit
    cases n
    case float_t => simp [Num.isInteger] at hn
    case double_t => simp [Num.isInteger] at hn
    all_goals
      simp only [Num.getSize, Num._size] at hfit
      simp only [Num.dump, Num.__writeView, _set_int8, _set_uint8, _set_int16, _set_uint16,
        _set_int32, _set_uint32, DataView.setInt8, DataView.setUint8, DataView.setInt16,
        DataView.setUint16, DataView.setInt32, DataView.setUint32, DataView.setInt,
        DataView.setBytes, natToBytes_length, if_true, if_neg hfit, raiseAt]
  · intro hfit
    obtain ⟨hd, hp⟩ := num_parse_dump_int host n hn v view offset hfit
    refine ⟨_, _, hd, hp, ?_⟩
    cases n
    case float_t => simp [Num.isInteger] at hn
    case double_t => simp [Num.isInteger] at hn
    all_goals
      simp only [Num.signed, Num.getSize, Num._size, Num.inRange, toSigned, toUnsigned,
        Int.ModEq, if_true, Bool.false_eq_true, if_false, decide_eq_true_eq, Nat.reducePow,
        Nat.reduceMul, Int.reducePow, Nat.cast_ofNat]
      refine ⟨?_, ?_, ?_⟩
      · omega
      · omega
      · intro r' h1 h3
        omega

theorem int_dump_wraps_witness :
    Num.isInteger .int8_t = true ∧ 1 + Num.getSize .int8_t ≤ [(7 : Byte), 7].length ∧
    Num.dump sampleHost .int8_t (.number 200) [7, 7] 1 = .ok [7, 200] ∧
    Num.parse .int8_t [7, 200] 1 = .ok (.number (-56)) ∧
    Num.dump sampleHost .uint16_t (.number (-2)) [7, 7, 7] 1 = .ok [7, 254, 255] ∧
    Num.parse .uint16_t [7, 254, 255] 1 = .ok (.number 65534) ∧
    ∃ view' r, Num.dump sampleHost .int8_t (.number 200) [7, 7] 1 = .ok view' ∧
      Num.parse .int8_t view' 1 = .ok (.number r) ∧
      Num.inRange .int8_t r = true ∧ Int.ModEq (2 ^ (8 * Num.getSize .int8_t)) r 200 ∧
      ∀ r', Num.inRange .int8_t r' = true →
        Int.ModEq (2 ^ (8 * Num.getSize .int8_t)) r' 200 → r' = r :=
  ⟨rfl, by decide, rfl, rfl, rfl, rfl,
    (int_dump_wraps sampleHost .int8_t rfl 200 [7, 7] 1).2 (by decide)⟩

/-! ## Windows of two views with the same bytes -/

theorem slice_slice (view : List Byte) (o n a k : Nat) (h : a + k ≤ n) :
    slice (slice view o n) a k = slice view (o + a) k := by
  simp only [slice, List.drop_take, List.take_take, List.drop_drop]
  rw [Nat.min_eq_left (by omega)]

theorem sameWindow_sub (view view' : DataView) (o o' n a k : Nat)
    (h : SameWindow view view' o o' n) (hk : a + k ≤ n) :
    SameWindow view view' (o + a) (o' + a) k := by
  obtain ⟨h1, h2, h3⟩ := h
  refine ⟨by omega, by omega, ?_⟩
  rw [← slice_slice view o n a k hk, ← slice_slice view' o' n a k hk, h3]

theorem getBytes_window (view view' : DataView) (o o' w : Nat)
    (h : SameWindow view view' o o' w) :
    view.getBytes o w = view'.getBytes o' w := by
  obtain ⟨h1, h2, h3⟩ := h
  simp only [DataView.getBytes, if_pos h1, if_pos h2, h3]

theorem num_parse_window (n : Num) (view view' : DataView) (o o' : Nat)
    (h : SameWindow view view' o o' n.getSize) : n.parse view o = n.parse view' o' := by
  cases n <;>
    simp only [Num.getSize, Num._size] at h <;>
    simp only [Num.parse, Num.__readView, _get_int8, _get_uint8, _get_int16, _get_uint16,
      _get_int32, _get_uint32, _get_float, _get_double, DataView.getInt8, DataView.getUint8,
      DataView.getInt16, DataView.getUint16, DataView.getInt32, DataView.getUint32,
      DataView.getInt, DataView.getUint, getBytes_window view view' o o' _ h]

theorem collectRange_congr {α : Type} (f g : Nat → Except JSError α) :
    ∀ (count i : Nat), (∀ j, i ≤ j → j < i + count → f j = g j) →
      collectRange f count i = collectRange g count i := by
  intro count
  induction count with
  | zero => intro i _; rfl
  | succ count ih =>
    intro i h
    simp only [collectRange]
    rw [h i (Nat.le_refl i) (by omega), ih (i + 1) (fun j h1 h2 => h j (by omega) (by omega))]

theorem string_parse_window (size : Nat) (wide : Bool) (view view' : DataView) (o o' : Nat)
    (h : SameWindow view view' o o' (FixedLengthString.getSize size wide)) :
    FixedLengthString.parse size wide view o = FixedLengthString.parse size wide view' o' := by
  simp only [FixedLengthString.parse]
  rw [collectRange_congr _
    (fun i => if wide then DataView.getInt16 view' (o' + i * 2) false
      else DataView.getInt8 view' (o' + i)) size 0]
  intro j _ hj
  cases wide
  · simp only [FixedLengthString.getSize, Bool.false_eq_true, if_false, Nat.mul_one] at h
    simp only [Bool.false_eq_true, if_false, DataView.getInt8, DataView.getInt,
      getBytes_window view view' (o + j) (o' + j) 1
        (sameWindow_sub view view' o o' size j 1 h (by omega))]
  · simp only [FixedLengthString.getSize, if_true] at h
    simp only [if_true, DataView.getInt16, DataView.getInt,
      getBytes_window view view' (o + j * 2) (o' + j * 2) 2
        (sameWindow_sub view view' o o' (size * 2) (j * 2) 2 h (by omega))]

mutual
/-- The result of `parse` is a function of the `getSize()` bytes at the offset. -/
theorem parse_window : ∀ (m : Model) (view view' : DataView) (o o' : Nat),
    SameWindow view view' o o' m.getSize → m.parse view o = m.parse view' o'
  | .ConstModel _, _, _, _, _, _ => rfl
  | .ValueModel (.Num n), view, view', o, o', h => by
    simp only [Model.getSize, Value.getSize] at h
    simpa [Model.parse, Value.parse] using num_parse_window n view view' o o' h
  | .ValueModel (.FixedLengthString size wide), view, view', o, o', h => by
    simp only [Model.getSize, Value.getSize] at h
    simpa [Model.parse, Value.parse] using string_parse_window size wide view view' o o' h
  | .ArrayModel base size, view, view', o, o', h => by
    simp only [Model.getSize] at h
    have := collectRange_congr
      (fun i => Model.parse base view (o + i * base.getSize))
      (fun i => Model.parse base view' (o' + i * base.getSize)) size 0
      (fun j _ hj => parse_window base view view' (o + j * base.getSize)
        (o' + j * base.getSize)
        (sameWindow_sub view view' o o' _ (j * base.getSize) base.getSize h (by
          have : (j + 1) * base.getSize ≤ size * base.getSize :=
            Nat.mul_le_mul_right _ (by omega)
          rw [Nat.mul_comm base.getSize size]
          rw [Nat.add_mul, Nat.one_mul] at this
          exact this)))
    simp only [Model.parse, this]
  | .ObjectModel children, view, view', o, o', h => by
    simp only [Model.getSize] at h
    simp only [Model.parse, parseChildren_window children view view' o o' [] h]
theorem parseChildren_window : ∀ (children : List (String × Model)) (view view' : DataView)
    (o o' : Nat) (ret : List (String × JSValue)),
    SameWindow view view' o o' (Model.childrenSize children) →
    Model.parseChildren children view o ret = Model.parseChildren children view' o' ret
  | [], _, _, _, _, _, _ => rfl
  | child :: rest, view, view', o, o', ret, h => by
    simp only [Model.childrenSize] at h
    simp only [Model.parseChildren]
    rw [parse_window child.2 view view' o o'
      (by simpa using sameWindow_sub view view' o o' _ 0 child.2.getSize h (by omega))]
    cases child.2.parse view' o' with
    | error e => rfl
    | ok x =>
      simp only
      exact parseChildren_window rest view view' (o + child.2.getSize) (o' + child.2.getSize) _
        (sameWindow_sub view view' o o' _ child.2.getSize (Model.childrenSize rest) h
          (Nat.le_refl _))
end


/-! ## Two-phase parsing -/

theorem getModel_suffixSchema (n : Nat) :
    _getModel (suffixSchema n) =
      .ObjectModel [("filename", .ValueModel (.FixedLengthString n false))] := rfl

theorem getModel_oneShotSchema (H : Schema) (n : Nat) :
    _getModel (oneShotSchema H n) =
      .ObjectModel [("header", _getModel H), ("suffix", _getModel (suffixSchema n))] := rfl

theorem suffix_getSize (n : Nat) : (_getModel (suffixSchema n)).getSize = n := by
  rw [getModel_suffixSchema]
  simp [Model.getSize, Model.childrenSize, Value.getSize, FixedLengthString.getSize]

/-- The suffix model parses `n` bytes to a record with the one field
`filename`, a string of `n` code units. -/
theorem suffix_parse (n : Nat) (view : DataView) (o : Nat) (h : o + n ≤ view.length) :
    (_getModel (suffixSchema n)).parse view o =
      .ok (.object [("filename",
        .string ((slice view o n).map (fun b => ToUint16 (toSigned 1 b.val))))]) := by
  rw [getModel_suffixSchema]
  simp only [Model.parse, Model.parseChildren, Value.parse, string_parse_narrow n view o h]
  rfl

theorem parse_header_suffix (m1 m2 : Model) (view : DataView) (o : Nat) (x1 x2 : JSValue)
    (h1 : m1.parse view o = .ok x1) (h2 : m2.parse view (o + m1.getSize) = .ok x2) :
    (Model.ObjectModel [("header", m1), ("suffix", m2)]).parse view o =
      .ok (.object [("header", x1), ("suffix", x2)]) := by
  simp only [Model.parse, Model.parseChildren, h1, h2]
  rfl

/-- Claim C21: two-phase parsing agrees with one-shot parsing.  For every
header schema `H`, every `n` and every buffer `b` of `H.size() + n` bytes from
which the header facade parses a `header` whose length field `lengthField`
decodes to `n`: the header parse consumes `H.size()` bytes; the facade compiled
from `{filename: fixed_length_string_t(n)}` parses the next `n` bytes to a
record whose `filename` has as many code units as the length field says; and
the facade of the single record `{header: H, suffix: {filename: ...}}` parses
`b` to exactly that header and that suffix.  The sizes of the two facades add
up to the size of the single record.  Compiled models are values: `_getModel`
and `modelOf` assign only to the objects they create, so the header facade has
the same size and parse result after the suffix is compiled as before. -/
theorem two_phase_parse (H : Schema) (lengthField : String) (n : Nat) (b : ArrayBuffer)
    (header : JSValue)
    (hb : b.length = (modelOf H).size + n)
    (hh : ((modelOf H).parseWith (readSequential b) 0).1 = .ok header)
    (hn : header.getField lengthField = .ok (.number n)) :
    ∃ units : List CodeUnit,
      header.getField lengthField = .ok (.number units.length) ∧
      (modelOf H).parseWith (readSequential b) 0 = (.ok header, (modelOf H).size) ∧
      (modelOf (suffixSchema n)).parseWith (readSequential b) (modelOf H).size =
        (.ok (.object [("filename", .string units)]), b.length) ∧
      (modelOf (oneShotSchema H n)).parseWith (readSequential b) 0 =
        (.ok (.object [("header", header), ("suffix", .object [("filename", .string units)])]),
          b.length) ∧
      (modelOf (oneShotSchema H n)).size = (modelOf H).size + (modelOf (suffixSchema n)).size := by
  have hsz : (modelOf (oneShotSchema H n)).size = (_getModel H).getSize + n := by
    simp only [modelOf, Facade.size]
    rw [getModel_oneShotSchema]
    have hs := suffix_getSize n
    generalize _getModel (suffixSchema n) = sm at hs ⊢
    simp only [Model.getSize, Model.childrenSize, hs, Nat.add_zero]
  simp only [modelOf, Facade.size] at hb hsz
  have h1 : (_getModel H).parse (slice b 0 (_getModel H).getSize) 0 = .ok header := by
    simpa [modelOf, Facade.parseWith, readSequential] using hh
  have hl1 : (slice b 0 (_getModel H).getSize).length = (_getModel H).getSize :=
    slice_length b 0 _ (by omega)
  have hl2 : (slice b (_getModel H).getSize n).length = n := slice_length b _ n (by omega)
  have w1 : SameWindow b (slice b 0 (_getModel H).getSize) 0 0 (_getModel H).getSize :=
    ⟨by omega, by omega, by rw [slice_slice b 0 _ 0 _ (by omega)]⟩
  have w2 : SameWindow b (slice b (_getModel H).getSize n) (0 + (_getModel H).getSize) 0
      (_getModel (suffixSchema n)).getSize := by
    rw [suffix_getSize]
    exact ⟨by omega, by omega, by rw [slice_slice b _ _ 0 _ (by omega)]; simp⟩
  have h2 := suffix_parse n (slice b (_getModel H).getSize n) 0 (by omega)
  refine ⟨(slice (slice b (_getModel H).getSize n) 0 n).map
    (fun b => ToUint16 (toSigned 1 b.val)), ?_, ?_, ?_, ?_, ?_⟩
  · rw [hn, List.length_map, slice_length _ 0 n (by omega)]
  · simp only [modelOf, Facade.parseWith, Facade.size, readSequential, h1, Nat.zero_add]
  · simp only [modelOf, Facade.parseWith, Facade.size, readSequential, suffix_getSize, h2, hb]
  · have hfull : slice b 0 ((_getModel H).getSize + n) = b := by
      rw [← hb, slice_zero_full]
    simp only [modelOf, Facade.parseWith, Facade.size, readSequential]
    rw [hsz, hfull]
    rw [getModel_oneShotSchema,
      parse_header_suffix _ _ b 0 header _ (by rw [parse_window _ b _ 0 0 w1]; exact h1)
        (by rw [parse_window _ b _ _ 0 w2]; exact h2), hb, Nat.zero_add]
  · simp only [modelOf, Facade.size, suffix_getSize]
    exact hsz

theorem two_phase_parse_witness :
    sampleRecord.length = (modelOf sampleHeader).size + 5 ∧
    ((modelOf sampleHeader).parseWith (readSequential sampleRecord) 0).1 =
      .ok (.object [("version", .number 20), ("name_length", .number 5)]) ∧
    (modelOf (suffixSchema 5)).parseWith (readSequential sampleRecord) 4 =
      (.ok (.object [("filename", .string [0x61, 0x62, 0x2E, 0x6A, 0x73])]), 9) ∧
    ∃ units : List CodeUnit,
      (JSValue.object [("version", .number 20), ("name_length", .number 5)]).getField
        "name_length" = .ok (.number units.length) ∧
      (modelOf sampleHeader).parseWith (readSequential sampleRecord) 0 =
        (.ok (.object [("version", .number 20), ("name_length", .number 5)]),
          (modelOf sampleHeader).size) ∧
      (modelOf (suffixSchema 5)).parseWith (readSequential sampleRecord)
          (modelOf sampleHeader).size =
        (.ok (.object [("filename", .string units)]), sampleRecord.length) ∧
      (modelOf (oneShotSchema sampleHeader 5)).parseWith (readSequential sampleRecord) 0 =
        (.ok (.object [("header", .object [("version", .number 20), ("name_length", .number 5)]),
          ("suffix", .object [("filename", .string units)])]), sampleRecord.length) ∧
      (modelOf (oneShotSchema sampleHeader 5)).size =
        (modelOf sampleHeader).size + (modelOf (suffixSchema 5)).size :=
  ⟨rfl, rfl, rfl,
    two_phase_parse sampleHeader "name_length" 5 sampleRecord
      (.object [("version", .number 20), ("name_length", .number 5)]) rfl rfl rfl⟩

/-! ## The cursor of a blob reader -/

theorem readBytes_spec (host : BlobHost) (hexact : host.Exact) (r : BlobReader)
    (hr : r.Inv host) (n : Int) (hn : 0 ≤ n) :
    ∃ buffer, r.readBytes host (some n) =
        (some buffer, { r with _offset := r._offset + min n (r._size - r._offset) }) ∧
      (buffer.length : Int) = min n (r._size - r._offset) := by
  obtain ⟨h0, h1, h2⟩ := hr
  have hmin : (if r._size ≤ r._offset + n then r._size - r._offset else n) =
      min n (r._size - r._offset) := by
    split <;> omega
  obtain ⟨buffer, hb, hl⟩ := hexact r._offset (min n (r._size - r._offset)) h0 (by omega)
    (by omega)
  refine ⟨buffer, ?_, hl⟩
  simp only [BlobReader.readBytes, hmin, hb, hl]

theorem skip_spec (r : BlobReader) (n : Int) :
    r.skip n = { r with _offset := r._offset + min n (r._size - r._offset) } := by
  have : (if r._offset + n > r._size then r._size else r._offset + n) =
      r._offset + min n (r._size - r._offset) := by
    split <;> omega
  simp only [BlobReader.skip, this]

theorem inv_call (host : BlobHost) (hexact : host.Exact) (r : BlobReader) (hr : r.Inv host)
    (c : BlobCall) (hc : 0 ≤ c.arg) : (r.call host c).Inv host := by
  have hr' := hr
  obtain ⟨h0, h1, h2⟩ := hr'
  cases c with
  | readBytes n =>
    obtain ⟨buffer, hb, _⟩ := readBytes_spec host hexact r hr n hc
    simp only [BlobReader.call, hb, BlobReader.Inv]
    simp only [BlobCall.arg] at hc
    omega
  | skip n =>
    simp only [BlobCall.arg] at hc
    simp only [BlobReader.call, skip_spec r n, BlobReader.Inv]
    omega
  | reset =>
    simp only [BlobReader.call, BlobReader.reset, BlobReader.Inv]
    omega

theorem inv_calls (host : BlobHost) (hexact : host.Exact) (cs : List BlobCall) :
    ∀ (r : BlobReader), r.Inv host → (∀ c ∈ cs, 0 ≤ c.arg) → (r.calls host cs).Inv host := by
  induction cs with
  | nil => intro r hr _; exact hr
  | cons c cs ih =>
    intro r hr hcs
    simp only [BlobReader.calls, List.foldl_cons]
    exact ih _ (inv_call host hexact r hr c (hcs c (List.mem_cons_self _ _)))
      (fun d hd => hcs d (List.mem_cons_of_mem _ hd))

theorem inv_new (host : BlobHost) : (BlobReader.new host).Inv host := by
  simp [BlobReader.new, BlobReader.Inv]

theorem sliceHost_exact (data : List Byte) : (sliceHost data).Exact := by
  intro offset n h0 hn hfit
  refine ⟨_, rfl, ?_⟩
  simp only [sliceHost] at hfit
  rw [slice_length data offset.toNat n.toNat (by omega)]
  omega

/-- Claim C23: the cursor of a `BlobReader` stays inside the blob.  On a host
that returns exactly the number of bytes requested, a new reader has
`0 ≤ _offset ≤ _size` with `_size` the size of the blob, and the reader `r`
reached from any reader `r0` with this property by any sequence of calls
`readBytes(n)`, `skip(n)` and `reset()` with `n ≥ 0` has it too.  On `r`,
`readBytes(n)` returns `min(n, _size - _offset)` bytes and
advances `_offset` by that amount, `skip(n)` advances it by
`min(n, _size - _offset)`, `reset()` sets it to 0, and `bytesAvaliable()` is
`_size - _offset`, which is not negative. -/
theorem blob_cursor (host : BlobHost) (hexact : host.Exact) (cs : List BlobCall)
    (hcs : ∀ c ∈ cs, 0 ≤ c.arg) (r0 : BlobReader) (h0 : r0.Inv host) (r : BlobReader)
    (hr : r = r0.calls host cs) :
    (BlobReader.new host).Inv host ∧
    (0 ≤ r._offset ∧ r._offset ≤ r._size) ∧ r._size = host.__blob_size ∧
    (∀ n : Int, 0 ≤ n → ∃ buffer, (r.readBytes host (some n)).1 = some buffer ∧
      (buffer.length : Int) = min n (r._size - r._offset) ∧
      (r.readBytes host (some n)).2._offset = r._offset + min n (r._size - r._offset) ∧
      (r.readBytes host (some n)).2._size = r._size) ∧
    (∀ n : Int, 0 ≤ n → (r.skip n)._offset = r._offset + min n (r._size - r._offset) ∧
      (r.skip n)._size = r._size) ∧
    (r.reset._offset = 0 ∧ r.reset._size = r._size) ∧
    r.bytesAvaliable host = r._size - r._offset ∧ 0 ≤ r.bytesAvaliable host := by
  have hinv : r.Inv host := by
    rw [hr]
    exact inv_calls host hexact cs _ h0 hcs
  have hinv' := hinv
  obtain ⟨h0, h1, h2⟩ := hinv'
  refine ⟨inv_new host, ⟨h0, h1⟩, h2, ?_, ?_, ⟨rfl, rfl⟩, ?_, ?_⟩
  · intro n hn
    obtain ⟨buffer, hb, hl⟩ := readBytes_spec host hexact r hinv n hn
    exact ⟨buffer, by rw [hb], hl, by rw [hb], by rw [hb]⟩
  · intro n hn
    rw [skip_spec r n]
    exact ⟨rfl, rfl⟩
  · simp only [BlobReader.bytesAvaliable, BlobReader.size, h2]
  · simp only [BlobReader.bytesAvaliable, BlobReader.size]
    omega

theorem blob_cursor_witness :
    (sliceHost [1, 2, 3, 4, 5]).Exact ∧ (∀ c ∈ sampleCalls, 0 ≤ c.arg) ∧
    (BlobReader.new (sliceHost [1, 2, 3, 4, 5])).calls (sliceHost [1, 2, 3, 4, 5])
      [.readBytes 2, .skip 10] = ⟨5, 5⟩ ∧
    (⟨4, 5⟩ : BlobReader) =
      (BlobReader.new (sliceHost [1, 2, 3, 4, 5])).calls (sliceHost [1, 2, 3, 4, 5]) sampleCalls ∧
    ((⟨4, 5⟩ : BlobReader).readBytes (sliceHost [1, 2, 3, 4, 5]) (some 3)).1 = some [5] ∧
    (BlobReader.new (sliceHost [1, 2, 3, 4, 5])).Inv (sliceHost [1, 2, 3, 4, 5]) ∧
    ((BlobReader.new (sliceHost [1, 2, 3, 4, 5])).Inv (sliceHost [1, 2, 3, 4, 5]) ∧
      (0 ≤ (⟨4, 5⟩ : BlobReader)._offset ∧
        (⟨4, 5⟩ : BlobReader)._offset ≤ (⟨4, 5⟩ : BlobReader)._size) ∧
      (⟨4, 5⟩ : BlobReader)._size = (sliceHost [1, 2, 3, 4, 5]).__blob_size ∧
      (∀ n : Int, 0 ≤ n →
        ∃ buffer, ((⟨4, 5⟩ : BlobReader).readBytes (sliceHost [1, 2, 3, 4, 5]) (some n)).1 =
            some buffer ∧
          (buffer.length : Int) =
            min n ((⟨4, 5⟩ : BlobReader)._size - (⟨4, 5⟩ : BlobReader)._offset) ∧
          ((⟨4, 5⟩ : BlobReader).readBytes (sliceHost [1, 2, 3, 4, 5]) (some n)).2._offset =
            (⟨4, 5⟩ : BlobReader)._offset +
              min n ((⟨4, 5⟩ : BlobReader)._size - (⟨4, 5⟩ : BlobReader)._offset) ∧
          ((⟨4, 5⟩ : BlobReader).readBytes (sliceHost [1, 2, 3, 4, 5]) (some n)).2._size =
            (⟨4, 5⟩ : BlobReader)._size) ∧
      (∀ n : Int, 0 ≤ n →
        ((⟨4, 5⟩ : BlobReader).skip n)._offset =
            (⟨4, 5⟩ : BlobReader)._offset +
              min n ((⟨4, 5⟩ : BlobReader)._size - (⟨4, 5⟩ : BlobReader)._offset) ∧
          ((⟨4, 5⟩ : BlobReader).skip n)._size = (⟨4, 5⟩ : BlobReader)._size) ∧
      ((⟨4, 5⟩ : BlobReader).reset._offset = 0 ∧
        (⟨4, 5⟩ : BlobReader).reset._size = (⟨4, 5⟩ : BlobReader)._size) ∧
      (⟨4, 5⟩ : BlobReader).bytesAvaliable (sliceHost [1, 2, 3, 4, 5]) =
        (⟨4, 5⟩ : BlobReader)._size - (⟨4, 5⟩ : BlobReader)._offset ∧
      0 ≤ (⟨4, 5⟩ : BlobReader).bytesAvaliable (sliceHost [1, 2, 3, 4, 5])) :=
  ⟨sliceHost_exact _, by decide, rfl, rfl, rfl, inv_new _,
    blob_cursor (sliceHost [1, 2, 3, 4, 5]) (sliceHost_exact _) sampleCalls (by decide)
      (BlobReader.new (sliceHost [1, 2, 3, 4, 5])) (inv_new _) ⟨4, 5⟩ rfl⟩

end Ctypes
